import Mathlib

/-!
# Quadrature rules of SeisSol (`src/Numerical_aux/Quadrature.h`)

A shallow embedding of `GaussLegendre`, `GaussJacobi` and `TriangleQuadrature`.

Modelling conventions.

* There are two embeddings of the generators.  In the first, `double` values are elements of an
  arbitrary linearly ordered field `K` and arithmetic is exact: there is no rounding, every value
  is a number, and division follows the field convention `x / 0 = 0`.  `cos` and `M_PI` are
  parameters (`cos`, `pi`); theorems that need their values instantiate `K = ℝ`,
  `cos = Real.cos` and `pi = Real.pi` or the `double` constant `M_PI`.  The decimal constants
  `0.5`, `0.25`, `0.125` are `1/2`, `1/4`, `1/8`.
* In the second, every operation on `double` values is left to an interpretation `A : Arith V`
  (`GaussLegendreA`, `GaussJacobiA`, `newtonA`).  The ordered field is one interpretation
  (`fieldArith`, under which the second embedding is the first: `GaussLegendreA_field`,
  `GaussJacobiA_field`); IEEE 754 double arithmetic (`Dbl`, `ieee`), with rounding to nearest,
  infinities and not-a-number, is another.  What is proved in the first embedding is a statement
  about exact arithmetic; what is proved for every `A` holds in IEEE arithmetic too.
* `unsigned` values are natural numbers below `2^32`; every `unsigned` operation of the source
  is written with its wrap-around (`wrap32`, `usub`).
* Every C++ loop is run with a fuel argument and returns `none` when the fuel is exhausted.
* An output array is a `Buf`: its contents together with the record of the stores made to it.
* `functions::factorial`, `functions::JacobiP` and `functions::JacobiPFirstDerivative` live in
  `Numerical_aux/Functions.h`; they are the parameter `F : Functions K`.
-/

namespace seissol.quadrature

/-! ## Machine integers -/

/-- Largest value of a 32-bit `unsigned`. -/
def UINT_MAX : Nat := 4294967295

/-- Result of a 32-bit `unsigned` operation whose mathematical value is `x`. -/
def wrap32 (x : Nat) : Nat := x % 4294967296

/-- Subtraction `a - b` of 32-bit `unsigned` values. -/
def usub (a b : Nat) : Nat := wrap32 (a + 4294967296 - b)

/-- The `int` expression `1 << s` in 32-bit two's complement: `2^s` for `s < 31` and `-2^31`
for `s = 31`; a shift by `32` or more is undefined in C++ and is `0` here. -/
def shl1 (s : Nat) : Int := Int.bmod (2 ^ s) 4294967296

/-! ## Constants -/

/-- `static unsigned const MaxIterations = 100;` -/
def MaxIterations : Nat := 100

/-- `static double const Tolerance = 10.*std::numeric_limits<double>::epsilon();`
with `epsilon = 2^-52`. -/
def Tolerance {K : Type} [LinearOrderedField K] : K := 10 * (1 / 2 ^ 52)

/-! ## Output arrays -/

/-- An array: its contents by index, and the record of the stores made to it (the indices
stored to and the values stored, both most recent first). -/
structure Buf (α : Type) where
  /-- The contents. -/
  val : Nat → α
  /-- The indices stored to, most recent first. -/
  log : List Nat
  /-- The values stored, most recent first. -/
  stored : List α

/-- The store `b[i] = v`. -/
def Buf.write {α : Type} (b : Buf α) (i : Nat) (v : α) : Buf α :=
  ⟨Function.update b.val i v, i :: b.log, v :: b.stored⟩

/-- A caller's array holding `v` before the call, nothing stored yet. -/
def Buf.init {α : Type} (v : Nat → α) : Buf α := ⟨v, [], []⟩

/-- The scratch array of `new double[n]`: its contents are indeterminate in C++ and taken as `0`
here; every entry that is read later has been stored to before. -/
def Buf.fresh {K : Type} [Zero K] : Buf K := ⟨fun _ => 0, [], []⟩

/-! ## Loops -/

/-- The loop `for (unsigned i = i0; i <= hi; ++i) body`, started at `i`. -/
def forLe {σ : Type} (hi : Nat) (body : Nat → σ → Option σ) : Nat → Nat → σ → Option σ
  | 0, _, _ => none
  | fuel + 1, i, s =>
    if i ≤ hi then (body i s).bind (forLe hi body fuel (wrap32 (i + 1))) else some s

/-- The loop `for (unsigned i = i0; i < hi; ++i) body`, started at `i`. -/
def forLt {σ : Type} (hi : Nat) (body : Nat → σ → Option σ) : Nat → Nat → σ → Option σ
  | 0, _, _ => none
  | fuel + 1, i, s =>
    if i < hi then (body i s).bind (forLt hi body fuel (wrap32 (i + 1))) else some s

/-- The Newton loop
`do { x -= Pn/dPn; (Pn, dPn) = eval(x); } while (fabs(Pn) > Tolerance && ++it < MaxIterations);`
started with iteration counter `it`; returns the final `(x, Pn, dPn)`. -/
def newton {K : Type} [LinearOrderedField K] (eval : K → Option (K × K)) :
    Nat → Nat → K → K → K → Option (K × K × K)
  | 0, _, _, _, _ => none
  | fuel + 1, it, x, Pn, dPn =>
    let x1 := x - Pn / dPn
    (eval x1).bind fun r =>
      if |r.1| > Tolerance ∧ it + 1 < MaxIterations then newton eval fuel (it + 1) x1 r.1 r.2
      else some (x1, r.1, r.2)

/-! ## GaussLegendre -/

/-- One pass of the recurrence loop body, on the pair `(Pn_1, Pn)`:
`Pn_2 = Pn_1; Pn_1 = Pn; Pn = ((2.*j-1.) * x * Pn_1 - (j-1.) * Pn_2) / j;` -/
def legendreStep {K : Type} [LinearOrderedField K] (x : K) (j : Nat) (s : K × K) : K × K :=
  let Pn_2 := s.1
  let Pn_1 := s.2
  (Pn_1, ((2 * (j : K) - 1) * x * Pn_1 - ((j : K) - 1) * Pn_2) / (j : K))

/-- The inner part of the Newton loop body of `GaussLegendre`: the recurrence loop from
`Pn_1 = 0.0; Pn = 1.0;` and the derivative `dPn = (n*Pn_1 - n*x*Pn) / (1.-x*x)`.
Returns `(Pn, dPn)`. -/
def legendreEval {K : Type} [LinearOrderedField K] (fuel n : Nat) (x : K) : Option (K × K) :=
  (forLe n (fun j s => some (legendreStep x j s)) fuel 1 ((0 : K), (1 : K))).bind fun s =>
    let Pn_1 := s.1
    let Pn := s.2
    some (Pn, ((n : K) * Pn_1 - (n : K) * x * Pn) / (1 - x * x))

/-- The body of the outer loop of `GaussLegendre` for the index `i`, on `(points, weights)`. -/
def legendreBody {K : Type} [LinearOrderedField K] (cos : K → K) (pi : K) (fuel n i : Nat)
    (pw : Buf K × Buf K) : Option (Buf K × Buf K) :=
  (newton (legendreEval fuel n) fuel 0
      (cos (pi * (4 * (i : K) - 1) / (4 * (n : K) + 2))) 0 1).bind fun r =>
    let x := r.1
    let dPn := r.2.2
    let w := 2 / ((1 - x * x) * dPn * dPn)
    some ((pw.1.write (usub i 1) (-x)).write (usub n i) x,
          (pw.2.write (usub i 1) w).write (usub n i) w)

/-- `static void GaussLegendre(double* points, double* weights, unsigned n)`. -/
def GaussLegendre {K : Type} [LinearOrderedField K] (cos : K → K) (pi : K) (fuel : Nat)
    (points weights : Buf K) (n : Nat) : Option (Buf K × Buf K) :=
  let nh := wrap32 (n + 1) / 2
  forLe nh (legendreBody cos pi fuel n) fuel 1 (points, weights)

/-! ## GaussJacobi -/

/-- The polynomial service declared in `Numerical_aux/Functions.h`: `factorial`,
`JacobiP(n, a, b, x)` and `JacobiPFirstDerivative(n, a, b, x)`. -/
structure Functions (K : Type) where
  /-- `functions::factorial`. -/
  factorial : Nat → Int
  /-- `functions::JacobiP`. -/
  JacobiP : Nat → Nat → Nat → K → K
  /-- `functions::JacobiPFirstDerivative`. -/
  JacobiPFirstDerivative : Nat → Nat → Nat → K → K

/-- The normalisation constant
`-(2.0*n+a+b+2) * factorial(n+a) * factorial(n+b) * (1 << (a+b)) /
 ((n+a+b+1.0) * factorial(n+a+b) * factorial(n+1))`. -/
def weightFactor {K : Type} [LinearOrderedField K] (F : Functions K) (n a b : Nat) : K :=
  (-(2 * (n : K) + (a : K) + (b : K) + 2)) * (F.factorial (wrap32 (n + a)) : K)
      * (F.factorial (wrap32 (n + b)) : K) * (shl1 (wrap32 (a + b)) : K) /
    (((wrap32 (wrap32 (n + a) + b) : K) + 1) * (F.factorial (wrap32 (wrap32 (n + a) + b)) : K)
      * (F.factorial (wrap32 (n + 1)) : K))

/-- The Newton loop body of `GaussJacobi`: `Pn = JacobiP(n, a, b, x)` and
`dPn = JacobiPFirstDerivative(n, a, b, x)`. -/
def jacobiEval {K : Type} (F : Functions K) (n a b : Nat) (x : K) : Option (K × K) :=
  some (F.JacobiP n a b x, F.JacobiPFirstDerivative n a b x)

/-- The body of the outer loop of `GaussJacobi` for the index `i`, on `(points, weights)`. -/
def jacobiBody {K : Type} [LinearOrderedField K] (F : Functions K) (cos : K → K) (pi : K)
    (fuel n a b i : Nat) (pw : Buf K × Buf K) : Option (Buf K × Buf K) :=
  (newton (jacobiEval F n a b) fuel 0
      (cos (pi * (1 / 2 * (a : K) + (i : K) - 1 / 4)
        / (1 / 2 * (1 + (a : K) + (b : K)) + (n : K))))
      0 1).bind fun r =>
    let x := r.1
    let dPn := r.2.2
    some (pw.1.write (usub i 1) x,
          pw.2.write (usub i 1)
            (weightFactor F n a b / (F.JacobiP (wrap32 (n + 1)) a b x * dPn)))

/-- `static void GaussJacobi(double* points, double* weights, unsigned n, unsigned a,
unsigned b)`. -/
def GaussJacobi {K : Type} [LinearOrderedField K] (F : Functions K) (cos : K → K) (pi : K)
    (fuel : Nat) (points weights : Buf K) (n a b : Nat) : Option (Buf K × Buf K) :=
  forLe n (jacobiBody F cos pi fuel n a b) fuel 1 (points, weights)

/-! ## TriangleQuadrature -/

/-- The flat index `unsigned idx = i*n + j;`. -/
def flatIndex (n i j : Nat) : Nat := wrap32 (wrap32 (i * n) + j)

/-- The body of the inner loop of `TriangleQuadrature`; the two stores `points[idx][0] = ...`
and `points[idx][1] = ...` are one store of a pair. -/
def triangleBody {K : Type} [LinearOrderedField K] (r0 r1 : Buf K × Buf K) (n i j : Nat)
    (pw : Buf (K × K) × Buf K) : Option (Buf (K × K) × Buf K) :=
  let idx := flatIndex n i j
  some (pw.1.write idx (1 / 2 * (1 + r1.1.val i), 1 / 4 * (1 + r0.1.val j) * (1 - r1.1.val i)),
        pw.2.write idx (r1.2.val i * r0.2.val j * (1 / 8)))

/-- `static void TriangleQuadrature(double (*points)[2], double* weights, unsigned n)`. -/
def TriangleQuadrature {K : Type} [LinearOrderedField K] (F : Functions K) (cos : K → K) (pi : K)
    (fuel : Nat) (points : Buf (K × K)) (weights : Buf K) (n : Nat) :
    Option (Buf (K × K) × Buf K) :=
  (GaussJacobi F cos pi fuel Buf.fresh Buf.fresh n 0 0).bind fun r0 =>
  (GaussJacobi F cos pi fuel Buf.fresh Buf.fresh n 1 0).bind fun r1 =>
    forLt n (fun i pw => forLt n (triangleBody r0 r1 n i) fuel 0 pw) fuel 0 (points, weights)


/-! ## Closed forms of the loops

The definitions of this section are not part of the program: they describe what its loops
compute when the fuel suffices and no counter wraps, and the theorems below relate them to it. -/

/-- Applying `g lo`, `g (lo+1)`, ..., `g (lo+t-1)` in this order. -/
def iterUp {σ : Type} (g : Nat → σ → σ) (lo : Nat) : Nat → σ → σ
  | 0, s => s
  | t + 1, s => g (lo + t) (iterUp g lo t s)

/-- The Newton loop with a total evaluation `e`, where `r` further passes are allowed after the
next one (`r = MaxIterations - 1 - it`); returns the final `(x, Pn, dPn)`. -/
def newtonPure {K : Type} [LinearOrderedField K] (e : K → K × K) :
    Nat → K → K → K → K × K × K
  | 0, x, Pn, dPn => (x - Pn / dPn, (e (x - Pn / dPn)).1, (e (x - Pn / dPn)).2)
  | r + 1, x, Pn, dPn =>
    if |(e (x - Pn / dPn)).1| > Tolerance then
      newtonPure e r (x - Pn / dPn) (e (x - Pn / dPn)).1 (e (x - Pn / dPn)).2
    else (x - Pn / dPn, (e (x - Pn / dPn)).1, (e (x - Pn / dPn)).2)

/-- The pair `(Pn_1, Pn)` after `j` passes of the recurrence loop. -/
def legendreP {K : Type} [LinearOrderedField K] (x : K) : Nat → K × K
  | 0 => (0, 1)
  | j + 1 => legendreStep x (j + 1) (legendreP x j)

/-- The pair `(Pn, dPn)` at the end of one pass of the Newton loop body of `GaussLegendre`. -/
def legendreValue {K : Type} [LinearOrderedField K] (n : Nat) (x : K) : K × K :=
  ((legendreP x n).2,
    ((n : K) * (legendreP x n).1 - (n : K) * x * (legendreP x n).2) / (1 - x * x))

/-- The triple `(x, Pn, dPn)` with which the Newton loop of `GaussLegendre` ends for index `i`. -/
def legendreRoot {K : Type} [LinearOrderedField K] (cos : K → K) (pi : K) (n i : Nat) :
    K × K × K :=
  newtonPure (legendreValue n) (MaxIterations - 1)
    (cos (pi * (4 * (i : K) - 1) / (4 * (n : K) + 2))) 0 1

/-- The weight that `GaussLegendre` computes for index `i`. -/
def legendreWeight {K : Type} [LinearOrderedField K] (cos : K → K) (pi : K) (n i : Nat) : K :=
  2 / ((1 - (legendreRoot cos pi n i).1 * (legendreRoot cos pi n i).1)
    * (legendreRoot cos pi n i).2.2 * (legendreRoot cos pi n i).2.2)

/-- The stores of the outer loop body of `GaussLegendre` for index `i`. -/
def legendreStores {K : Type} [LinearOrderedField K] (cos : K → K) (pi : K) (n i : Nat)
    (pw : Buf K × Buf K) : Buf K × Buf K :=
  ((pw.1.write (i - 1) (-(legendreRoot cos pi n i).1)).write (n - i) (legendreRoot cos pi n i).1,
   (pw.2.write (i - 1) (legendreWeight cos pi n i)).write (n - i) (legendreWeight cos pi n i))

/-- The contents of `points` after the outer loop of `GaussLegendre` has run for `i = 1, ..., t`,
when `p` were the contents before. -/
def legendrePointsAfter {K : Type} [LinearOrderedField K] (cos : K → K) (pi : K) (n t : Nat)
    (p : Nat → K) (k : Nat) : K :=
  if n - t ≤ k ∧ k < n then (legendreRoot cos pi n (n - k)).1
  else if k < t then -(legendreRoot cos pi n (k + 1)).1
  else p k

/-- The contents of `weights` after the outer loop of `GaussLegendre` has run for
`i = 1, ..., t`, when `w` were the contents before. -/
def legendreWeightsAfter {K : Type} [LinearOrderedField K] (cos : K → K) (pi : K) (n t : Nat)
    (w : Nat → K) (k : Nat) : K :=
  if n - t ≤ k ∧ k < n then legendreWeight cos pi n (n - k)
  else if k < t then legendreWeight cos pi n (k + 1)
  else w k

/-- The invariant of the Newton loop for `n = 2`: `x` stays in `[1/2, 1)` and, after the first
update, above the root `1/√3` and within `(1/4)^k` of it (in terms of `x*x`). -/
def twoInv (k : Nat) (x : ℝ) : Prop :=
  1 / 2 ≤ x ∧ x * x ≤ 7 / 12 ∧ (1 ≤ k → 1 / 3 ≤ x * x ∧ x * x - 1 / 3 ≤ (1 / 4) ^ k)

/-- The pair `(Pn, dPn)` at the end of one pass of the Newton loop body of `GaussJacobi`. -/
def jacobiValue {K : Type} (F : Functions K) (n a b : Nat) (x : K) : K × K :=
  (F.JacobiP n a b x, F.JacobiPFirstDerivative n a b x)

/-- The triple `(x, Pn, dPn)` with which the Newton loop of `GaussJacobi` ends for index `i`. -/
def jacobiRoot {K : Type} [LinearOrderedField K] (F : Functions K) (cos : K → K) (pi : K)
    (n a b i : Nat) : K × K × K :=
  newtonPure (jacobiValue F n a b) (MaxIterations - 1)
    (cos (pi * (1 / 2 * (a : K) + (i : K) - 1 / 4)
      / (1 / 2 * (1 + (a : K) + (b : K)) + (n : K))))
    0 1

/-- The weight that `GaussJacobi` computes for index `i`. -/
def jacobiWeight {K : Type} [LinearOrderedField K] (F : Functions K) (cos : K → K) (pi : K)
    (n a b i : Nat) : K :=
  weightFactor F n a b /
    (F.JacobiP (n + 1) a b (jacobiRoot F cos pi n a b i).1 * (jacobiRoot F cos pi n a b i).2.2)

/-- The stores of the outer loop body of `GaussJacobi` for index `i`. -/
def jacobiStores {K : Type} [LinearOrderedField K] (F : Functions K) (cos : K → K) (pi : K)
    (n a b i : Nat) (pw : Buf K × Buf K) : Buf K × Buf K :=
  (pw.1.write (i - 1) (jacobiRoot F cos pi n a b i).1,
   pw.2.write (i - 1) (jacobiWeight F cos pi n a b i))

/-- The rule that `GaussJacobi` leaves in two scratch arrays, for `n < UINT_MAX`. -/
def jacobiRule {K : Type} [LinearOrderedField K] (F : Functions K) (cos : K → K) (pi : K)
    (n a b : Nat) : Buf K × Buf K :=
  iterUp (jacobiStores F cos pi n a b) 1 n (Buf.fresh, Buf.fresh)

/-- The value stored to `points[idx]` by `TriangleQuadrature` for the pair `(i, j)`. -/
def trianglePoint {K : Type} [LinearOrderedField K] (r0 r1 : Buf K × Buf K) (i j : Nat) :
    K × K :=
  (1 / 2 * (1 + r1.1.val i), 1 / 4 * (1 + r0.1.val j) * (1 - r1.1.val i))

/-- The value stored to `weights[idx]` by `TriangleQuadrature` for the pair `(i, j)`. -/
def triangleWeight {K : Type} [LinearOrderedField K] (r0 r1 : Buf K × Buf K) (i j : Nat) : K :=
  r1.2.val i * r0.2.val j * (1 / 8)

/-- The stores of the inner loop body of `TriangleQuadrature` for the pair `(i, j)`. -/
def triangleStores {K : Type} [LinearOrderedField K] (r0 r1 : Buf K × Buf K) (n i j : Nat)
    (pw : Buf (K × K) × Buf K) : Buf (K × K) × Buf K :=
  (pw.1.write (flatIndex n i j) (trianglePoint r0 r1 i j),
   pw.2.write (flatIndex n i j) (triangleWeight r0 r1 i j))

/-- The stores of `TriangleQuadrature` in the order of a single counter `idx = i*n + j`. -/
def triangleLinear {K : Type} [LinearOrderedField K] (r0 r1 : Buf K × Buf K) (n idx : Nat)
    (pw : Buf (K × K) × Buf K) : Buf (K × K) × Buf K :=
  triangleStores r0 r1 n (idx / n) (idx % n) pw

/-- A polynomial service over `ℚ` whose polynomials vanish everywhere (derivative `1`,
factorial `1`); with it every Newton loop of `GaussJacobi` stops at its seed. It serves to
instantiate theorems at a concrete input. -/
def zeroService : Functions ℚ := ⟨fun _ => 1, fun _ _ _ _ => 0, fun _ _ _ _ => 1⟩

/-- Modelled from the spec: the polynomial service of `Numerical_aux/Functions.h` for
`a = b = 0`, "the Legendre polynomial and its derivative", with the values that the recurrence
of `GaussLegendre` computes for them (`a` and `b` are ignored); `factorial` is the factorial. -/
def legendreService {K : Type} [LinearOrderedField K] : Functions K :=
  ⟨fun k => (Nat.factorial k : Int), fun n _ _ x => (legendreValue n x).1,
    fun n _ _ x => (legendreValue n x).2⟩

/-- Modelled from the spec: the polynomial service of `Numerical_aux/Functions.h` on the
arguments that `TriangleQuadrature(1)` passes to it, with the Jacobi polynomials
`P_1^(0,0) = x`, `P_2^(0,0) = (3x^2-1)/2`, `P_1^(1,0) = (3x+1)/2`, `P_2^(1,0) = (5x^2+2x-1)/2`,
the derivatives `1` and `3/2` of the two of degree one, and the factorial. -/
def lowService {K : Type} [LinearOrderedField K] : Functions K :=
  ⟨fun k => (Nat.factorial k : Int),
    fun n a _ x =>
      if n = 1 then (if a = 0 then x else (3 * x + 1) / 2)
      else (if a = 0 then (3 * x * x - 1) / 2 else (5 * x * x + 2 * x - 1) / 2),
    fun _ a _ _ => if a = 0 then 1 else 3 / 2⟩

/-! ## The Newton loop with the record of its passes -/

/-- The Newton loop
`do { x -= Pn/dPn; (Pn, dPn) = eval(x); } while (fabs(Pn) > Tolerance && ++it < MaxIterations);`
of `newton`, returning the record of its passes instead of the final values: the triple
`(x, Pn, dPn)` at the end of each pass of the body, first pass first.  One pass is one
evaluation of the polynomial. -/
def newtonTrace {K : Type} [LinearOrderedField K] (eval : K → Option (K × K)) :
    Nat → Nat → K → K → K → Option (List (K × K × K))
  | 0, _, _, _, _ => none
  | fuel + 1, it, x, Pn, dPn =>
    let x1 := x - Pn / dPn
    (eval x1).bind fun r =>
      if |r.1| > Tolerance ∧ it + 1 < MaxIterations then
        (newtonTrace eval fuel (it + 1) x1 r.1 r.2).map fun L => (x1, r.1, r.2) :: L
      else some [(x1, r.1, r.2)]

/-- A polynomial service over `ℚ` whose polynomials take the value `Tolerance` everywhere
(derivative `1`, factorial `1`). It serves to run the Newton loop of `GaussJacobi` on the
boundary of its exit test. -/
def toleranceService : Functions ℚ := ⟨fun _ => 1, fun _ _ _ _ => Tolerance, fun _ _ _ _ => 1⟩

/-! ## The Legendre polynomials by their explicit formula -/

/-- The reference definition of the Legendre polynomial of degree `n`:
`P_n(x) = sum_{k=0}^{n} C(n,k) * C(n+k,k) * ((x-1)/2)^k`.  It is not part of the program; the
recurrence of `GaussLegendre` is compared with it. -/
def legendreReference {K : Type} [LinearOrderedField K] (n : Nat) (x : K) : K :=
  ∑ k in Finset.range (n + 1), ((Nat.choose n k * Nat.choose (n + k) k : Nat) : K)
    * ((x - 1) / 2) ^ k

/-! ## The constant `M_PI` and the value of `cos` next to `π/2` -/

/-- `M_PI`: the literal `3.14159265358979323846` as a `double`, that is the double nearest to
`π`, `884279719003555 * 2^-48 = 3.141592653589793115997963...`; it is below `π` by about
`1.22e-16`. -/
def M_PI {K : Type} [LinearOrderedField K] : K := 884279719003555 / 2 ^ 48

/-- The `double` that `cos` returns at the argument `M_PI*3/6 = M_PI/2` (an exact quotient in
double arithmetic): `4967757600021511 * 2^-106 = 6.123233995736766e-17`, the double nearest to
the cosine of that argument. -/
def cosHalfPi : ℚ := 4967757600021511 / 2 ^ 106

/-! ## The generators over an arbitrary arithmetic

The definitions above compute in an ordered field.  The definitions of this section are the same
program with every operation on `double` values left to an interpretation `A : Arith V`: the
ordered field is one interpretation (`fieldArith`), IEEE 754 double arithmetic with its
rounding, its infinities and its not-a-number is another (`ieee`). -/

/-- The operations on `double` values that the generators perform. -/
structure Arith (V : Type) where
  /-- Conversion of an `unsigned` value or of an integer literal. -/
  ofNat : Nat → V
  /-- Conversion of a signed integer value. -/
  ofInt : Int → V
  /-- The literal `0.5`. -/
  half : V
  /-- The literal `0.25`. -/
  quarter : V
  /-- The sum `a + b`. -/
  add : V → V → V
  /-- The difference `a - b`. -/
  sub : V → V → V
  /-- The product `a * b`. -/
  mul : V → V → V
  /-- The quotient `a / b`. -/
  div : V → V → V
  /-- The negation `-a`. -/
  neg : V → V
  /-- The function `fabs`. -/
  fabs : V → V
  /-- The comparison `a > b`. -/
  gt : V → V → Bool
  /-- The function `cos` of the C library. -/
  cos : V → V
  /-- The constant `M_PI`. -/
  M_PI : V
  /-- The constant `Tolerance`. -/
  Tolerance : V

/-- One pass of the recurrence loop body of `GaussLegendre`, on the pair `(Pn_1, Pn)`:
`Pn_2 = Pn_1; Pn_1 = Pn; Pn = ((2.*j-1.) * x * Pn_1 - (j-1.) * Pn_2) / j;` -/
def legendreStepA {V : Type} (A : Arith V) (x : V) (j : Nat) (s : V × V) : V × V :=
  let Pn_2 := s.1
  let Pn_1 := s.2
  (Pn_1,
    A.div
      (A.sub (A.mul (A.mul (A.sub (A.mul (A.ofNat 2) (A.ofNat j)) (A.ofNat 1)) x) Pn_1)
        (A.mul (A.sub (A.ofNat j) (A.ofNat 1)) Pn_2))
      (A.ofNat j))

/-- The inner part of the Newton loop body of `GaussLegendre`: the recurrence loop from
`Pn_1 = 0.0; Pn = 1.0;` and the derivative `dPn = (n*Pn_1 - n*x*Pn) / (1.-x*x)`.
Returns `(Pn, dPn)`. -/
def legendreEvalA {V : Type} (A : Arith V) (fuel n : Nat) (x : V) : Option (V × V) :=
  (forLe n (fun j s => some (legendreStepA A x j s)) fuel 1 (A.ofNat 0, A.ofNat 1)).bind fun s =>
    let Pn_1 := s.1
    let Pn := s.2
    some (Pn,
      A.div (A.sub (A.mul (A.ofNat n) Pn_1) (A.mul (A.mul (A.ofNat n) x) Pn))
        (A.sub (A.ofNat 1) (A.mul x x)))

/-- The Newton loop
`do { x -= Pn/dPn; (Pn, dPn) = eval(x); } while (fabs(Pn) > Tolerance && ++it < MaxIterations);`
started with iteration counter `it`; returns the record of its passes, the triple
`(x, Pn, dPn)` at the end of each pass of the body, first pass first.  The final values are
those of the last pass. -/
def newtonA {V : Type} (A : Arith V) (eval : V → Option (V × V)) :
    Nat → Nat → V → V → V → Option (List (V × V × V))
  | 0, _, _, _, _ => none
  | fuel + 1, it, x, Pn, dPn =>
    let x1 := A.sub x (A.div Pn dPn)
    (eval x1).bind fun r =>
      if A.gt (A.fabs r.1) A.Tolerance = true ∧ it + 1 < MaxIterations then
        (newtonA A eval fuel (it + 1) x1 r.1 r.2).map fun L => (x1, r.1, r.2) :: L
      else some [(x1, r.1, r.2)]

/-- The seed `cos(M_PI * (4.*i - 1.) / (4.*n+2.))` of `GaussLegendre`. -/
def legendreSeedA {V : Type} (A : Arith V) (n i : Nat) : V :=
  A.cos (A.div (A.mul A.M_PI (A.sub (A.mul (A.ofNat 4) (A.ofNat i)) (A.ofNat 1)))
    (A.add (A.mul (A.ofNat 4) (A.ofNat n)) (A.ofNat 2)))

/-- The body of the outer loop of `GaussLegendre` for the index `i`, on `(points, weights)`. -/
def legendreBodyA {V : Type} (A : Arith V) (fuel n i : Nat) (pw : Buf V × Buf V) :
    Option (Buf V × Buf V) :=
  (newtonA A (legendreEvalA A fuel n) fuel 0 (legendreSeedA A n i) (A.ofNat 0) (A.ofNat 1)).bind
    fun L => L.getLast?.bind fun r =>
      let x := r.1
      let dPn := r.2.2
      let w := A.div (A.ofNat 2) (A.mul (A.mul (A.sub (A.ofNat 1) (A.mul x x)) dPn) dPn)
      some ((pw.1.write (usub i 1) (A.neg x)).write (usub n i) x,
            (pw.2.write (usub i 1) w).write (usub n i) w)

/-- `static void GaussLegendre(double* points, double* weights, unsigned n)`. -/
def GaussLegendreA {V : Type} (A : Arith V) (fuel : Nat) (points weights : Buf V) (n : Nat) :
    Option (Buf V × Buf V) :=
  let nh := wrap32 (n + 1) / 2
  forLe nh (legendreBodyA A fuel n) fuel 1 (points, weights)

/-- The normalisation constant of `GaussJacobi`,
`-(2.0*n+a+b+2) * factorial(n+a) * factorial(n+b) * (1 << (a+b)) /
 ((n+a+b+1.0) * factorial(n+a+b) * factorial(n+1))`. -/
def weightFactorA {V : Type} (A : Arith V) (F : Functions V) (n a b : Nat) : V :=
  A.div
    (A.mul
      (A.mul
        (A.mul
          (A.neg (A.add (A.add (A.add (A.mul (A.ofNat 2) (A.ofNat n)) (A.ofNat a)) (A.ofNat b))
            (A.ofNat 2)))
          (A.ofInt (F.factorial (wrap32 (n + a)))))
        (A.ofInt (F.factorial (wrap32 (n + b)))))
      (A.ofInt (shl1 (wrap32 (a + b)))))
    (A.mul
      (A.mul (A.add (A.ofNat (wrap32 (wrap32 (n + a) + b))) (A.ofNat 1))
        (A.ofInt (F.factorial (wrap32 (wrap32 (n + a) + b)))))
      (A.ofInt (F.factorial (wrap32 (n + 1)))))

/-- The seed `cos( M_PI * (0.5*a + i - 0.25) / (0.5*(1.0 + a + b) + n) )` of `GaussJacobi`. -/
def jacobiSeedA {V : Type} (A : Arith V) (n a b i : Nat) : V :=
  A.cos (A.div
    (A.mul A.M_PI (A.sub (A.add (A.mul A.half (A.ofNat a)) (A.ofNat i)) A.quarter))
    (A.add (A.mul A.half (A.add (A.add (A.ofNat 1) (A.ofNat a)) (A.ofNat b))) (A.ofNat n)))

/-- The body of the outer loop of `GaussJacobi` for the index `i`, on `(points, weights)`. -/
def jacobiBodyA {V : Type} (A : Arith V) (F : Functions V) (fuel n a b i : Nat)
    (pw : Buf V × Buf V) : Option (Buf V × Buf V) :=
  (newtonA A (jacobiEval F n a b) fuel 0 (jacobiSeedA A n a b i) (A.ofNat 0) (A.ofNat 1)).bind
    fun L => L.getLast?.bind fun r =>
      let x := r.1
      let dPn := r.2.2
      some (pw.1.write (usub i 1) x,
            pw.2.write (usub i 1)
              (A.div (weightFactorA A F n a b) (A.mul (F.JacobiP (wrap32 (n + 1)) a b x) dPn)))

/-- `static void GaussJacobi(double* points, double* weights, unsigned n, unsigned a,
unsigned b)`. -/
def GaussJacobiA {V : Type} (A : Arith V) (F : Functions V) (fuel : Nat)
    (points weights : Buf V) (n a b : Nat) : Option (Buf V × Buf V) :=
  forLe n (jacobiBodyA A F fuel n a b) fuel 1 (points, weights)

/-- The arithmetic of an ordered field, with a given `cos` and a given value for `M_PI`: the
interpretation under which the definitions of this section are those of the sections above. -/
def fieldArith {K : Type} [LinearOrderedField K] (cos : K → K) (pi : K) : Arith K where
  ofNat := fun n => (n : K)
  ofInt := fun z => (z : K)
  half := 1 / 2
  quarter := 1 / 4
  add := fun a b => a + b
  sub := fun a b => a - b
  mul := fun a b => a * b
  div := fun a b => a / b
  neg := fun a => -a
  fabs := fun a => |a|
  gt := fun a b => decide (a > b)
  cos := cos
  M_PI := pi
  Tolerance := Tolerance

/-- The pair `(Pn_1, Pn)` after `j` passes of the recurrence loop, in the arithmetic `A`. -/
def legendrePA {V : Type} (A : Arith V) (x : V) : Nat → V × V
  | 0 => (A.ofNat 0, A.ofNat 1)
  | j + 1 => legendreStepA A x (j + 1) (legendrePA A x j)

/-- Modelled from the spec: the polynomial service of `Numerical_aux/Functions.h` for
`a = b = 0`, returning in the arithmetic `A` the value `Pn` and the derivative value `dPn` that
the recurrence of `GaussLegendre` computes (`a` and `b` are ignored); `factorial` is the
factorial. -/
def recurrenceService {V : Type} (A : Arith V) : Functions V :=
  ⟨fun k => (Nat.factorial k : Int), fun n _ _ x => (legendrePA A x n).2,
    fun n _ _ x =>
      A.div (A.sub (A.mul (A.ofNat n) (legendrePA A x n).1)
          (A.mul (A.mul (A.ofNat n) x) (legendrePA A x n).2))
        (A.sub (A.ofNat 1) (A.mul x x))⟩

/-! ## IEEE 754 double arithmetic

A model of the `double` type for the interpretation `ieee` of `Arith`: round to nearest, ties
to even, with infinities and not-a-number.  The exponent range is not bounded (no overflow to
infinity, no subnormal numbers) and zero carries no sign; neither matters in the computations
that are run on it. -/

/-- A `double`: the finite value `(-1)^neg * m * 2^e`, an infinity, or not-a-number.  Zero is
`fin false 0 0`; every other finite value is kept with `2^52 ≤ m < 2^53`. -/
inductive Dbl where
  | fin (neg : Bool) (m : Nat) (e : Int)
  | inf (neg : Bool)
  | nan
deriving DecidableEq

/-- One step of the binary search for the length of a number: `(rest, bits counted)`. -/
def bitStep (k : Nat) (p : Nat × Nat) : Nat × Nat :=
  if 2 ^ k ≤ p.1 then (p.1 / 2 ^ k, p.2 + k) else p

/-- The number of binary digits of `m`, for `m < 2^8192`. -/
def bitLen (m : Nat) : Nat :=
  if m = 0 then 0
  else
    (bitStep 1 (bitStep 2 (bitStep 4 (bitStep 8 (bitStep 16 (bitStep 32 (bitStep 64
      (bitStep 128 (bitStep 256 (bitStep 512 (bitStep 1024 (bitStep 2048 (bitStep 4096
        (m, 0)))))))))))))).2 + 1

/-- Rounding to nearest, ties to even, of the value `(-1)^neg * (m + d) * 2^e`, where
`0 ≤ d < 1` and `d ≠ 0` exactly when `sticky` is set (then `m` has more than 53 digits). -/
def Dbl.round (neg : Bool) (m : Nat) (e : Int) (sticky : Bool) : Dbl :=
  if m = 0 then Dbl.fin false 0 0
  else
    let L := bitLen m
    if L ≤ 53 then Dbl.fin neg (m * 2 ^ (53 - L)) (e - ((53 - L : Nat) : Int))
    else
      let sh := L - 53
      let q := m / 2 ^ sh
      let r := m % 2 ^ sh
      let h := 2 ^ (sh - 1)
      let up := decide (h < r) || (decide (r = h) && (sticky || decide (q % 2 = 1)))
      let q1 := if up then q + 1 else q
      if q1 = 2 ^ 53 then Dbl.fin neg (2 ^ 52) (e + (sh : Int) + 1)
      else Dbl.fin neg q1 (e + (sh : Int))

/-- The negation `-x`. -/
def Dbl.neg : Dbl → Dbl
  | Dbl.fin n m e => if m = 0 then Dbl.fin false 0 0 else Dbl.fin (!n) m e
  | Dbl.inf n => Dbl.inf (!n)
  | Dbl.nan => Dbl.nan

/-- The function `fabs`. -/
def Dbl.fabs : Dbl → Dbl
  | Dbl.fin _ m e => Dbl.fin false m e
  | Dbl.inf _ => Dbl.inf false
  | Dbl.nan => Dbl.nan

/-- The sum `x + y`. -/
def Dbl.add : Dbl → Dbl → Dbl
  | Dbl.fin n1 m1 e1, Dbl.fin n2 m2 e2 =>
    if m1 = 0 then Dbl.fin n2 m2 e2
    else if m2 = 0 then Dbl.fin n1 m1 e1
    else
      let e := min e1 e2
      let a := m1 * 2 ^ (e1 - e).toNat
      let b := m2 * 2 ^ (e2 - e).toNat
      if n1 = n2 then Dbl.round n1 (a + b) e false
      else if b ≤ a then Dbl.round n1 (a - b) e false
      else Dbl.round n2 (b - a) e false
  | Dbl.fin _ _ _, Dbl.inf n => Dbl.inf n
  | Dbl.inf n, Dbl.fin _ _ _ => Dbl.inf n
  | Dbl.inf n1, Dbl.inf n2 => if n1 = n2 then Dbl.inf n1 else Dbl.nan
  | Dbl.nan, _ => Dbl.nan
  | _, Dbl.nan => Dbl.nan

/-- The difference `x - y`. -/
def Dbl.sub (x y : Dbl) : Dbl := Dbl.add x (Dbl.neg y)

/-- The product `x * y`. -/
def Dbl.mul : Dbl → Dbl → Dbl
  | Dbl.fin n1 m1 e1, Dbl.fin n2 m2 e2 => Dbl.round (xor n1 n2) (m1 * m2) (e1 + e2) false
  | Dbl.fin n1 m1 _, Dbl.inf n2 => if m1 = 0 then Dbl.nan else Dbl.inf (xor n1 n2)
  | Dbl.inf n1, Dbl.fin n2 m2 _ => if m2 = 0 then Dbl.nan else Dbl.inf (xor n1 n2)
  | Dbl.inf n1, Dbl.inf n2 => Dbl.inf (xor n1 n2)
  | Dbl.nan, _ => Dbl.nan
  | _, Dbl.nan => Dbl.nan

/-- The quotient `x / y`; `0/0` is not-a-number and `x/0` an infinity. -/
def Dbl.div : Dbl → Dbl → Dbl
  | Dbl.fin n1 m1 e1, Dbl.fin n2 m2 e2 =>
    if m2 = 0 then (if m1 = 0 then Dbl.nan else Dbl.inf (xor n1 n2))
    else if m1 = 0 then Dbl.fin false 0 0
    else Dbl.round (xor n1 n2) (m1 * 2 ^ 64 / m2) (e1 - e2 - 64) (decide (m1 * 2 ^ 64 % m2 ≠ 0))
  | Dbl.fin _ _ _, Dbl.inf _ => Dbl.fin false 0 0
  | Dbl.inf n1, Dbl.fin n2 _ _ => Dbl.inf (xor n1 n2)
  | Dbl.inf _, Dbl.inf _ => Dbl.nan
  | Dbl.nan, _ => Dbl.nan
  | _, Dbl.nan => Dbl.nan

/-- The comparison `x > y`; it is false when an operand is not-a-number. -/
def Dbl.gt : Dbl → Dbl → Bool
  | Dbl.fin n1 m1 e1, Dbl.fin n2 m2 e2 =>
    let e := min e1 e2
    let a := m1 * 2 ^ (e1 - e).toNat
    let b := m2 * 2 ^ (e2 - e).toNat
    match n1, n2 with
    | false, false => decide (b < a)
    | true, true => decide (a < b)
    | false, true => decide (0 < a + b)
    | true, false => false
  | Dbl.fin _ _ _, Dbl.inf n => n
  | Dbl.inf n, Dbl.fin _ _ _ => !n
  | Dbl.inf n1, Dbl.inf n2 => !n1 && n2
  | Dbl.nan, _ => false
  | _, Dbl.nan => false

/-- Conversion of an `unsigned` value. -/
def Dbl.ofNat (n : Nat) : Dbl := Dbl.round false n 0 false

/-- Conversion of a signed integer value. -/
def Dbl.ofInt (z : Int) : Dbl := Dbl.round (decide (z < 0)) z.natAbs 0 false

/-- The function `cos` as a table of the values it returns at finitely many arguments;
not-a-number elsewhere. -/
def cosAt (table : List (Dbl × Dbl)) (x : Dbl) : Dbl :=
  match table.lookup x with
  | some v => v
  | none => Dbl.nan

/-- IEEE 754 double arithmetic, with the function `cos` of the C library given by a table of
its values; `M_PI` is `884279719003555 * 2^-48` and `Tolerance` is `10 * 2^-52`. -/
def ieee (table : List (Dbl × Dbl)) : Arith Dbl where
  ofNat := Dbl.ofNat
  ofInt := Dbl.ofInt
  half := Dbl.round false 1 (-1) false
  quarter := Dbl.round false 1 (-2) false
  add := Dbl.add
  sub := Dbl.sub
  mul := Dbl.mul
  div := Dbl.div
  neg := Dbl.neg
  fabs := Dbl.fabs
  gt := Dbl.gt
  cos := cosAt table
  M_PI := Dbl.round false 884279719003555 (-48) false
  Tolerance := Dbl.mul (Dbl.ofNat 10) (Dbl.round false 1 (-52) false)

/-- The function `cos` of the C library at the arguments that the seeds of `GaussLegendre(1)`,
`GaussLegendre(12)` and `GaussJacobi(12, 0, 0)` pass to it: pairs `(x, cos x)`, the second
the `double` nearest to the cosine of the first. -/
def cosTable : List (Dbl × Dbl) :=
  [(Dbl.fin false 7074237752028440 (-52),
      Dbl.fin false 4967757600021511 (-106)),
    (Dbl.fin false 6791268241947302 (-55),
      Dbl.fin false 8847656992705023 (-53)),
    (Dbl.fin false 7923146282271853 (-54),
      Dbl.fin false 8149957552641420 (-53)),
    (Dbl.fin false 6225329221785027 (-53),
      Dbl.fin false 6940166306098154 (-53)),
    (Dbl.fin false 8489085302434127 (-53),
      Dbl.fin false 5294298886396511 (-53)),
    (Dbl.fin false 5376420691541614 (-52),
      Dbl.fin false 6631542393186587 (-54)),
    (Dbl.fin false 6508298731866164 (-52),
      Dbl.fin false 4515605631818728 (-55)),
    (Dbl.fin false 7640176772190715 (-52),
      Dbl.fin true 4515605631818716 (-55)),
    (Dbl.fin false 8772054812515265 (-52),
      Dbl.fin true 6631542393186581 (-54)),
    (Dbl.fin false 4951966426419908 (-51),
      Dbl.fin true 5294298886396509 (-53)),
    (Dbl.fin false 5517905446582183 (-51),
      Dbl.fin true 6940166306098153 (-53)),
    (Dbl.fin false 6083844466744458 (-51),
      Dbl.fin true 8149957552641418 (-53)),
    (Dbl.fin false 6649783486906734 (-51),
      Dbl.fin true 8847656992705023 (-53))]

/-! ## Machine integers: no wrap-around in range -/

theorem wrap32_of_lt {x : Nat} (h : x < 4294967296) : wrap32 x = x := by
  unfold wrap32
  exact Nat.mod_eq_of_lt h

theorem wrap32_lt (x : Nat) : wrap32 x < 4294967296 := by
  unfold wrap32
  exact Nat.mod_lt _ (by norm_num)

theorem usub_of_le {a b : Nat} (hb : b ≤ a) (ha : a < 4294967296) : usub a b = a - b := by
  unfold usub wrap32
  have h : a + 4294967296 - b = (a - b) + 4294967296 := by omega
  rw [h, Nat.add_mod_right]
  exact Nat.mod_eq_of_lt (by omega)

/-! ## The loops terminate and compute their closed forms -/

theorem iterUp_first {σ : Type} (g : Nat → σ → σ) (lo t : Nat) (s : σ) :
    iterUp g lo (t + 1) s = iterUp g (lo + 1) t (g lo s) := by
  induction t with
  | zero => simp [iterUp]
  | succ t ih =>
    conv_lhs => unfold iterUp
    rw [ih]
    conv_rhs => unfold iterUp
    rw [show lo + 1 + t = lo + (t + 1) by omega]

/-- A `for (i = lo; i <= hi; ++i)` loop whose bound is below `UINT_MAX` and whose body returns
ends, and applies the body to `lo, ..., hi` in this order. -/
theorem forLe_eq {σ : Type} (hi : Nat) (body : Nat → σ → Option σ) (g : Nat → σ → σ)
    (lo0 : Nat) (hhi : hi < UINT_MAX)
    (hbody : ∀ i s, lo0 ≤ i → i ≤ hi → body i s = some (g i s)) :
    ∀ (c lo fuel : Nat) (s : σ), lo0 ≤ lo → lo + c = hi + 1 → c < fuel →
      forLe hi body fuel lo s = some (iterUp g lo c s) := by
  intro c
  induction c with
  | zero =>
    intro lo fuel s _ hlo hfuel
    obtain ⟨f, rfl⟩ : ∃ f, fuel = f + 1 := ⟨fuel - 1, by omega⟩
    have : ¬ lo ≤ hi := by omega
    simp [forLe, this, iterUp]
  | succ c ih =>
    intro lo fuel s hlo0 hlo hfuel
    obtain ⟨f, rfl⟩ : ∃ f, fuel = f + 1 := ⟨fuel - 1, by omega⟩
    have hle : lo ≤ hi := by omega
    have hw : wrap32 (lo + 1) = lo + 1 := wrap32_of_lt (by unfold UINT_MAX at hhi; omega)
    rw [iterUp_first]
    simp only [forLe, hle, if_true, hbody lo s hlo0 hle, Option.some_bind, hw]
    exact ih (lo + 1) f (g lo s) (by omega) (by omega) (by omega)

/-- A `for (i = lo; i < hi; ++i)` loop whose body returns ends, and applies the body to
`lo, ..., hi - 1` in this order. -/
theorem forLt_eq {σ : Type} (hi : Nat) (body : Nat → σ → Option σ) (g : Nat → σ → σ)
    (hhi : hi ≤ UINT_MAX) (hbody : ∀ i s, i < hi → body i s = some (g i s)) :
    ∀ (c lo fuel : Nat) (s : σ), lo + c = hi → c < fuel →
      forLt hi body fuel lo s = some (iterUp g lo c s) := by
  intro c
  induction c with
  | zero =>
    intro lo fuel s hlo hfuel
    obtain ⟨f, rfl⟩ : ∃ f, fuel = f + 1 := ⟨fuel - 1, by omega⟩
    have : ¬ lo < hi := by omega
    simp [forLt, this, iterUp]
  | succ c ih =>
    intro lo fuel s hlo hfuel
    obtain ⟨f, rfl⟩ : ∃ f, fuel = f + 1 := ⟨fuel - 1, by omega⟩
    have hle : lo < hi := by omega
    have hw : wrap32 (lo + 1) = lo + 1 := wrap32_of_lt (by unfold UINT_MAX at hhi; omega)
    rw [iterUp_first]
    simp only [forLt, hle, if_true, hbody lo s hle, Option.some_bind, hw]
    exact ih (lo + 1) f (g lo s) (by omega) (by omega)

/-- The Newton loop with a total evaluation ends within `MaxIterations` passes. -/
theorem newton_eq {K : Type} [LinearOrderedField K] (eval : K → Option (K × K)) (e : K → K × K)
    (he : ∀ x, eval x = some (e x)) :
    ∀ (r it fuel : Nat) (x Pn dPn : K), it + r + 1 = MaxIterations → r < fuel →
      newton eval fuel it x Pn dPn = some (newtonPure e r x Pn dPn) := by
  intro r
  induction r with
  | zero =>
    intro it fuel x Pn dPn hit hfuel
    obtain ⟨f, rfl⟩ : ∃ f, fuel = f + 1 := ⟨fuel - 1, by omega⟩
    have : ¬ it + 1 < MaxIterations := by omega
    simp [newton, newtonPure, he, this]
  | succ r ih =>
    intro it fuel x Pn dPn hit hfuel
    obtain ⟨f, rfl⟩ : ∃ f, fuel = f + 1 := ⟨fuel - 1, by omega⟩
    have hlt : it + 1 < MaxIterations := by omega
    simp only [newton, newtonPure, he, Option.some_bind, hlt, and_true]
    by_cases hc : |(e (x - Pn / dPn)).1| > Tolerance
    · rw [if_pos hc, if_pos hc]
      exact ih (it + 1) f _ _ _ (by omega) (by omega)
    · rw [if_neg hc, if_neg hc]

/-! ## GaussLegendre: closed form -/

theorem iterUp_legendreStep {K : Type} [LinearOrderedField K] (x : K) (n : Nat) :
    iterUp (legendreStep x) 1 n ((0 : K), (1 : K)) = legendreP x n := by
  induction n with
  | zero => rfl
  | succ n ih =>
    unfold iterUp legendreP
    rw [ih, Nat.add_comm 1 n]

/-- The recurrence loop ends for every `n < UINT_MAX`. -/
theorem legendreEval_eq {K : Type} [LinearOrderedField K] (fuel n : Nat) (x : K)
    (hn : n < UINT_MAX) (hfuel : n < fuel) :
    legendreEval fuel n x = some (legendreValue n x) := by
  unfold legendreEval
  rw [forLe_eq n _ (legendreStep x) 1 hn (fun _ _ _ _ => rfl) n 1 fuel _ (le_refl 1)
    (by omega) hfuel, iterUp_legendreStep]
  rfl

/-- The body of the outer loop returns, and performs the stores of `legendreStores`. -/
theorem legendreBody_eq {K : Type} [LinearOrderedField K] (cos : K → K) (pi : K)
    (fuel n i : Nat) (pw : Buf K × Buf K) (hn : n < UINT_MAX) (hfuel : n < fuel)
    (hfuel2 : MaxIterations ≤ fuel) (hi1 : 1 ≤ i) (hi : i ≤ n) :
    legendreBody cos pi fuel n i pw = some (legendreStores cos pi n i pw) := by
  unfold legendreBody
  have hN := newton_eq (legendreEval fuel n) (legendreValue n)
    (fun x => legendreEval_eq fuel n x hn hfuel) (MaxIterations - 1) 0 fuel
    (cos (pi * (4 * (i : K) - 1) / (4 * (n : K) + 2))) 0 1 (by unfold MaxIterations; omega)
    (by unfold MaxIterations at *; omega)
  have hlt : n < 4294967296 := by unfold UINT_MAX at hn; omega
  rw [hN, Option.some_bind, usub_of_le hi1 (by omega), usub_of_le hi hlt]
  rfl

/-- For every `n < UINT_MAX`, `GaussLegendre` returns when the fuel exceeds `n` and
`MaxIterations`; it has then performed the stores for `i = 1, ..., (n+1)/2`. -/
theorem GaussLegendre_eq {K : Type} [LinearOrderedField K] (cos : K → K) (pi : K)
    (fuel n : Nat) (points weights : Buf K) (hn : n < UINT_MAX) (hfuel : n < fuel)
    (hfuel2 : MaxIterations ≤ fuel) :
    GaussLegendre cos pi fuel points weights n =
      some (iterUp (legendreStores cos pi n) 1 ((n + 1) / 2) (points, weights)) := by
  unfold GaussLegendre
  have hw : wrap32 (n + 1) = n + 1 := wrap32_of_lt (by unfold UINT_MAX at hn; omega)
  rw [hw]
  refine forLe_eq ((n + 1) / 2) _ (legendreStores cos pi n) 1 (by unfold UINT_MAX at *; omega)
    ?_ ((n + 1) / 2) 1 fuel _ (le_refl 1) (by omega) (by omega)
  intro i s h1 h2
  exact legendreBody_eq cos pi fuel n i s hn hfuel hfuel2 h1 (by omega)

/-- The state of the two arrays after the outer loop has run for `i = 1, ..., t`. -/
theorem legendre_after {K : Type} [LinearOrderedField K] (cos : K → K) (pi : K) (n : Nat)
    (points weights : Buf K) (t : Nat) (ht : t ≤ (n + 1) / 2) :
    (∀ k, (iterUp (legendreStores cos pi n) 1 t (points, weights)).1.val k
        = legendrePointsAfter cos pi n t points.val k) ∧
    (∀ k, (iterUp (legendreStores cos pi n) 1 t (points, weights)).2.val k
        = legendreWeightsAfter cos pi n t weights.val k) ∧
    (∀ k, k ∈ (iterUp (legendreStores cos pi n) 1 t (points, weights)).1.log ↔
        (k ∈ points.log ∨ k < t ∨ (n - t ≤ k ∧ k < n))) ∧
    (∀ k, k ∈ (iterUp (legendreStores cos pi n) 1 t (points, weights)).2.log ↔
        (k ∈ weights.log ∨ k < t ∨ (n - t ≤ k ∧ k < n))) := by
  induction t with
  | zero =>
    refine ⟨fun k => ?_, fun k => ?_, fun k => ?_, fun k => ?_⟩
    · have : ¬ (n - 0 ≤ k ∧ k < n) := by omega
      simp only [iterUp, legendrePointsAfter]
      rw [if_neg this, if_neg (Nat.not_lt_zero k)]
    · have : ¬ (n - 0 ≤ k ∧ k < n) := by omega
      simp only [iterUp, legendreWeightsAfter]
      rw [if_neg this, if_neg (Nat.not_lt_zero k)]
    · have : ¬ (n - 0 ≤ k ∧ k < n) := by omega
      simp [iterUp, this]
    · have : ¬ (n - 0 ≤ k ∧ k < n) := by omega
      simp [iterUp, this]
  | succ t ih =>
    obtain ⟨ih1, ih2, ih3, ih4⟩ := ih (by omega)
    have e1 : 1 + t - 1 = t := by omega
    have e2 : n - (1 + t) = n - t - 1 := by omega
    refine ⟨fun k => ?_, fun k => ?_, fun k => ?_, fun k => ?_⟩
    · simp only [iterUp, legendreStores, Buf.write, e1, e2]
      by_cases hk1 : k = n - t - 1
      · subst hk1
        have c1 : n - (t + 1) ≤ n - t - 1 ∧ n - t - 1 < n := by omega
        have c2 : n - (n - t - 1) = 1 + t := by omega
        simp [legendrePointsAfter, c1, c2]
      · rw [Function.update_noteq hk1]
        by_cases hk2 : k = t
        · subst hk2
          have c1 : ¬ (n - (k + 1) ≤ k ∧ k < n) := by omega
          unfold legendrePointsAfter
          rw [Function.update_same, if_neg c1, if_pos (Nat.lt_succ_self k), Nat.add_comm 1 k]
        · rw [Function.update_noteq hk2, ih1 k]
          unfold legendrePointsAfter
          have c1 : (n - (t + 1) ≤ k ∧ k < n) ↔ (n - t ≤ k ∧ k < n) := by omega
          have c2 : k < t + 1 ↔ k < t := by omega
          simp only [c1, c2]
    · simp only [iterUp, legendreStores, Buf.write, e1, e2]
      by_cases hk1 : k = n - t - 1
      · subst hk1
        have c1 : n - (t + 1) ≤ n - t - 1 ∧ n - t - 1 < n := by omega
        have c2 : n - (n - t - 1) = 1 + t := by omega
        simp [legendreWeightsAfter, c1, c2]
      · rw [Function.update_noteq hk1]
        by_cases hk2 : k = t
        · subst hk2
          have c1 : ¬ (n - (k + 1) ≤ k ∧ k < n) := by omega
          unfold legendreWeightsAfter
          rw [Function.update_same, if_neg c1, if_pos (Nat.lt_succ_self k), Nat.add_comm 1 k]
        · rw [Function.update_noteq hk2, ih2 k]
          unfold legendreWeightsAfter
          have c1 : (n - (t + 1) ≤ k ∧ k < n) ↔ (n - t ≤ k ∧ k < n) := by omega
          have c2 : k < t + 1 ↔ k < t := by omega
          simp only [c1, c2]
    · simp only [iterUp, legendreStores, Buf.write, e1, e2, List.mem_cons, ih3 k]
      constructor
      · rintro (h | h | h | h | h)
        · exact Or.inr (Or.inr (by omega))
        · exact Or.inr (Or.inl (by omega))
        · exact Or.inl h
        · exact Or.inr (Or.inl (by omega))
        · exact Or.inr (Or.inr (by omega))
      · intro h
        by_cases hk1 : k = n - t - 1
        · exact Or.inl hk1
        · by_cases hk2 : k = t
          · exact Or.inr (Or.inl hk2)
          · rcases h with h | h | h
            · exact Or.inr (Or.inr (Or.inl h))
            · exact Or.inr (Or.inr (Or.inr (Or.inl (by omega))))
            · exact Or.inr (Or.inr (Or.inr (Or.inr (by omega))))
    · simp only [iterUp, legendreStores, Buf.write, e1, e2, List.mem_cons, ih4 k]
      constructor
      · rintro (h | h | h | h | h)
        · exact Or.inr (Or.inr (by omega))
        · exact Or.inr (Or.inl (by omega))
        · exact Or.inl h
        · exact Or.inr (Or.inl (by omega))
        · exact Or.inr (Or.inr (by omega))
      · intro h
        by_cases hk1 : k = n - t - 1
        · exact Or.inl hk1
        · by_cases hk2 : k = t
          · exact Or.inr (Or.inl hk2)
          · rcases h with h | h | h
            · exact Or.inr (Or.inr (Or.inl h))
            · exact Or.inr (Or.inr (Or.inr (Or.inl (by omega))))
            · exact Or.inr (Or.inr (Or.inr (Or.inr (by omega))))

/-! ## GaussLegendre: the rule is symmetric -/

theorem Tolerance_pos {K : Type} [LinearOrderedField K] : (0 : K) < Tolerance := by
  unfold Tolerance
  positivity

theorem legendreP_succ_fst {K : Type} [LinearOrderedField K] (x : K) (j : Nat) :
    (legendreP x (j + 1)).1 = (legendreP x j).2 := rfl

theorem legendreP_succ_snd {K : Type} [LinearOrderedField K] (x : K) (j : Nat) :
    (legendreP x (j + 1)).2 =
      ((2 * ((j + 1 : Nat) : K) - 1) * x * (legendreP x j).2
        - (((j + 1 : Nat) : K) - 1) * (legendreP x j).1) / ((j + 1 : Nat) : K) := rfl

/-- At `x = 0` the recurrence gives `Pn = 0` for every odd degree. -/
theorem legendreP_zero_odd {K : Type} [LinearOrderedField K] (m : Nat) :
    (legendreP (0 : K) (2 * m + 1)).2 = 0 := by
  induction m with
  | zero => simp [legendreP, legendreStep]
  | succ m ih =>
    have h : 2 * (m + 1) + 1 = (2 * m + 1) + 1 + 1 := by ring
    rw [h, legendreP_succ_snd, legendreP_succ_fst, ih]
    simp

/-- A Newton loop that is started where `Pn` vanishes stops after its first pass. -/
theorem newtonPure_of_root {K : Type} [LinearOrderedField K] (e : K → K × K) (r : Nat) (x : K)
    (hx : (e x).1 = 0) : newtonPure e r x 0 1 = (x, 0, (e x).2) := by
  have h0 : x - 0 / 1 = x := by simp
  have hT : ¬ |(0 : K)| > Tolerance := by
    rw [abs_zero]
    exact not_lt.mpr (le_of_lt Tolerance_pos)
  cases r with
  | zero => simp only [newtonPure, h0, hx]
  | succ r => simp only [newtonPure, h0, hx, if_neg hT]

/-- For odd `n = 2m+1` the middle root is `0` as soon as its seed is `0`. -/
theorem legendreRoot_middle {K : Type} [LinearOrderedField K] (cos : K → K) (pi : K) (m : Nat)
    (hseed : cos (pi * (4 * ((m + 1 : Nat) : K) - 1) / (4 * ((2 * m + 1 : Nat) : K) + 2)) = 0) :
    (legendreRoot cos pi (2 * m + 1) (m + 1)).1 = 0 := by
  unfold legendreRoot
  rw [hseed, newtonPure_of_root]
  unfold legendreValue
  exact legendreP_zero_odd m

/-- In real arithmetic the seed of the middle root of an odd rule is `cos (π/2) = 0`. -/
theorem middle_seed_real (m : Nat) :
    Real.cos (Real.pi * (4 * ((m + 1 : Nat) : ℝ) - 1) / (4 * ((2 * m + 1 : Nat) : ℝ) + 2)) = 0 := by
  have h : Real.pi * (4 * ((m + 1 : Nat) : ℝ) - 1) / (4 * ((2 * m + 1 : Nat) : ℝ) + 2)
      = Real.pi / 2 := by
    push_cast
    field_simp
    ring
  rw [h, Real.cos_pi_div_two]

/-- The closed form of the final contents is symmetric, provided the seed of the middle root of
an odd rule is `0`. -/
theorem legendreAfter_symmetric {K : Type} [LinearOrderedField K] (cos : K → K) (pi : K)
    (n : Nat) (p w : Nat → K)
    (hseed : ∀ m, n = 2 * m + 1 →
      cos (pi * (4 * ((m + 1 : Nat) : K) - 1) / (4 * ((2 * m + 1 : Nat) : K) + 2)) = 0)
    (i : Nat) (hi : i < n) :
    legendrePointsAfter cos pi n ((n + 1) / 2) p i
        = -legendrePointsAfter cos pi n ((n + 1) / 2) p (n - 1 - i) ∧
    legendreWeightsAfter cos pi n ((n + 1) / 2) w i
        = legendreWeightsAfter cos pi n ((n + 1) / 2) w (n - 1 - i) := by
  unfold legendrePointsAfter legendreWeightsAfter
  by_cases hup : n - (n + 1) / 2 ≤ i
  · by_cases hup2 : n - (n + 1) / 2 ≤ n - 1 - i
    · -- the middle index of an odd rule
      obtain ⟨m, hm⟩ : ∃ m, n = 2 * m + 1 := ⟨n / 2, by omega⟩
      have him : i = m := by omega
      have e1 : n - 1 - i = i := by omega
      have e2 : n - i = m + 1 := by omega
      have hz := legendreRoot_middle cos pi m (hseed m hm)
      rw [e1, if_pos ⟨hup, hi⟩, e2, hm, hz]
      simp
    · have c1 : ¬ (n - (n + 1) / 2 ≤ n - 1 - i ∧ n - 1 - i < n) := fun h => hup2 h.1
      have c2 : n - 1 - i < (n + 1) / 2 := by omega
      have e1 : n - 1 - i + 1 = n - i := by omega
      rw [if_pos ⟨hup, hi⟩, if_neg c1, if_pos c2, if_pos ⟨hup, hi⟩, if_neg c1, if_pos c2, e1]
      simp
  · have c1 : ¬ (n - (n + 1) / 2 ≤ i ∧ i < n) := fun h => hup h.1
    have c2 : i < (n + 1) / 2 := by omega
    have c3 : n - (n + 1) / 2 ≤ n - 1 - i ∧ n - 1 - i < n := by omega
    have e1 : n - (n - 1 - i) = i + 1 := by omega
    rw [if_neg c1, if_pos c2, if_pos c3, if_neg c1, if_pos c2, if_pos c3, e1]
    simp

/-- For every `n < UINT_MAX`, in real arithmetic, `GaussLegendre` returns a
rule with `points[i] = -points[n-1-i]` and `weights[i] = weights[n-1-i]` for every `i < n`; for
odd `n` this makes the middle point `0`. -/
theorem GaussLegendre_symmetric (fuel n : Nat) (points weights : Buf ℝ) (hn : n < UINT_MAX)
    (hfuel : n < fuel) (hfuel2 : MaxIterations ≤ fuel) :
    ∃ out, GaussLegendre Real.cos Real.pi fuel points weights n = some out ∧
      ∀ i, i < n → out.1.val i = -out.1.val (n - 1 - i) ∧ out.2.val i = out.2.val (n - 1 - i) := by
  refine ⟨_, GaussLegendre_eq Real.cos Real.pi fuel n points weights hn hfuel hfuel2, ?_⟩
  intro i hi
  obtain ⟨h1, h2, -, -⟩ := legendre_after Real.cos Real.pi n points weights ((n + 1) / 2)
    (le_refl _)
  rw [h1, h1, h2, h2]
  exact legendreAfter_symmetric Real.cos Real.pi n points.val weights.val
    (fun m _ => middle_seed_real m) i hi

/-! ## GaussLegendre: which entries are stored to -/

/-- At `n = UINT_MAX` the half count `(n+1)/2` wraps to `0`: the outer loop is not entered and
both arrays are returned as they were. -/
theorem GaussLegendre_UINT_MAX {K : Type} [LinearOrderedField K] (cos : K → K) (pi : K)
    (fuel : Nat) (points weights : Buf K) :
    GaussLegendre cos pi (fuel + 1) points weights UINT_MAX = some (points, weights) := by
  have h : wrap32 (UINT_MAX + 1) / 2 = 0 := by decide
  unfold GaussLegendre
  rw [h]
  simp [forLe]

/-- For every `n < UINT_MAX`, `GaussLegendre` returns; it stores to exactly the indices
`0, ..., n-1` of both arrays, leaves every other entry as it was, and what it stores does not
depend on the contents found in the arrays. -/
theorem GaussLegendre_fills {K : Type} [LinearOrderedField K] (cos : K → K) (pi : K)
    (fuel n : Nat) (p w : Nat → K) (hn : n < UINT_MAX) (hfuel : n < fuel)
    (hfuel2 : MaxIterations ≤ fuel) :
    ∃ out, GaussLegendre cos pi fuel (Buf.init p) (Buf.init w) n = some out ∧
      (∀ k, k ∈ out.1.log ↔ k < n) ∧ (∀ k, k ∈ out.2.log ↔ k < n) ∧
      (∀ k, n ≤ k → out.1.val k = p k ∧ out.2.val k = w k) ∧
      (∀ k, k < n → out.1.val k = legendrePointsAfter cos pi n ((n + 1) / 2) (fun _ => 0) k ∧
        out.2.val k = legendreWeightsAfter cos pi n ((n + 1) / 2) (fun _ => 0) k) := by
  refine ⟨_, GaussLegendre_eq cos pi fuel n _ _ hn hfuel hfuel2, ?_⟩
  obtain ⟨h1, h2, h3, h4⟩ := legendre_after cos pi n (Buf.init p) (Buf.init w) ((n + 1) / 2)
    (le_refl _)
  refine ⟨fun k => ?_, fun k => ?_, fun k hk => ?_, fun k hk => ?_⟩
  · rw [h3]
    simp only [Buf.init, List.not_mem_nil, false_or]
    omega
  · rw [h4]
    simp only [Buf.init, List.not_mem_nil, false_or]
    omega
  · rw [h1, h2]
    have c1 : ¬ (n - (n + 1) / 2 ≤ k ∧ k < n) := by omega
    have c2 : ¬ k < (n + 1) / 2 := by omega
    simp only [legendrePointsAfter, legendreWeightsAfter, if_neg c1, if_neg c2, Buf.init,
      and_self]
  · rw [h1, h2]
    unfold legendrePointsAfter legendreWeightsAfter
    by_cases c1 : n - (n + 1) / 2 ≤ k ∧ k < n
    · simp only [if_pos c1, and_self]
    · have c2 : k < (n + 1) / 2 := by omega
      simp only [if_neg c1, if_pos c2, and_self]

/-! ## GaussLegendre: the one-point rule -/

/-- The values of the recurrence for `n = 1`: `Pn = x` and `dPn = (1 - x*x)/(1 - x*x)`. -/
theorem legendreValue_one {K : Type} [LinearOrderedField K] (x : K) :
    legendreValue 1 x = (x, (1 - x * x) / (1 - x * x)) := by
  have h : (2 : K) - 1 = 1 := by norm_num
  simp [legendreValue, legendreP, legendreStep, h]

/-- In real arithmetic the Newton loop of the one-point rule ends after its first pass with
`x = 0`, `Pn = 0` and `dPn = 1`. -/
theorem legendreRoot_one : legendreRoot Real.cos Real.pi 1 1 = (0, 0, 1) := by
  have hseed : Real.cos (Real.pi * (4 * ((1 : Nat) : ℝ) - 1) / (4 * ((1 : Nat) : ℝ) + 2)) = 0 := by
    have h := middle_seed_real 0
    simpa using h
  unfold legendreRoot
  rw [hseed, newtonPure_of_root]
  · rw [legendreValue_one]
    simp
  · rw [legendreValue_one]

/-! ## The Newton loop: invariants -/

/-- An invariant `I k x` (of the number `k` of Newton updates applied and the current `x`) that
every Newton update preserves holds when the loop ends; the loop ends with `(Pn, dPn)` evaluated
at the final `x`, and either `|Pn| ≤ Tolerance` or all allowed passes were used. -/
theorem newtonPure_invariant {K : Type} [LinearOrderedField K] (e : K → K × K)
    (I : Nat → K → Prop)
    (hstep : ∀ k x, I k x → |(e x).1| > Tolerance → I (k + 1) (x - (e x).1 / (e x).2)) :
    ∀ (r k : Nat) (x Pn dPn : K), I k (x - Pn / dPn) →
      ∃ j, j ≤ r ∧ I (k + j) (newtonPure e r x Pn dPn).1 ∧
        (newtonPure e r x Pn dPn).2 = e (newtonPure e r x Pn dPn).1 ∧
        (|(newtonPure e r x Pn dPn).2.1| ≤ Tolerance ∨ j = r) := by
  intro r
  induction r with
  | zero =>
    intro k x Pn dPn h
    exact ⟨0, le_refl 0, h, rfl, Or.inr rfl⟩
  | succ r ih =>
    intro k x Pn dPn h
    by_cases hc : |(e (x - Pn / dPn)).1| > Tolerance
    · obtain ⟨j, hj, hI, he, hex⟩ := ih (k + 1) (x - Pn / dPn) (e (x - Pn / dPn)).1
        (e (x - Pn / dPn)).2 (hstep k _ h hc)
      have heq : newtonPure e (r + 1) x Pn dPn
          = newtonPure e r (x - Pn / dPn) (e (x - Pn / dPn)).1 (e (x - Pn / dPn)).2 := by
        simp only [newtonPure, if_pos hc]
      rw [heq]
      refine ⟨j + 1, by omega, ?_, he, ?_⟩
      · rw [show k + (j + 1) = k + 1 + j by omega]
        exact hI
      · rcases hex with hex | hex
        · exact Or.inl hex
        · exact Or.inr (by omega)
    · have heq : newtonPure e (r + 1) x Pn dPn
          = (x - Pn / dPn, (e (x - Pn / dPn)).1, (e (x - Pn / dPn)).2) := by
        simp only [newtonPure, if_neg hc]
      rw [heq]
      exact ⟨0, by omega, h, rfl, Or.inl (not_lt.mp hc)⟩

/-- A pass after which `|Pn| > Tolerance`, with passes left, is followed by another pass. -/
theorem newtonPure_continue {K : Type} [LinearOrderedField K] (e : K → K × K) (r : Nat)
    (x Pn dPn : K) (h : |(e (x - Pn / dPn)).1| > Tolerance) :
    newtonPure e (r + 1) x Pn dPn
      = newtonPure e r (x - Pn / dPn) (e (x - Pn / dPn)).1 (e (x - Pn / dPn)).2 := by
  simp only [newtonPure, if_pos h]

/-- A pass after which `|Pn| > Tolerance` does not hold is the last one. -/
theorem newtonPure_stop {K : Type} [LinearOrderedField K] (e : K → K × K) (r : Nat)
    (x Pn dPn : K) (h : ¬ |(e (x - Pn / dPn)).1| > Tolerance) :
    newtonPure e r x Pn dPn = (x - Pn / dPn, (e (x - Pn / dPn)).1, (e (x - Pn / dPn)).2) := by
  cases r with
  | zero => simp only [newtonPure]
  | succ r => simp only [newtonPure, if_neg h]

/-! ## GaussLegendre: the two-point rule -/

/-- The values of the recurrence for `n = 2`. -/
theorem legendreValue_two {K : Type} [LinearOrderedField K] (x : K) :
    legendreValue 2 x
      = ((3 * x * x - 1) / 2, (2 * x - 2 * x * ((3 * x * x - 1) / 2)) / (1 - x * x)) := by
  have h1 : (2 : K) - 1 = 1 := by norm_num
  have h2 : (2 : K) * 2 - 1 = 3 := by norm_num
  simp [legendreValue, legendreP, legendreStep, h1, h2]

/-- Away from `x*x = 1` the derivative value for `n = 2` is `3*x`. -/
theorem legendreValue_two_snd {K : Type} [LinearOrderedField K] (x : K) (hx : x * x ≠ 1) :
    (legendreValue 2 x).2 = 3 * x := by
  rw [legendreValue_two]
  have h : (1 : K) - x * x ≠ 0 := fun h => hx (by linear_combination -h)
  field_simp
  ring

theorem twoInv_step (k : Nat) (x : ℝ) (h : twoInv k x) :
    twoInv (k + 1) (x - (legendreValue 2 x).1 / (legendreValue 2 x).2) := by
  obtain ⟨h1, h2, h3⟩ := h
  have hx1 : x * x ≠ 1 := by
    intro h
    rw [h] at h2
    norm_num at h2
  have hxpos : 0 < x := by linarith
  have hxx : 1 / 4 ≤ x * x := by nlinarith
  rw [legendreValue_two_snd x hx1, legendreValue_two]
  have hy : x - (3 * x * x - 1) / 2 / (3 * x) = (3 * x * x + 1) / (6 * x) := by
    field_simp
    ring
  have hD : (3 * x * x + 1) / (6 * x) * ((3 * x * x + 1) / (6 * x)) - 1 / 3
      = (3 * x * x - 1) ^ 2 / (36 * (x * x)) := by
    field_simp
    ring
  simp only [hy]
  set y := (3 * x * x + 1) / (6 * x) with hydef
  have hypos : 0 < y := by positivity
  have hlow : 1 / 3 ≤ y * y := by
    have : 0 ≤ (3 * x * x - 1) ^ 2 / (36 * (x * x)) := by positivity
    linarith
  have hup : y * y - 1 / 3 ≤ (1 / 4) ^ (k + 1) := by
    rw [hD, div_le_iff₀ (by positivity)]
    by_cases hk : 1 ≤ k
    · obtain ⟨h4, h5⟩ := h3 hk
      have hpow : (1 / 4 : ℝ) ^ (k + 1) = (1 / 4) ^ k * (1 / 4) := pow_succ _ _
      rw [hpow]
      have hDnn : 0 ≤ x * x - 1 / 3 := by linarith
      have hq : 0 ≤ (1 / 4 : ℝ) ^ k := by positivity
      have e : (3 * x * x - 1) ^ 2 = 9 * (x * x - 1 / 3) * (x * x - 1 / 3) := by ring
      rw [e]
      have s1 : (x * x - 1 / 3) * (x * x - 1 / 3) ≤ (1 / 4) ^ k * (x * x) := by
        apply mul_le_mul h5 (by linarith) hDnn hq
      nlinarith
    · have hk0 : k = 0 := by omega
      subst hk0
      have b1 : (3 * x * x - 1) ^ 2 ≤ 9 / 16 := by
        have : -(3 / 4) ≤ 3 * x * x - 1 := by nlinarith
        have : 3 * x * x - 1 ≤ 3 / 4 := by nlinarith
        nlinarith
      norm_num
      nlinarith
  have hq4 : (1 / 4 : ℝ) ^ (k + 1) ≤ 1 / 4 := by
    have : (1 / 4 : ℝ) ^ (k + 1) ≤ (1 / 4) ^ 1 :=
      pow_le_pow_of_le_one (by norm_num) (by norm_num) (by omega)
    simpa using this
  refine ⟨?_, by linarith, fun _ => ⟨hlow, hup⟩⟩
  by_contra hlt
  push_neg at hlt
  nlinarith

/-- In real arithmetic the seed of the two-point rule, `cos (3π/10)`, lies between `1/2` and
`1/√2`. -/
theorem two_seed_real :
    twoInv 0 (Real.cos (Real.pi * (4 * ((1 : Nat) : ℝ) - 1) / (4 * ((2 : Nat) : ℝ) + 2))) := by
  have hpi := Real.pi_pos
  have harg : Real.pi * (4 * ((1 : Nat) : ℝ) - 1) / (4 * ((2 : Nat) : ℝ) + 2)
      = 3 * Real.pi / 10 := by
    push_cast
    ring
  rw [harg]
  have hlo : Real.cos (Real.pi / 3) ≤ Real.cos (3 * Real.pi / 10) :=
    Real.cos_le_cos_of_nonneg_of_le_pi (by positivity) (by linarith) (by linarith)
  have hhi : Real.cos (3 * Real.pi / 10) ≤ Real.cos (Real.pi / 4) :=
    Real.cos_le_cos_of_nonneg_of_le_pi (by positivity) (by linarith) (by linarith)
  rw [Real.cos_pi_div_three] at hlo
  rw [Real.cos_pi_div_four] at hhi
  have hs : Real.sqrt 2 * Real.sqrt 2 = 2 := Real.mul_self_sqrt (by norm_num)
  have hs0 : 0 ≤ Real.sqrt 2 := Real.sqrt_nonneg 2
  refine ⟨hlo, ?_, fun h => absurd h (by norm_num)⟩
  nlinarith

/-- In real arithmetic the Newton loop of the two-point rule ends at an `x ≥ 1/2` with
`|x*x - 1/3| ≤ 2e-15`, and with `dPn = 3*x`. -/
theorem legendreRoot_two :
    1 / 2 ≤ (legendreRoot Real.cos Real.pi 2 1).1 ∧
    |(legendreRoot Real.cos Real.pi 2 1).1 * (legendreRoot Real.cos Real.pi 2 1).1 - 1 / 3|
      ≤ 2 / 10 ^ 15 ∧
    (legendreRoot Real.cos Real.pi 2 1).2.2 = 3 * (legendreRoot Real.cos Real.pi 2 1).1 := by
  have hinv := newtonPure_invariant (legendreValue 2) twoInv
    (fun k x h _ => twoInv_step k x h) (MaxIterations - 1) 0
    (Real.cos (Real.pi * (4 * ((1 : Nat) : ℝ) - 1) / (4 * ((2 : Nat) : ℝ) + 2))) 0 1
    (by simpa using two_seed_real)
  obtain ⟨j, -, ⟨h1, h2, h3⟩, he, hex⟩ := hinv
  rw [zero_add] at h3
  change (legendreRoot Real.cos Real.pi 2 1).2
    = legendreValue 2 (legendreRoot Real.cos Real.pi 2 1).1 at he
  change |(legendreRoot Real.cos Real.pi 2 1).2.1| ≤ Tolerance ∨ j = MaxIterations - 1 at hex
  change 1 / 2 ≤ (legendreRoot Real.cos Real.pi 2 1).1 at h1
  change (legendreRoot Real.cos Real.pi 2 1).1 * (legendreRoot Real.cos Real.pi 2 1).1
    ≤ 7 / 12 at h2
  change 1 ≤ j → 1 / 3 ≤ (legendreRoot Real.cos Real.pi 2 1).1 *
    (legendreRoot Real.cos Real.pi 2 1).1 ∧ (legendreRoot Real.cos Real.pi 2 1).1 *
    (legendreRoot Real.cos Real.pi 2 1).1 - 1 / 3 ≤ (1 / 4) ^ j at h3
  generalize (legendreRoot Real.cos Real.pi 2 1).1 = x at *
  have hx1 : x * x ≠ 1 := by
    intro h
    rw [h] at h2
    norm_num at h2
  refine ⟨h1, ?_, ?_⟩
  · rcases hex with hex | hex
    · rw [he, legendreValue_two] at hex
      simp only [Tolerance] at hex
      rw [abs_le] at hex ⊢
      obtain ⟨ha, hb⟩ := hex
      constructor
      · norm_num at ha ⊢
        linarith
      · norm_num at hb ⊢
        linarith
    · obtain ⟨h4, h5⟩ := h3 (by rw [hex]; decide)
      rw [hex] at h5
      have hsmall : (1 / 4 : ℝ) ^ (MaxIterations - 1) ≤ 2 / 10 ^ 15 := by
        norm_num [MaxIterations]
      rw [abs_le]
      constructor
      · have : (0 : ℝ) ≤ 2 / 10 ^ 15 := by positivity
        linarith
      · linarith
  · rw [he]
    exact legendreValue_two_snd x hx1

/-! ## GaussJacobi: closed form -/

/-- The body of the outer loop of `GaussJacobi` returns, and performs the stores of
`jacobiStores`. -/
theorem jacobiBody_eq {K : Type} [LinearOrderedField K] (F : Functions K) (cos : K → K) (pi : K)
    (fuel n a b i : Nat) (pw : Buf K × Buf K) (hn : n < UINT_MAX)
    (hfuel2 : MaxIterations ≤ fuel) (hi1 : 1 ≤ i) (hi : i ≤ n) :
    jacobiBody F cos pi fuel n a b i pw = some (jacobiStores F cos pi n a b i pw) := by
  unfold jacobiBody
  have hN := newton_eq (jacobiEval F n a b) (jacobiValue F n a b) (fun x => rfl)
    (MaxIterations - 1) 0 fuel
    (cos (pi * (1 / 2 * (a : K) + (i : K) - 1 / 4) / (1 / 2 * (1 + (a : K) + (b : K)) + (n : K))))
    0 1 (by unfold MaxIterations; omega) (by unfold MaxIterations at *; omega)
  have hlt : n < 4294967296 := by unfold UINT_MAX at hn; omega
  have hw : wrap32 (n + 1) = n + 1 := wrap32_of_lt (by unfold UINT_MAX at hn; omega)
  rw [hN, Option.some_bind, usub_of_le hi1 (by omega), hw]
  rfl

/-- For every `n < UINT_MAX`, `GaussJacobi` returns when the fuel exceeds `n` and
`MaxIterations`; it has then performed the stores for `i = 1, ..., n`. -/
theorem GaussJacobi_eq {K : Type} [LinearOrderedField K] (F : Functions K) (cos : K → K)
    (pi : K) (fuel n a b : Nat) (points weights : Buf K) (hn : n < UINT_MAX) (hfuel : n < fuel)
    (hfuel2 : MaxIterations ≤ fuel) :
    GaussJacobi F cos pi fuel points weights n a b =
      some (iterUp (jacobiStores F cos pi n a b) 1 n (points, weights)) := by
  unfold GaussJacobi
  refine forLe_eq n _ (jacobiStores F cos pi n a b) 1 hn ?_ n 1 fuel _ (le_refl 1) (by omega)
    hfuel
  intro i s h1 h2
  exact jacobiBody_eq F cos pi fuel n a b i s hn hfuel2 h1 h2

/-- A `for (i = lo; i <= hi; ++i)` loop with `hi ≥ UINT_MAX` does not end: the counter wraps
to `0`. -/
theorem forLe_none {σ : Type} (hi : Nat) (body : Nat → σ → Option σ) (hhi : UINT_MAX ≤ hi) :
    ∀ (fuel i : Nat) (s : σ), i ≤ UINT_MAX → forLe hi body fuel i s = none := by
  intro fuel
  induction fuel with
  | zero => intro i s _; rfl
  | succ f ih =>
    intro i s h
    have hle : i ≤ hi := le_trans h hhi
    simp only [forLe, if_pos hle]
    cases hb : body i s with
    | none => rfl
    | some s1 =>
      simp only [Option.some_bind]
      have hw := wrap32_lt (i + 1)
      exact ih _ _ (by unfold UINT_MAX; omega)

/-- At `n = UINT_MAX` the outer loop of `GaussJacobi` does not end, whatever the fuel. -/
theorem GaussJacobi_UINT_MAX {K : Type} [LinearOrderedField K] (F : Functions K) (cos : K → K)
    (pi : K) (fuel a b : Nat) (points weights : Buf K) :
    GaussJacobi F cos pi fuel points weights UINT_MAX a b = none := by
  unfold GaussJacobi
  exact forLe_none UINT_MAX _ (le_refl _) fuel 1 _ (by decide)

/-- The state of the two arrays after the outer loop of `GaussJacobi` has run for
`i = 1, ..., t`. -/
theorem jacobi_after {K : Type} [LinearOrderedField K] (F : Functions K) (cos : K → K) (pi : K)
    (n a b : Nat) (points weights : Buf K) (t : Nat) :
    (∀ k, (iterUp (jacobiStores F cos pi n a b) 1 t (points, weights)).1.val k
        = if k < t then (jacobiRoot F cos pi n a b (k + 1)).1 else points.val k) ∧
    (∀ k, (iterUp (jacobiStores F cos pi n a b) 1 t (points, weights)).2.val k
        = if k < t then jacobiWeight F cos pi n a b (k + 1) else weights.val k) ∧
    (∀ k, k ∈ (iterUp (jacobiStores F cos pi n a b) 1 t (points, weights)).1.log ↔
        (k ∈ points.log ∨ k < t)) ∧
    (∀ k, k ∈ (iterUp (jacobiStores F cos pi n a b) 1 t (points, weights)).2.log ↔
        (k ∈ weights.log ∨ k < t)) := by
  induction t with
  | zero =>
    refine ⟨fun k => ?_, fun k => ?_, fun k => ?_, fun k => ?_⟩ <;> simp [iterUp]
  | succ t ih =>
    obtain ⟨ih1, ih2, ih3, ih4⟩ := ih
    have e1 : 1 + t - 1 = t := by omega
    refine ⟨fun k => ?_, fun k => ?_, fun k => ?_, fun k => ?_⟩
    · simp only [iterUp, jacobiStores, Buf.write, e1]
      by_cases hk : k = t
      · subst hk
        rw [Function.update_same, if_pos (Nat.lt_succ_self k), Nat.add_comm 1 k]
      · rw [Function.update_noteq hk, ih1 k]
        have c : k < t + 1 ↔ k < t := by omega
        simp only [c]
    · simp only [iterUp, jacobiStores, Buf.write, e1]
      by_cases hk : k = t
      · subst hk
        rw [Function.update_same, if_pos (Nat.lt_succ_self k), Nat.add_comm 1 k]
      · rw [Function.update_noteq hk, ih2 k]
        have c : k < t + 1 ↔ k < t := by omega
        simp only [c]
    · simp only [iterUp, jacobiStores, Buf.write, e1, List.mem_cons, ih3 k]
      constructor
      · rintro (h | h | h)
        · exact Or.inr (by omega)
        · exact Or.inl h
        · exact Or.inr (by omega)
      · rintro (h | h)
        · exact Or.inr (Or.inl h)
        · by_cases hk : k = t
          · exact Or.inl hk
          · exact Or.inr (Or.inr (by omega))
    · simp only [iterUp, jacobiStores, Buf.write, e1, List.mem_cons, ih4 k]
      constructor
      · rintro (h | h | h)
        · exact Or.inr (by omega)
        · exact Or.inl h
        · exact Or.inr (by omega)
      · rintro (h | h)
        · exact Or.inr (Or.inl h)
        · by_cases hk : k = t
          · exact Or.inl hk
          · exact Or.inr (Or.inr (by omega))

/-- The entries `k < n` of the rule left by `GaussJacobi` in scratch arrays. -/
theorem jacobiRule_val {K : Type} [LinearOrderedField K] (F : Functions K) (cos : K → K)
    (pi : K) (n a b k : Nat) (hk : k < n) :
    (jacobiRule F cos pi n a b).1.val k = (jacobiRoot F cos pi n a b (k + 1)).1 ∧
    (jacobiRule F cos pi n a b).2.val k = jacobiWeight F cos pi n a b (k + 1) := by
  obtain ⟨h1, h2, -, -⟩ := jacobi_after F cos pi n a b Buf.fresh Buf.fresh n
  unfold jacobiRule
  rw [h1, h2, if_pos hk, if_pos hk]
  exact ⟨rfl, rfl⟩

/-! ## More on loops -/

theorem iterUp_append {σ : Type} (g : Nat → σ → σ) (lo a m : Nat) (s : σ) :
    iterUp g lo (a + m) s = iterUp g (lo + a) m (iterUp g lo a s) := by
  induction m with
  | zero => rfl
  | succ m ih =>
    rw [← Nat.add_assoc]
    simp only [iterUp]
    rw [ih, Nat.add_assoc]

theorem iterUp_congr {σ : Type} (g h : Nat → σ → σ) (lo lo2 t : Nat)
    (hgh : ∀ k, k < t → g (lo + k) = h (lo2 + k)) (s : σ) :
    iterUp g lo t s = iterUp h lo2 t s := by
  induction t with
  | zero => rfl
  | succ t ih =>
    simp only [iterUp]
    rw [ih (fun k hk => hgh k (by omega)), hgh t (by omega)]

/-- Two nested loops over `i < t` and `j < n` are one loop over `idx < t*n` with
`i = idx / n` and `j = idx % n`. -/
theorem iterUp_nested {σ : Type} (G : Nat → Nat → σ → σ) (n t : Nat) (s : σ) :
    iterUp (fun i pw => iterUp (G i) 0 n pw) 0 t s
      = iterUp (fun idx => G (idx / n) (idx % n)) 0 (t * n) s := by
  induction t with
  | zero => simp [iterUp]
  | succ t ih =>
    have hmul : (t + 1) * n = t * n + n := by ring
    conv_rhs => rw [hmul, iterUp_append, ← ih]
    conv_lhs => unfold iterUp
    simp only [Nat.zero_add]
    apply iterUp_congr
    intro k hk
    have hn : 0 < n := by omega
    have e1 : (t * n + k) / n = t := by
      rw [Nat.add_comm, Nat.add_mul_div_right _ _ hn, Nat.div_eq_of_lt hk, Nat.zero_add]
    have e2 : (t * n + k) % n = k := by
      rw [Nat.add_comm, Nat.add_mul_mod_self_right, Nat.mod_eq_of_lt hk]
    simp only [Nat.zero_add, e1, e2]

/-- A property that every pass of a `for (...; i < hi; ++i)` loop preserves holds when the loop
returns. -/
theorem forLt_invariant {σ : Type} (hi : Nat) (body : Nat → σ → Option σ) (Inv : σ → Prop)
    (hbody : ∀ i s s1, i < hi → Inv s → body i s = some s1 → Inv s1) :
    ∀ (fuel i : Nat) (s s1 : σ), Inv s → forLt hi body fuel i s = some s1 → Inv s1 := by
  intro fuel
  induction fuel with
  | zero =>
    intro i s s1 _ h
    simp [forLt] at h
  | succ f ih =>
    intro i s s1 hs h
    simp only [forLt] at h
    by_cases hlt : i < hi
    · rw [if_pos hlt] at h
      cases hb : body i s with
      | none => rw [hb] at h; simp at h
      | some s2 =>
        rw [hb, Option.some_bind] at h
        exact ih _ s2 s1 (hbody i s s2 hlt hs hb) h
    · rw [if_neg hlt] at h
      cases h
      exact hs

/-! ## TriangleQuadrature: closed form -/

theorem triangleBody_eq {K : Type} [LinearOrderedField K] (r0 r1 : Buf K × Buf K) (n i j : Nat)
    (pw : Buf (K × K) × Buf K) :
    triangleBody r0 r1 n i j pw = some (triangleStores r0 r1 n i j pw) := rfl

/-- For every `n < UINT_MAX`, `TriangleQuadrature` returns when the fuel exceeds `n` and
`MaxIterations`; it has then performed the `n*n` stores of `triangleLinear`, in the order of
`idx = i*n + j`. -/
theorem TriangleQuadrature_eq {K : Type} [LinearOrderedField K] (F : Functions K) (cos : K → K)
    (pi : K) (fuel n : Nat) (points : Buf (K × K)) (weights : Buf K) (hn : n < UINT_MAX)
    (hfuel : n < fuel) (hfuel2 : MaxIterations ≤ fuel) :
    TriangleQuadrature F cos pi fuel points weights n =
      some (iterUp (triangleLinear (jacobiRule F cos pi n 0 0) (jacobiRule F cos pi n 1 0) n)
        0 (n * n) (points, weights)) := by
  unfold TriangleQuadrature
  rw [GaussJacobi_eq F cos pi fuel n 0 0 _ _ hn hfuel hfuel2,
    GaussJacobi_eq F cos pi fuel n 1 0 _ _ hn hfuel hfuel2]
  simp only [Option.some_bind]
  have hinner : ∀ i (pw : Buf (K × K) × Buf K), i < n →
      forLt n (triangleBody (jacobiRule F cos pi n 0 0) (jacobiRule F cos pi n 1 0) n i)
        fuel 0 pw
      = some (iterUp (triangleStores (jacobiRule F cos pi n 0 0) (jacobiRule F cos pi n 1 0)
          n i) 0 n pw) := by
    intro i pw _
    exact forLt_eq n _ _ (le_of_lt hn) (fun j s _ => triangleBody_eq _ _ n i j s) n 0 fuel pw
      (by omega) hfuel
  have houter := forLt_eq n
    (fun i pw => forLt n (triangleBody (jacobiRule F cos pi n 0 0) (jacobiRule F cos pi n 1 0)
      n i) fuel 0 pw)
    (fun i pw => iterUp (triangleStores (jacobiRule F cos pi n 0 0)
      (jacobiRule F cos pi n 1 0) n i) 0 n pw)
    (le_of_lt hn) (fun i s hi => hinner i s hi) n 0 fuel (points, weights) (by omega) hfuel
  have hr0 : iterUp (jacobiStores F cos pi n 0 0) 1 n (Buf.fresh, Buf.fresh)
      = jacobiRule F cos pi n 0 0 := rfl
  have hr1 : iterUp (jacobiStores F cos pi n 1 0) 1 n (Buf.fresh, Buf.fresh)
      = jacobiRule F cos pi n 1 0 := rfl
  rw [hr0, hr1, houter]
  exact congrArg some (iterUp_nested _ n n _)

theorem flatIndex_div_mod (n idx : Nat) (h : idx < 4294967296) :
    flatIndex n (idx / n) (idx % n) = idx := by
  unfold flatIndex
  have h1 : idx / n * n ≤ idx := Nat.div_mul_le_self idx n
  rw [wrap32_of_lt (lt_of_le_of_lt h1 h), Nat.div_add_mod' idx n, wrap32_of_lt h]

theorem flatIndex_lt (n i j : Nat) : flatIndex n i j < 4294967296 := wrap32_lt _

/-- The state after the first `m ≤ 2^32` stores of `TriangleQuadrature`: the entries
`idx < m` hold the values for `(idx / n, idx % n)`, and they were stored to once each, in
ascending order. -/
theorem triangle_after {K : Type} [LinearOrderedField K] (r0 r1 : Buf K × Buf K) (n : Nat)
    (points : Buf (K × K)) (weights : Buf K) (m : Nat) (hm : m ≤ 4294967296) :
    (∀ idx, (iterUp (triangleLinear r0 r1 n) 0 m (points, weights)).1.val idx
        = if idx < m then trianglePoint r0 r1 (idx / n) (idx % n) else points.val idx) ∧
    (∀ idx, (iterUp (triangleLinear r0 r1 n) 0 m (points, weights)).2.val idx
        = if idx < m then triangleWeight r0 r1 (idx / n) (idx % n) else weights.val idx) ∧
    (iterUp (triangleLinear r0 r1 n) 0 m (points, weights)).1.log
        = (List.range m).reverse ++ points.log ∧
    (iterUp (triangleLinear r0 r1 n) 0 m (points, weights)).2.log
        = (List.range m).reverse ++ weights.log := by
  induction m with
  | zero =>
    refine ⟨fun idx => ?_, fun idx => ?_, ?_, ?_⟩ <;> simp [iterUp]
  | succ m ih =>
    obtain ⟨ih1, ih2, ih3, ih4⟩ := ih (by omega)
    have hidx : flatIndex n (m / n) (m % n) = m := flatIndex_div_mod n m (by omega)
    refine ⟨fun idx => ?_, fun idx => ?_, ?_, ?_⟩
    · simp only [iterUp, triangleLinear, triangleStores, Buf.write, Nat.zero_add, hidx]
      by_cases hk : idx = m
      · subst hk
        rw [Function.update_same, if_pos (Nat.lt_succ_self idx)]
      · rw [Function.update_noteq hk]
        have h := ih1 idx
        simp only [triangleLinear, triangleStores] at h
        rw [h]
        have c : idx < m + 1 ↔ idx < m := by omega
        simp only [c]
    · simp only [iterUp, triangleLinear, triangleStores, Buf.write, Nat.zero_add, hidx]
      by_cases hk : idx = m
      · subst hk
        rw [Function.update_same, if_pos (Nat.lt_succ_self idx)]
      · rw [Function.update_noteq hk]
        have h := ih2 idx
        simp only [triangleLinear, triangleStores] at h
        rw [h]
        have c : idx < m + 1 ↔ idx < m := by omega
        simp only [c]
    · have h := ih3
      simp only [triangleLinear, triangleStores] at h
      simp only [iterUp, triangleLinear, triangleStores, Buf.write, Nat.zero_add, hidx, h,
        List.range_succ, List.reverse_append, List.reverse_cons, List.reverse_nil,
        List.nil_append, List.cons_append]
    · have h := ih4
      simp only [triangleLinear, triangleStores] at h
      simp only [iterUp, triangleLinear, triangleStores, Buf.write, Nat.zero_add, hidx, h,
        List.range_succ, List.reverse_append, List.reverse_cons, List.reverse_nil,
        List.nil_append, List.cons_append]

/-! ## TriangleQuadrature: what is stored where -/

/-- Whatever `n`, the flat index is below `2^32`: no entry from `2^32` on is stored to, and
such entries keep their contents. -/
theorem triangle_high {K : Type} [LinearOrderedField K] (r0 r1 : Buf K × Buf K) (n : Nat)
    (points : Buf (K × K)) (weights : Buf K) (m : Nat) :
    (∀ idx, 4294967296 ≤ idx →
      (iterUp (triangleLinear r0 r1 n) 0 m (points, weights)).1.val idx = points.val idx ∧
      (iterUp (triangleLinear r0 r1 n) 0 m (points, weights)).2.val idx = weights.val idx) ∧
    (∀ idx, idx ∈ (iterUp (triangleLinear r0 r1 n) 0 m (points, weights)).1.log →
      idx ∈ points.log ∨ idx < 4294967296) ∧
    (∀ idx, idx ∈ (iterUp (triangleLinear r0 r1 n) 0 m (points, weights)).2.log →
      idx ∈ weights.log ∨ idx < 4294967296) := by
  induction m with
  | zero =>
    refine ⟨fun idx _ => ⟨rfl, rfl⟩, fun idx h => Or.inl h, fun idx h => Or.inl h⟩
  | succ m ih =>
    obtain ⟨ih1, ih2, ih3⟩ := ih
    have hlt := flatIndex_lt n ((0 + m) / n) ((0 + m) % n)
    refine ⟨fun idx hidx => ?_, fun idx h => ?_, fun idx h => ?_⟩
    · have hne : idx ≠ flatIndex n ((0 + m) / n) ((0 + m) % n) := by omega
      simp only [iterUp, triangleLinear, triangleStores, Buf.write]
      rw [Function.update_noteq hne, Function.update_noteq hne]
      exact ih1 idx hidx
    · simp only [iterUp, triangleLinear, triangleStores, Buf.write, List.mem_cons] at h
      rcases h with h | h
      · exact Or.inr (by omega)
      · exact ih2 idx h
    · simp only [iterUp, triangleLinear, triangleStores, Buf.write, List.mem_cons] at h
      rcases h with h | h
      · exact Or.inr (by omega)
      · exact ih3 idx h

theorem count_range_reverse (m idx : Nat) :
    List.count idx (List.range m).reverse = if idx < m then 1 else 0 := by
  rw [List.count_reverse]
  by_cases h : idx < m
  · rw [if_pos h]
    exact List.count_eq_one_of_mem (List.nodup_range m) (List.mem_range.mpr h)
  · rw [if_neg h]
    exact List.count_eq_zero_of_not_mem (fun hm => h (List.mem_range.mp hm))

/-- For every `n ≤ 65536` (so that `n*n ≤ 2^32`), `TriangleQuadrature` returns; entry
`idx < n*n` of `points` and `weights` then holds the values for `i = idx / n`, `j = idx % n`
computed from the two rules returned by `GaussJacobi`, each entry was stored to exactly once,
and no entry from `n*n` on was stored to. -/
theorem TriangleQuadrature_layout {K : Type} [LinearOrderedField K] (F : Functions K)
    (cos : K → K) (pi : K) (fuel n : Nat) (p : Nat → K × K) (w : Nat → K) (hn : n ≤ 65536)
    (hfuel : n < fuel) (hfuel2 : MaxIterations ≤ fuel) :
    ∃ r0 r1 out,
      GaussJacobi F cos pi fuel Buf.fresh Buf.fresh n 0 0 = some r0 ∧
      GaussJacobi F cos pi fuel Buf.fresh Buf.fresh n 1 0 = some r1 ∧
      TriangleQuadrature F cos pi fuel (Buf.init p) (Buf.init w) n = some out ∧
      (∀ idx, idx < n * n →
        out.1.val idx = (1 / 2 * (1 + r1.1.val (idx / n)),
          1 / 4 * (1 + r0.1.val (idx % n)) * (1 - r1.1.val (idx / n))) ∧
        out.2.val idx = r1.2.val (idx / n) * r0.2.val (idx % n) * (1 / 8) ∧
        List.count idx out.1.log = 1 ∧ List.count idx out.2.log = 1) ∧
      (∀ idx, n * n ≤ idx →
        out.1.val idx = p idx ∧ out.2.val idx = w idx ∧
        List.count idx out.1.log = 0 ∧ List.count idx out.2.log = 0) := by
  have hn1 : n < UINT_MAX := by unfold UINT_MAX; omega
  have hnn : n * n ≤ 4294967296 := by
    calc n * n ≤ 65536 * 65536 := Nat.mul_le_mul hn hn
      _ = 4294967296 := by norm_num
  refine ⟨_, _, _, GaussJacobi_eq F cos pi fuel n 0 0 _ _ hn1 hfuel hfuel2,
    GaussJacobi_eq F cos pi fuel n 1 0 _ _ hn1 hfuel hfuel2,
    TriangleQuadrature_eq F cos pi fuel n _ _ hn1 hfuel hfuel2, ?_, ?_⟩
  · intro idx hidx
    obtain ⟨h1, h2, h3, h4⟩ := triangle_after (jacobiRule F cos pi n 0 0)
      (jacobiRule F cos pi n 1 0) n (Buf.init p) (Buf.init w) (n * n) hnn
    rw [h1, h2, h3, h4, if_pos hidx, if_pos hidx]
    simp only [Buf.init, List.append_nil, count_range_reverse, if_pos hidx, and_true]
    exact ⟨rfl, rfl⟩
  · intro idx hidx
    obtain ⟨h1, h2, h3, h4⟩ := triangle_after (jacobiRule F cos pi n 0 0)
      (jacobiRule F cos pi n 1 0) n (Buf.init p) (Buf.init w) (n * n) hnn
    have hnot : ¬ idx < n * n := by omega
    rw [h1, h2, h3, h4, if_neg hnot, if_neg hnot]
    simp only [Buf.init, List.append_nil, count_range_reverse, if_neg hnot, and_true]

/-- For every `n ≤ 65536`, both calls of `GaussJacobi` and `TriangleQuadrature` itself return,
and entry `idx < n*n` holds the values for `i = idx / n`, `j = idx % n`. -/
theorem triangle_entries {K : Type} [LinearOrderedField K] (F : Functions K)
    (cos : K → K) (pi : K) (fuel n : Nat) (p : Nat → K × K) (w : Nat → K) (hn : n ≤ 65536)
    (hfuel : n < fuel) (hfuel2 : MaxIterations ≤ fuel) :
    GaussJacobi F cos pi fuel Buf.fresh Buf.fresh n 0 0 = some (jacobiRule F cos pi n 0 0) ∧
    GaussJacobi F cos pi fuel Buf.fresh Buf.fresh n 1 0 = some (jacobiRule F cos pi n 1 0) ∧
    ∃ out, TriangleQuadrature F cos pi fuel (Buf.init p) (Buf.init w) n = some out ∧
      ∀ idx, idx < n * n →
        out.1.val idx = trianglePoint (jacobiRule F cos pi n 0 0) (jacobiRule F cos pi n 1 0)
          (idx / n) (idx % n) ∧
        out.2.val idx = triangleWeight (jacobiRule F cos pi n 0 0) (jacobiRule F cos pi n 1 0)
          (idx / n) (idx % n) := by
  have hn1 : n < UINT_MAX := by unfold UINT_MAX; omega
  have hnn : n * n ≤ 4294967296 := by
    calc n * n ≤ 65536 * 65536 := Nat.mul_le_mul hn hn
      _ = 4294967296 := by norm_num
  refine ⟨GaussJacobi_eq F cos pi fuel n 0 0 _ _ hn1 hfuel hfuel2,
    GaussJacobi_eq F cos pi fuel n 1 0 _ _ hn1 hfuel hfuel2, _,
    TriangleQuadrature_eq F cos pi fuel n _ _ hn1 hfuel hfuel2, ?_⟩
  intro idx hidx
  obtain ⟨h1, h2, -, -⟩ := triangle_after (jacobiRule F cos pi n 0 0)
    (jacobiRule F cos pi n 1 0) n (Buf.init p) (Buf.init w) (n * n) hnn
  rw [h1, h2, if_pos hidx, if_pos hidx]
  exact ⟨rfl, rfl⟩

/-! ## TriangleQuadrature: the points lie in the reference triangle -/

/-- A sum over `idx < t*n` of a function of `(idx / n, idx % n)` is a double sum. -/
theorem sum_range_mul_div_mod {K : Type} [LinearOrderedField K] (f : Nat → Nat → K) (n t : Nat) :
    ∑ idx in Finset.range (t * n), f (idx / n) (idx % n)
      = ∑ i in Finset.range t, ∑ j in Finset.range n, f i j := by
  induction t with
  | zero => simp
  | succ t ih =>
    have hmul : (t + 1) * n = t * n + n := by ring
    rw [hmul, Finset.sum_range_add, ih, Finset.sum_range_succ]
    congr 1
    apply Finset.sum_congr rfl
    intro k hk
    have hk2 : k < n := Finset.mem_range.mp hk
    have hn : 0 < n := by omega
    have e1 : (t * n + k) / n = t := by
      rw [Nat.add_comm, Nat.add_mul_div_right _ _ hn, Nat.div_eq_of_lt hk2, Nat.zero_add]
    have e2 : (t * n + k) % n = k := by
      rw [Nat.add_comm, Nat.add_mul_mod_self_right, Nat.mod_eq_of_lt hk2]
    rw [e1, e2]

/-- At `n = 65537` the flat index wraps: once the first `2^32` stores are done, the contents of
the entries below `2^32` no longer depend on what the caller's `weights` array held. -/
theorem triangle_low_independent {K : Type} [LinearOrderedField K] (r0 r1 : Buf K × Buf K)
    (n : Nat) (points : Buf (K × K)) (w0 w1 : Buf K) (d : Nat) :
    ∀ idx, idx < 4294967296 →
      (iterUp (triangleLinear r0 r1 n) 0 (4294967296 + d) (points, w0)).2.val idx
        = (iterUp (triangleLinear r0 r1 n) 0 (4294967296 + d) (points, w1)).2.val idx := by
  induction d with
  | zero =>
    intro idx hidx
    obtain ⟨-, h2, -, -⟩ := triangle_after r0 r1 n points w0 4294967296 (le_refl _)
    obtain ⟨-, h2b, -, -⟩ := triangle_after r0 r1 n points w1 4294967296 (le_refl _)
    rw [Nat.add_zero, h2, h2b, if_pos hidx, if_pos hidx]
  | succ d ih =>
    intro idx hidx
    rw [← Nat.add_assoc]
    simp only [iterUp, triangleLinear, triangleStores, Buf.write]
    by_cases hk : idx = flatIndex n ((0 + (4294967296 + d)) / n) ((0 + (4294967296 + d)) % n)
    · rw [← hk, Function.update_same, Function.update_same]
    · rw [Function.update_noteq hk, Function.update_noteq hk]
      exact ih idx hidx

/-- Two arrays that agree below `A`, and hold ones and zeros from `A` on, have sums over
`A + B` entries that differ by `B`. -/
theorem sum_range_diff {K : Type} [LinearOrderedField K] (f0 f1 : Nat → K) (A B : Nat)
    (hlow : ∀ idx, idx < A → f1 idx = f0 idx) (h1 : ∀ x, f1 (A + x) = 1)
    (h0 : ∀ x, f0 (A + x) = 0) :
    ∑ idx in Finset.range (A + B), f1 idx = (∑ idx in Finset.range (A + B), f0 idx) + B := by
  rw [Finset.sum_range_add, Finset.sum_range_add, add_assoc]
  congr 1
  · exact Finset.sum_congr rfl (fun idx hidx => hlow idx (Finset.mem_range.mp hidx))
  · simp only [h1, h0, Finset.sum_const, Finset.card_range, nsmul_eq_mul, mul_one, mul_zero,
      zero_add]

/-- When `n*n = 2^32 + d` exceeds `2^32`, the sum of the `n*n` entries of `weights` after
`TriangleQuadrature` depends on what the array held before: with ones instead of zeros it is
larger by `d`, the number of entries that are never stored to. -/
theorem triangle_sum_diff {K : Type} [LinearOrderedField K] (F : Functions K)
    (cos : K → K) (pi : K) (p : Nat → K × K) (fuel n d : Nat) (hn : n < UINT_MAX)
    (hfuel : n < fuel) (hfuel2 : MaxIterations ≤ fuel) (hd : n * n = 4294967296 + d) :
    ∃ out0 out1,
      TriangleQuadrature F cos pi fuel (Buf.init p) (Buf.init fun _ => 0) n = some out0 ∧
      TriangleQuadrature F cos pi fuel (Buf.init p) (Buf.init fun _ => 1) n = some out1 ∧
      ∑ idx in Finset.range (n * n), out1.2.val idx
        = (∑ idx in Finset.range (n * n), out0.2.val idx) + d := by
  refine ⟨_, _, TriangleQuadrature_eq F cos pi fuel n _ _ hn hfuel hfuel2,
    TriangleQuadrature_eq F cos pi fuel n _ _ hn hfuel hfuel2, ?_⟩
  rw [hd]
  apply sum_range_diff
  · intro idx hidx
    exact (triangle_low_independent _ _ n _ _ _ d idx hidx).symm
  · intro x
    exact ((triangle_high _ _ n _ _ _).1 (4294967296 + x) (by omega)).2
  · intro x
    exact ((triangle_high _ _ n _ _ _).1 (4294967296 + x) (by omega)).2

/-- For every `n ≤ 65536`, the sum of the entries `idx < n*n` of `weights` after
`TriangleQuadrature` is the product of the weight sums of the two rules returned by
`GaussJacobi`, divided by `8`; it is `1/2` when both weight sums are `2`. -/
theorem TriangleQuadrature_entry_sum {K : Type} [LinearOrderedField K] (F : Functions K)
    (cos : K → K) (pi : K) (fuel n : Nat) (p : Nat → K × K) (w : Nat → K) (hn : n ≤ 65536)
    (hfuel : n < fuel) (hfuel2 : MaxIterations ≤ fuel) :
    ∃ r0 r1 out,
      GaussJacobi F cos pi fuel Buf.fresh Buf.fresh n 0 0 = some r0 ∧
      GaussJacobi F cos pi fuel Buf.fresh Buf.fresh n 1 0 = some r1 ∧
      TriangleQuadrature F cos pi fuel (Buf.init p) (Buf.init w) n = some out ∧
      ∑ idx in Finset.range (n * n), out.2.val idx
        = (∑ i in Finset.range n, r1.2.val i) * (∑ j in Finset.range n, r0.2.val j) / 8 ∧
      ((∑ i in Finset.range n, r1.2.val i) = 2 → (∑ j in Finset.range n, r0.2.val j) = 2 →
        ∑ idx in Finset.range (n * n), out.2.val idx = 1 / 2) := by
  obtain ⟨h0, h1, out, hout, hval⟩ := triangle_entries F cos pi fuel n p w hn hfuel hfuel2
  have hsum : ∑ idx in Finset.range (n * n), out.2.val idx
      = (∑ i in Finset.range n, (jacobiRule F cos pi n 1 0).2.val i)
        * (∑ j in Finset.range n, (jacobiRule F cos pi n 0 0).2.val j) / 8 := by
    have e1 : ∑ idx in Finset.range (n * n), out.2.val idx
        = ∑ idx in Finset.range (n * n), (jacobiRule F cos pi n 1 0).2.val (idx / n)
            * (jacobiRule F cos pi n 0 0).2.val (idx % n) * (1 / 8) :=
      Finset.sum_congr rfl (fun idx hidx => (hval idx (Finset.mem_range.mp hidx)).2)
    rw [e1, sum_range_mul_div_mod (fun i j => (jacobiRule F cos pi n 1 0).2.val i
      * (jacobiRule F cos pi n 0 0).2.val j * (1 / 8)) n n, Finset.sum_mul_sum, Finset.sum_div]
    apply Finset.sum_congr rfl
    intro i _
    rw [Finset.sum_div]
    apply Finset.sum_congr rfl
    intro j _
    ring
  refine ⟨_, _, out, h0, h1, hout, hsum, ?_⟩
  intro ha hb
  rw [hsum, ha, hb]
  norm_num

/-- At the input `n = 65537`, `131073` of the `n*n` entries of `weights` are never stored to,
so the sum of the `n*n` entries after the call depends on what the array held before: on an
array of ones it exceeds the sum on an array of zeros by `131073`, while the two rules of
`GaussJacobi`, and with them the product of their weight sums, are the same for both. -/
theorem TriangleQuadrature_65537_entry_sum {K : Type} [LinearOrderedField K]
    (F : Functions K) (cos : K → K) (pi : K) (p : Nat → K × K) :
    ∃ out0 out1,
      TriangleQuadrature F cos pi 65538 (Buf.init p) (Buf.init fun _ => 0) 65537 = some out0 ∧
      TriangleQuadrature F cos pi 65538 (Buf.init p) (Buf.init fun _ => 1) 65537 = some out1 ∧
      ∑ idx in Finset.range (65537 * 65537), out1.2.val idx
        = (∑ idx in Finset.range (65537 * 65537), out0.2.val idx) + 131073 := by
  obtain ⟨out0, out1, h0, h1, hsum⟩ := triangle_sum_diff F cos pi p 65538 65537 131073
    (by decide) (by decide) (by decide) (by norm_num)
  refine ⟨out0, out1, h0, h1, ?_⟩
  rw [hsum]
  norm_num

/-! ## Whatever the fuel: a call that returns has computed the closed form -/

/-- A Newton loop that returns has performed the passes of `newtonPure`. -/
theorem newton_some {K : Type} [LinearOrderedField K] (eval : K → Option (K × K))
    (e : K → K × K) (he : ∀ x r, eval x = some r → r = e x) :
    ∀ (fuel it : Nat) (x Pn dPn : K) (r : K × K × K), it < MaxIterations →
      newton eval fuel it x Pn dPn = some r →
      r = newtonPure e (MaxIterations - 1 - it) x Pn dPn := by
  intro fuel
  induction fuel with
  | zero =>
    intro it x Pn dPn r _ h
    simp [newton] at h
  | succ f ih =>
    intro it x Pn dPn r hit h
    simp only [newton] at h
    cases hev : eval (x - Pn / dPn) with
    | none => rw [hev] at h; simp at h
    | some v =>
      have hv := he _ _ hev
      subst hv
      rw [hev, Option.some_bind] at h
      by_cases hc : |(e (x - Pn / dPn)).1| > Tolerance
      · by_cases hlt : it + 1 < MaxIterations
        · rw [if_pos ⟨hc, hlt⟩] at h
          have h2 := ih (it + 1) _ _ _ r hlt h
          have e1 : MaxIterations - 1 - it = (MaxIterations - 1 - (it + 1)) + 1 := by omega
          rw [e1, newtonPure_continue _ _ _ _ _ hc]
          exact h2
        · rw [if_neg (fun hh => hlt hh.2)] at h
          have e1 : MaxIterations - 1 - it = 0 := by omega
          rw [e1]
          simp only [newtonPure]
          exact (Option.some.inj h).symm
      · rw [if_neg (fun hh => hc hh.1)] at h
        rw [newtonPure_stop _ _ _ _ _ hc]
        exact (Option.some.inj h).symm

/-- A `for (i = lo; i <= hi; ++i)` loop that returns has applied the body to `lo, ..., hi`. -/
theorem forLe_some {σ : Type} (hi : Nat) (body : Nat → σ → Option σ) (g : Nat → σ → σ)
    (lo0 : Nat) (hhi : hi < UINT_MAX)
    (hbody : ∀ i s r, lo0 ≤ i → i ≤ hi → body i s = some r → r = g i s) :
    ∀ (fuel lo : Nat) (s r : σ), lo0 ≤ lo → lo ≤ hi + 1 →
      forLe hi body fuel lo s = some r → r = iterUp g lo (hi + 1 - lo) s := by
  intro fuel
  induction fuel with
  | zero =>
    intro lo s r _ _ h
    simp [forLe] at h
  | succ f ih =>
    intro lo s r hlo0 hlo h
    simp only [forLe] at h
    by_cases hle : lo ≤ hi
    · rw [if_pos hle] at h
      cases hb : body lo s with
      | none => rw [hb] at h; simp at h
      | some s1 =>
        rw [hb, Option.some_bind] at h
        have hs1 := hbody lo s s1 hlo0 hle hb
        have hw : wrap32 (lo + 1) = lo + 1 := wrap32_of_lt (by unfold UINT_MAX at hhi; omega)
        rw [hw] at h
        have h2 := ih (lo + 1) s1 r (by omega) (by omega) h
        have e1 : hi + 1 - lo = (hi + 1 - (lo + 1)) + 1 := by omega
        rw [e1, iterUp_first, ← hs1]
        exact h2
    · rw [if_neg hle] at h
      have e1 : hi + 1 - lo = 0 := by omega
      rw [e1]
      exact (Option.some.inj h).symm

/-- A `for (i = lo; i < hi; ++i)` loop that returns has applied the body to `lo, ..., hi-1`. -/
theorem forLt_some {σ : Type} (hi : Nat) (body : Nat → σ → Option σ) (g : Nat → σ → σ)
    (hhi : hi ≤ UINT_MAX) (hbody : ∀ i s r, i < hi → body i s = some r → r = g i s) :
    ∀ (fuel lo : Nat) (s r : σ), lo ≤ hi →
      forLt hi body fuel lo s = some r → r = iterUp g lo (hi - lo) s := by
  intro fuel
  induction fuel with
  | zero =>
    intro lo s r _ h
    simp [forLt] at h
  | succ f ih =>
    intro lo s r hlo h
    simp only [forLt] at h
    by_cases hlt : lo < hi
    · rw [if_pos hlt] at h
      cases hb : body lo s with
      | none => rw [hb] at h; simp at h
      | some s1 =>
        rw [hb, Option.some_bind] at h
        have hs1 := hbody lo s s1 hlt hb
        have hw : wrap32 (lo + 1) = lo + 1 := wrap32_of_lt (by unfold UINT_MAX at hhi; omega)
        rw [hw] at h
        have h2 := ih (lo + 1) s1 r (by omega) h
        have e1 : hi - lo = (hi - (lo + 1)) + 1 := by omega
        rw [e1, iterUp_first, ← hs1]
        exact h2
    · rw [if_neg hlt] at h
      have e1 : hi - lo = 0 := by omega
      rw [e1]
      exact (Option.some.inj h).symm

/-- When `GaussJacobi` returns, `n` is below `UINT_MAX` and the arrays are those of the closed
form. -/
theorem GaussJacobi_some {K : Type} [LinearOrderedField K] (F : Functions K) (cos : K → K)
    (pi : K) (fuel n a b : Nat) (points weights : Buf K) (r : Buf K × Buf K)
    (h : GaussJacobi F cos pi fuel points weights n a b = some r) :
    n < UINT_MAX ∧ r = iterUp (jacobiStores F cos pi n a b) 1 n (points, weights) := by
  have hn : n < UINT_MAX := by
    by_contra hc
    unfold GaussJacobi at h
    rw [forLe_none n _ (by omega) fuel 1 _ (by decide)] at h
    simp at h
  refine ⟨hn, ?_⟩
  unfold GaussJacobi at h
  have hlt : n < 4294967296 := by unfold UINT_MAX at hn; omega
  have hw : wrap32 (n + 1) = n + 1 := wrap32_of_lt (by unfold UINT_MAX at hn; omega)
  refine forLe_some n _ (jacobiStores F cos pi n a b) 1 hn ?_ fuel 1 _ r (le_refl 1) (by omega) h
  intro i s r1 hi1 hi hb
  unfold jacobiBody at hb
  cases hN : newton (jacobiEval F n a b) fuel 0
      (cos (pi * (1 / 2 * (a : K) + (i : K) - 1 / 4)
        / (1 / 2 * (1 + (a : K) + (b : K)) + (n : K)))) 0 1 with
  | none => rw [hN] at hb; simp at hb
  | some v =>
    have hv := newton_some (jacobiEval F n a b) (jacobiValue F n a b)
      (fun x r hx => (Option.some.inj hx).symm) fuel 0 _ 0 1 v (by decide) hN
    rw [hN, Option.some_bind, usub_of_le hi1 (by omega), hw] at hb
    rw [← Option.some.inj hb, hv]
    rfl

/-- When `TriangleQuadrature` returns, `n` is below `UINT_MAX`, both calls of `GaussJacobi`
have returned their closed forms and the arrays are those of the closed form. -/
theorem TriangleQuadrature_some {K : Type} [LinearOrderedField K] (F : Functions K)
    (cos : K → K) (pi : K) (fuel n : Nat) (points : Buf (K × K)) (weights : Buf K)
    (out : Buf (K × K) × Buf K)
    (h : TriangleQuadrature F cos pi fuel points weights n = some out) :
    n < UINT_MAX ∧
    GaussJacobi F cos pi fuel Buf.fresh Buf.fresh n 0 0 = some (jacobiRule F cos pi n 0 0) ∧
    GaussJacobi F cos pi fuel Buf.fresh Buf.fresh n 1 0 = some (jacobiRule F cos pi n 1 0) ∧
    out = iterUp (triangleLinear (jacobiRule F cos pi n 0 0) (jacobiRule F cos pi n 1 0) n)
      0 (n * n) (points, weights) := by
  unfold TriangleQuadrature at h
  cases h0 : GaussJacobi F cos pi fuel Buf.fresh Buf.fresh n 0 0 with
  | none => rw [h0] at h; simp at h
  | some r0 =>
    cases h1 : GaussJacobi F cos pi fuel Buf.fresh Buf.fresh n 1 0 with
    | none => rw [h0, h1] at h; simp at h
    | some r1 =>
      obtain ⟨hn, hr0⟩ := GaussJacobi_some F cos pi fuel n 0 0 _ _ r0 h0
      obtain ⟨-, hr1⟩ := GaussJacobi_some F cos pi fuel n 1 0 _ _ r1 h1
      have e0 : r0 = jacobiRule F cos pi n 0 0 := hr0
      have e1 : r1 = jacobiRule F cos pi n 1 0 := hr1
      subst e0 e1
      refine ⟨hn, rfl, rfl, ?_⟩
      rw [h0, h1] at h
      simp only [Option.some_bind] at h
      have houter := forLt_some n
        (fun i pw => forLt n (triangleBody (jacobiRule F cos pi n 0 0)
          (jacobiRule F cos pi n 1 0) n i) fuel 0 pw)
        (fun i pw => iterUp (triangleStores (jacobiRule F cos pi n 0 0)
          (jacobiRule F cos pi n 1 0) n i) 0 n pw)
        (le_of_lt hn)
        (fun i s r _ hr => forLt_some n _ _ (le_of_lt hn)
          (fun j t r2 _ hb => (Option.some.inj hb).symm) fuel 0 s r (Nat.zero_le n) hr)
        fuel 0 (points, weights) out (Nat.zero_le n) h
      rw [houter]
      exact iterUp_nested _ n n _

/-- The record of the values stored by the first `m` stores of `TriangleQuadrature`, whether or
not the flat index wraps. -/
theorem triangle_stored {K : Type} [LinearOrderedField K] (r0 r1 : Buf K × Buf K) (n : Nat)
    (points : Buf (K × K)) (weights : Buf K) (m : Nat) :
    (iterUp (triangleLinear r0 r1 n) 0 m (points, weights)).2.stored.length
        = m + weights.stored.length ∧
    (iterUp (triangleLinear r0 r1 n) 0 m (points, weights)).2.stored.sum
        = (∑ idx in Finset.range m, triangleWeight r0 r1 (idx / n) (idx % n))
          + weights.stored.sum ∧
    (iterUp (triangleLinear r0 r1 n) 0 m (points, weights)).1.stored.length
        = m + points.stored.length ∧
    (∀ v, v ∈ (iterUp (triangleLinear r0 r1 n) 0 m (points, weights)).1.stored →
      v ∈ points.stored ∨ ∃ idx, idx < m ∧ v = trianglePoint r0 r1 (idx / n) (idx % n)) := by
  induction m with
  | zero =>
    refine ⟨by simp [iterUp], by simp [iterUp], by simp [iterUp], fun v hv => Or.inl hv⟩
  | succ m ih =>
    obtain ⟨ih1, ih2, ih3, ih4⟩ := ih
    refine ⟨?_, ?_, ?_, ?_⟩
    · simp only [iterUp, triangleLinear, triangleStores, Buf.write, List.length_cons]
      rw [ih1]
      omega
    · simp only [iterUp, triangleLinear, triangleStores, Buf.write, List.sum_cons,
        Nat.zero_add]
      rw [ih2, Finset.sum_range_succ]
      ring
    · simp only [iterUp, triangleLinear, triangleStores, Buf.write, List.length_cons]
      rw [ih3]
      omega
    · intro v hv
      simp only [iterUp, triangleLinear, triangleStores, Buf.write, List.mem_cons,
        Nat.zero_add] at hv
      rcases hv with hv | hv
      · exact Or.inr ⟨m, Nat.lt_succ_self m, hv⟩
      · rcases ih4 v hv with h | ⟨idx, hidx, h⟩
        · exact Or.inl h
        · exact Or.inr ⟨idx, by omega, h⟩

/-! ## GaussJacobi with `a = b = 0` against GaussLegendre -/

/-- The Newton loop ends with `(Pn, dPn)` evaluated at the final `x`. -/
theorem newtonPure_snd {K : Type} [LinearOrderedField K] (e : K → K × K) (r : Nat)
    (x Pn dPn : K) : (newtonPure e r x Pn dPn).2 = e (newtonPure e r x Pn dPn).1 := by
  obtain ⟨_, -, -, h, -⟩ := newtonPure_invariant e (fun _ _ => True) (fun _ _ _ _ => trivial)
    r 0 x Pn dPn trivial
  exact h

/-- For `a = b = 0` the seed of `GaussJacobi` is the seed of `GaussLegendre`. -/
theorem jacobi_seed_eq {K : Type} [LinearOrderedField K] (pi : K) (n i : Nat) :
    pi * (1 / 2 * ((0 : Nat) : K) + (i : K) - 1 / 4)
        / (1 / 2 * (1 + ((0 : Nat) : K) + ((0 : Nat) : K)) + (n : K))
      = pi * (4 * (i : K) - 1) / (4 * (n : K) + 2) := by
  have hn : (0 : K) ≤ (n : K) := Nat.cast_nonneg n
  have h1 : (1 / 2 * (1 + ((0 : Nat) : K) + ((0 : Nat) : K)) + (n : K)) ≠ 0 := by
    have : (0 : K) < 1 / 2 * (1 + ((0 : Nat) : K) + ((0 : Nat) : K)) + (n : K) := by
      simp only [Nat.cast_zero, add_zero]
      linarith
    exact ne_of_gt this
  have h2 : (4 * (n : K) + 2) ≠ 0 := by
    have : (0 : K) < 4 * (n : K) + 2 := by linarith
    exact ne_of_gt this
  rw [div_eq_div_iff h1 h2]
  simp only [Nat.cast_zero]
  ring

/-- When the service returns for `a = b = 0` what the recurrence of `GaussLegendre` computes,
both Newton loops end with the same `(x, Pn, dPn)`. -/
theorem jacobiRoot_eq_legendreRoot {K : Type} [LinearOrderedField K] (F : Functions K)
    (cos : K → K) (pi : K) (n i : Nat)
    (hF : ∀ x, F.JacobiP n 0 0 x = (legendreValue n x).1 ∧
      F.JacobiPFirstDerivative n 0 0 x = (legendreValue n x).2) :
    jacobiRoot F cos pi n 0 0 i = legendreRoot cos pi n i := by
  have he : jacobiValue F n 0 0 = legendreValue n := by
    funext x
    unfold jacobiValue
    rw [(hF x).1, (hF x).2]
  unfold jacobiRoot legendreRoot
  rw [he, jacobi_seed_eq]

/-- Parity of the recurrence: `P_n(-x) = (-1)^n P_n(x)`. -/
theorem legendreP_neg {K : Type} [LinearOrderedField K] (x : K) (n : Nat) :
    legendreP (-x) n = ((-1) ^ (n + 1) * (legendreP x n).1, (-1) ^ n * (legendreP x n).2) := by
  induction n with
  | zero => simp [legendreP]
  | succ n ih =>
    have hne : ((n + 1 : Nat) : K) ≠ 0 := by
      rw [Nat.cast_add_one]
      exact Nat.cast_add_one_ne_zero n
    apply Prod.ext
    · rw [legendreP_succ_fst, ih]
      simp only
      rw [legendreP_succ_fst, pow_succ, pow_succ]
      ring
    · rw [legendreP_succ_snd, ih]
      simp only
      rw [legendreP_succ_snd, pow_succ]
      field_simp
      ring

/-- Parity of the values used by the Newton loop of `GaussLegendre`. -/
theorem legendreValue_neg {K : Type} [LinearOrderedField K] (n : Nat) (x : K) :
    legendreValue n (-x)
      = ((-1) ^ n * (legendreValue n x).1, -(-1) ^ n * (legendreValue n x).2) := by
  unfold legendreValue
  rw [legendreP_neg]
  apply Prod.ext
  · rfl
  · simp only
    rw [pow_succ]
    have h : (1 : K) - -x * -x = 1 - x * x := by ring
    rw [h]
    by_cases hx : (1 : K) - x * x = 0
    · rw [hx]
      simp
    · field_simp
      ring

/-- The Newton loop started with `Pn = 0` does not depend on the starting `dPn`. -/
theorem newtonPure_zero_start {K : Type} [LinearOrderedField K] (e : K → K × K) (r : Nat)
    (x d1 d2 : K) : newtonPure e r x 0 d1 = newtonPure e r x 0 d2 := by
  cases r with
  | zero => simp [newtonPure]
  | succ r => simp [newtonPure]

/-- For an evaluation that is even or odd in `x` (with the opposite parity for the derivative)
the Newton loop commutes with `x ↦ -x`. -/
theorem newtonPure_neg {K : Type} [LinearOrderedField K] (e : K → K × K) (σ : K)
    (hσ : σ * σ = 1) (he : ∀ x, e (-x) = (σ * (e x).1, -σ * (e x).2)) :
    ∀ (r : Nat) (x Pn dPn : K),
      newtonPure e r (-x) (σ * Pn) (-σ * dPn)
        = (-(newtonPure e r x Pn dPn).1, σ * (newtonPure e r x Pn dPn).2.1,
            -σ * (newtonPure e r x Pn dPn).2.2) := by
  have hσ0 : σ ≠ 0 := by
    intro h
    rw [h] at hσ
    simp at hσ
  have habs : ∀ a : K, |σ * a| = |a| := by
    intro a
    have h1 : |σ| * |σ| = 1 := by rw [← abs_mul, hσ, abs_one]
    have h2 : |σ| = 1 := by
      have h3 : 0 ≤ |σ| := abs_nonneg σ
      nlinarith
    rw [abs_mul, h2, one_mul]
  have hstep : ∀ x Pn dPn : K, -x - σ * Pn / (-σ * dPn) = -(x - Pn / dPn) := by
    intro x Pn dPn
    have : σ * Pn / (-σ * dPn) = -(Pn / dPn) := by
      rw [neg_mul, div_neg, mul_div_mul_left _ _ hσ0]
    rw [this]
    ring
  intro r
  induction r with
  | zero =>
    intro x Pn dPn
    simp only [newtonPure, hstep, he]
  | succ r ih =>
    intro x Pn dPn
    simp only [newtonPure, hstep, he, habs]
    by_cases hc : |(e (x - Pn / dPn)).1| > Tolerance
    · rw [if_pos hc, if_pos hc]
      exact ih _ _ _
    · rw [if_neg hc, if_neg hc]

/-- In real arithmetic the seeds of `GaussLegendre` for `i` and `n+1-i` are opposite. -/
theorem seed_mirror_real (n i : Nat) (hi : i ≤ n + 1) :
    Real.cos (Real.pi * (4 * ((n + 1 - i : Nat) : ℝ) - 1) / (4 * (n : ℝ) + 2))
      = -Real.cos (Real.pi * (4 * (i : ℝ) - 1) / (4 * (n : ℝ) + 2)) := by
  have h2 : (4 * (n : ℝ) + 2) ≠ 0 := by positivity
  have harg : Real.pi * (4 * ((n + 1 - i : Nat) : ℝ) - 1) / (4 * (n : ℝ) + 2)
      = Real.pi - Real.pi * (4 * (i : ℝ) - 1) / (4 * (n : ℝ) + 2) := by
    rw [Nat.cast_sub hi]
    push_cast
    field_simp
    ring
  rw [harg, Real.cos_pi_sub]

/-- In real arithmetic the Newton loops of `GaussLegendre` for `i` and `n+1-i` end at opposite
points, with derivative values that agree up to the sign `-(-1)^n`. -/
theorem legendreRoot_mirror (n i : Nat) (hi : i ≤ n + 1) :
    (legendreRoot Real.cos Real.pi n (n + 1 - i)).1 = -(legendreRoot Real.cos Real.pi n i).1 ∧
    (legendreRoot Real.cos Real.pi n (n + 1 - i)).2.2
      = -(-1) ^ n * (legendreRoot Real.cos Real.pi n i).2.2 := by
  have hσ : ((-1 : ℝ) ^ n) * ((-1) ^ n) = 1 := by
    rw [← pow_add, ← two_mul, pow_mul]
    norm_num
  have h := newtonPure_neg (legendreValue n) ((-1) ^ n) hσ (legendreValue_neg n)
    (MaxIterations - 1) (Real.cos (Real.pi * (4 * (i : ℝ) - 1) / (4 * (n : ℝ) + 2))) 0 1
  rw [mul_zero, newtonPure_zero_start _ _ _ _ 1] at h
  unfold legendreRoot
  rw [seed_mirror_real n i hi, h]
  exact ⟨rfl, rfl⟩

/-! ## Integrals over the reference interval -/

/-- The integral of `(1+x)^p` over `[-1,1]`. -/
theorem integral_one_add_pow (p : Nat) :
    ∫ x in (-1 : ℝ)..1, (1 + x) ^ p = 2 ^ (p + 1) / ((p : ℝ) + 1) := by
  have h := intervalIntegral.integral_comp_add_left (fun x : ℝ => x ^ p) (a := -1) (b := 1) 1
  simp only at h
  rw [h, integral_pow]
  norm_num

/-- Integration by parts lowers the exponent of `1-x` and raises that of `1+x`. -/
theorem integral_jacobi_step (p q : Nat) :
    ∫ x in (-1 : ℝ)..1, (1 + x) ^ p * (1 - x) ^ (q + 1)
      = ((q : ℝ) + 1) / ((p : ℝ) + 1) * ∫ x in (-1 : ℝ)..1, (1 + x) ^ (p + 1) * (1 - x) ^ q := by
  have hp : ((p : ℝ) + 1) ≠ 0 := by positivity
  have hu : ∀ x ∈ Set.uIcc (-1 : ℝ) 1,
      HasDerivAt (fun x : ℝ => (1 - x) ^ (q + 1)) (-(((q : ℝ) + 1) * (1 - x) ^ q)) x := by
    intro x _
    have h := ((hasDerivAt_id x).const_sub 1).pow (q + 1)
    simp only [Nat.add_sub_cancel, id] at h
    convert h using 1
    push_cast
    ring
  have hv : ∀ x ∈ Set.uIcc (-1 : ℝ) 1,
      HasDerivAt (fun x : ℝ => (1 + x) ^ (p + 1) / ((p : ℝ) + 1)) ((1 + x) ^ p) x := by
    intro x _
    have h := (((hasDerivAt_id x).const_add 1).pow (p + 1)).div_const ((p : ℝ) + 1)
    simp only [Nat.add_sub_cancel, id] at h
    convert h using 1
    push_cast
    field_simp
  have hu' : IntervalIntegrable (fun x : ℝ => -(((q : ℝ) + 1) * (1 - x) ^ q))
      MeasureTheory.volume (-1) 1 :=
    Continuous.intervalIntegrable (by continuity) _ _
  have hv' : IntervalIntegrable (fun x : ℝ => (1 + x) ^ p) MeasureTheory.volume (-1) 1 :=
    Continuous.intervalIntegrable (by continuity) _ _
  have h := intervalIntegral.integral_mul_deriv_eq_deriv_mul hu hv hu' hv'
  have e1 : ∫ x in (-1 : ℝ)..1, (1 + x) ^ p * (1 - x) ^ (q + 1)
      = ∫ x in (-1 : ℝ)..1, (1 - x) ^ (q + 1) * (1 + x) ^ p := by
    congr 1
    funext x
    ring
  have e2 : ∫ x in (-1 : ℝ)..1, -(((q : ℝ) + 1) * (1 - x) ^ q) * ((1 + x) ^ (p + 1) / ((p : ℝ) + 1))
      = -(((q : ℝ) + 1) / ((p : ℝ) + 1)) * ∫ x in (-1 : ℝ)..1, (1 + x) ^ (p + 1) * (1 - x) ^ q := by
    rw [← intervalIntegral.integral_const_mul]
    congr 1
    funext x
    field_simp
    ring
  rw [e1, h, e2]
  norm_num

/-- The integral of `(1+x)^p (1-x)^q` over `[-1,1]` is `2^(p+q+1) p! q! / (p+q+1)!`. -/
theorem integral_jacobi (q : Nat) : ∀ p : Nat,
    ∫ x in (-1 : ℝ)..1, (1 + x) ^ p * (1 - x) ^ q
      = 2 ^ (p + q + 1) * (Nat.factorial p : ℝ) * (Nat.factorial q : ℝ)
        / (Nat.factorial (p + q + 1) : ℝ) := by
  induction q with
  | zero =>
    intro p
    simp only [pow_zero, mul_one, Nat.add_zero, Nat.factorial_zero, Nat.cast_one]
    rw [integral_one_add_pow, Nat.factorial_succ]
    have hp : ((p : ℝ) + 1) ≠ 0 := by positivity
    have hf : (Nat.factorial p : ℝ) ≠ 0 := by positivity
    push_cast
    field_simp
    ring
  | succ q ih =>
    intro p
    rw [integral_jacobi_step, ih (p + 1)]
    have hp : ((p : ℝ) + 1) ≠ 0 := by positivity
    have e : p + 1 + q + 1 = p + (q + 1) + 1 := by ring
    rw [e, Nat.factorial_succ p, Nat.factorial_succ q]
    have hf : (Nat.factorial (p + (q + 1) + 1) : ℝ) ≠ 0 := by positivity
    push_cast
    field_simp
    ring

/-! ## TriangleQuadrature: exactness inherited from the two rules of GaussJacobi -/

/-- The value over the reference triangle of the product of the two one-dimensional integrals
that the collapsed coordinates lead to. -/
theorem duffy_product (P Q : Nat) :
    (∫ x in (-1 : ℝ)..1, (1 / 2 * (1 + x)) ^ P * (1 / 2 * (1 - x)) ^ Q * (1 - x))
        * (∫ x in (-1 : ℝ)..1, (1 / 2 * (1 + x)) ^ Q) / 8
      = (Nat.factorial P : ℝ) * (Nat.factorial Q : ℝ) / (Nat.factorial (P + Q + 2) : ℝ) := by
  have e1 : ∫ x in (-1 : ℝ)..1, (1 / 2 * (1 + x)) ^ P * (1 / 2 * (1 - x)) ^ Q * (1 - x)
      = (1 / 2) ^ (P + Q) * ∫ x in (-1 : ℝ)..1, (1 + x) ^ P * (1 - x) ^ (Q + 1) := by
    rw [← intervalIntegral.integral_const_mul]
    congr 1
    funext x
    rw [mul_pow, mul_pow, pow_add, pow_succ]
    ring
  have e2 : ∫ x in (-1 : ℝ)..1, (1 / 2 * (1 + x)) ^ Q
      = (1 / 2) ^ Q * ∫ x in (-1 : ℝ)..1, (1 + x) ^ Q := by
    rw [← intervalIntegral.integral_const_mul]
    congr 1
    funext x
    rw [mul_pow]
  rw [e1, e2, integral_jacobi, integral_one_add_pow]
  have h2' : ∀ k : Nat, ((1 : ℝ) / 2) ^ k * 2 ^ (k + 2) = 4 := by
    intro k
    rw [pow_add, ← mul_assoc, ← mul_pow]
    norm_num
  have h2 : ((1 : ℝ) / 2) ^ (P + Q) * 2 ^ (P + (Q + 1) + 1) = 4 := by
    rw [show P + (Q + 1) + 1 = (P + Q) + 2 by ring]
    exact h2' (P + Q)
  have h3 : ((1 : ℝ) / 2) ^ Q * 2 ^ (Q + 1) = 2 := by
    rw [pow_succ, ← mul_assoc, ← mul_pow]
    norm_num
  have hq : ((Q : ℝ) + 1) ≠ 0 := by positivity
  have hf : (Nat.factorial (P + (Q + 1) + 1) : ℝ) ≠ 0 := by positivity
  have hf2 : (Nat.factorial (P + Q + 2) : ℝ) ≠ 0 := by positivity
  have e3 : (Nat.factorial (P + (Q + 1) + 1) : ℝ) = (Nat.factorial (P + Q + 2) : ℝ) := by
    rw [show P + (Q + 1) + 1 = P + Q + 2 by ring]
  have e4 : (Nat.factorial (Q + 1) : ℝ) = ((Q : ℝ) + 1) * (Nat.factorial Q : ℝ) := by
    rw [Nat.factorial_succ]
    push_cast
    ring
  have key : (1 / 2 : ℝ) ^ (P + Q) * (2 ^ (P + (Q + 1) + 1) * (Nat.factorial P : ℝ)
        * (Nat.factorial (Q + 1) : ℝ) / (Nat.factorial (P + (Q + 1) + 1) : ℝ))
        * ((1 / 2) ^ Q * (2 ^ (Q + 1) / ((Q : ℝ) + 1))) / 8
      = ((1 / 2 : ℝ) ^ (P + Q) * 2 ^ (P + (Q + 1) + 1)) * ((1 / 2 : ℝ) ^ Q * 2 ^ (Q + 1))
        * (Nat.factorial P : ℝ) * (Nat.factorial (Q + 1) : ℝ)
        / ((Nat.factorial (P + (Q + 1) + 1) : ℝ) * ((Q : ℝ) + 1) * 8) := by
    field_simp
    ring
  rw [key, h2, h3, e3, e4]
  field_simp
  ring

/-- For every `n ≤ 65536`, in real arithmetic: if the rule returned by
`GaussJacobi(n,0,0)` integrates every polynomial of degree `≤ 2n-1` exactly over `[-1,1]`, and
the rule returned by `GaussJacobi(n,1,0)` does so against the weight `1-x`, then the rule of
`TriangleQuadrature(n)` gives `P! Q! / (P+Q+2)!`, the integral of `x^P y^Q` over the reference
triangle, for all `P + Q ≤ 2n-1`. -/
theorem TriangleQuadrature_exact (F : Functions ℝ) (cos : ℝ → ℝ) (pi : ℝ) (fuel n : Nat)
    (p : Nat → ℝ × ℝ) (w : Nat → ℝ) (hn : n ≤ 65536) (hfuel : n < fuel)
    (hfuel2 : MaxIterations ≤ fuel)
    (h0 : ∀ r0, GaussJacobi F cos pi fuel Buf.fresh Buf.fresh n 0 0 = some r0 →
      ∀ f : Polynomial ℝ, f.natDegree ≤ 2 * n - 1 →
        ∑ j in Finset.range n, r0.2.val j * f.eval (r0.1.val j)
          = ∫ x in (-1 : ℝ)..1, f.eval x)
    (h1 : ∀ r1, GaussJacobi F cos pi fuel Buf.fresh Buf.fresh n 1 0 = some r1 →
      ∀ f : Polynomial ℝ, f.natDegree ≤ 2 * n - 1 →
        ∑ i in Finset.range n, r1.2.val i * f.eval (r1.1.val i)
          = ∫ x in (-1 : ℝ)..1, f.eval x * (1 - x)) :
    ∃ out, TriangleQuadrature F cos pi fuel (Buf.init p) (Buf.init w) n = some out ∧
      ∀ P Q, P + Q ≤ 2 * n - 1 →
        ∑ idx in Finset.range (n * n),
            out.2.val idx * (out.1.val idx).1 ^ P * (out.1.val idx).2 ^ Q
          = (Nat.factorial P : ℝ) * (Nat.factorial Q : ℝ) / (Nat.factorial (P + Q + 2) : ℝ) := by
  obtain ⟨hr0, hr1, out, hout, hval⟩ := triangle_entries F cos pi fuel n p w hn hfuel hfuel2
  refine ⟨out, hout, ?_⟩
  intro P Q hPQ
  -- the two polynomials the one-dimensional rules are applied to
  have hd1 : (Polynomial.C (1 / 2 : ℝ) * (1 + Polynomial.X)).natDegree ≤ 1 := by
    compute_degree
  have hd2 : (Polynomial.C (1 / 2 : ℝ) * (1 - Polynomial.X)).natDegree ≤ 1 := by
    compute_degree
  have hf0 : ((Polynomial.C (1 / 2 : ℝ) * (1 + Polynomial.X)) ^ Q).natDegree ≤ 2 * n - 1 := by
    have := Polynomial.natDegree_pow_le_of_le Q hd1
    omega
  have hf1 : ((Polynomial.C (1 / 2 : ℝ) * (1 + Polynomial.X)) ^ P
      * (Polynomial.C (1 / 2 : ℝ) * (1 - Polynomial.X)) ^ Q).natDegree ≤ 2 * n - 1 := by
    have a := Polynomial.natDegree_pow_le_of_le P hd1
    have b := Polynomial.natDegree_pow_le_of_le Q hd2
    have c := Polynomial.natDegree_mul_le
      (p := (Polynomial.C (1 / 2 : ℝ) * (1 + Polynomial.X)) ^ P)
      (q := (Polynomial.C (1 / 2 : ℝ) * (1 - Polynomial.X)) ^ Q)
    omega
  have s0 := h0 _ hr0 _ hf0
  have s1 := h1 _ hr1 _ hf1
  simp only [Polynomial.eval_pow, Polynomial.eval_mul, Polynomial.eval_C, Polynomial.eval_add,
    Polynomial.eval_sub, Polynomial.eval_one, Polynomial.eval_X] at s0 s1
  rw [← duffy_product P Q, ← s0, ← s1]
  have e1 : ∑ idx in Finset.range (n * n),
        out.2.val idx * (out.1.val idx).1 ^ P * (out.1.val idx).2 ^ Q
      = ∑ idx in Finset.range (n * n),
        ((jacobiRule F cos pi n 1 0).2.val (idx / n)
            * ((1 / 2 * (1 + (jacobiRule F cos pi n 1 0).1.val (idx / n))) ^ P
              * (1 / 2 * (1 - (jacobiRule F cos pi n 1 0).1.val (idx / n))) ^ Q))
          * ((jacobiRule F cos pi n 0 0).2.val (idx % n)
            * (1 / 2 * (1 + (jacobiRule F cos pi n 0 0).1.val (idx % n))) ^ Q) / 8 := by
    apply Finset.sum_congr rfl
    intro idx hidx
    obtain ⟨hp, hw⟩ := hval idx (Finset.mem_range.mp hidx)
    rw [hp, hw]
    simp only [trianglePoint, triangleWeight]
    have hy : ((1 / 4 : ℝ) * (1 + (jacobiRule F cos pi n 0 0).1.val (idx % n))
        * (1 - (jacobiRule F cos pi n 1 0).1.val (idx / n))) ^ Q
      = (1 / 2 * (1 + (jacobiRule F cos pi n 0 0).1.val (idx % n))) ^ Q
        * (1 / 2 * (1 - (jacobiRule F cos pi n 1 0).1.val (idx / n))) ^ Q := by
      rw [← mul_pow]
      congr 1
      ring
    rw [hy]
    ring
  rw [e1, sum_range_mul_div_mod (fun i j =>
      ((jacobiRule F cos pi n 1 0).2.val i
          * ((1 / 2 * (1 + (jacobiRule F cos pi n 1 0).1.val i)) ^ P
            * (1 / 2 * (1 - (jacobiRule F cos pi n 1 0).1.val i)) ^ Q))
        * ((jacobiRule F cos pi n 0 0).2.val j
          * (1 / 2 * (1 + (jacobiRule F cos pi n 0 0).1.val j)) ^ Q) / 8) n n,
    Finset.sum_mul_sum, Finset.sum_div]
  apply Finset.sum_congr rfl
  intro i _
  rw [Finset.sum_div]

/-! ## The one-point triangle rule with the Jacobi polynomials of low degree -/

/-- With the low-degree service, `GaussJacobi(1,0,0)` ends at the point `0` with weight `2`. -/
theorem lowService_rule0 :
    (jacobiRule (lowService : Functions ℝ) Real.cos Real.pi 1 0 0).1.val 0 = 0 ∧
    (jacobiRule (lowService : Functions ℝ) Real.cos Real.pi 1 0 0).2.val 0 = 2 := by
  have hseed : Real.cos (Real.pi * (1 / 2 * ((0 : Nat) : ℝ) + ((0 + 1 : Nat) : ℝ) - 1 / 4)
      / (1 / 2 * (1 + ((0 : Nat) : ℝ) + ((0 : Nat) : ℝ)) + ((1 : Nat) : ℝ))) = 0 := by
    have h : Real.pi * (1 / 2 * ((0 : Nat) : ℝ) + ((0 + 1 : Nat) : ℝ) - 1 / 4)
        / (1 / 2 * (1 + ((0 : Nat) : ℝ) + ((0 : Nat) : ℝ)) + ((1 : Nat) : ℝ)) = Real.pi / 2 := by
      push_cast
      ring
    rw [h, Real.cos_pi_div_two]
  have hroot : jacobiRoot (lowService : Functions ℝ) Real.cos Real.pi 1 0 0 (0 + 1)
      = (0, 0, 1) := by
    unfold jacobiRoot
    rw [hseed, newtonPure_of_root]
    · simp [jacobiValue, lowService]
    · simp [jacobiValue, lowService]
  have hsh : shl1 (wrap32 (0 + 0)) = 1 := by decide
  obtain ⟨h1, h2⟩ := jacobiRule_val (lowService : Functions ℝ) Real.cos Real.pi 1 0 0 0
    (by decide)
  rw [h1, h2]
  unfold jacobiWeight
  rw [hroot]
  refine ⟨rfl, ?_⟩
  simp only [weightFactor, hsh]
  simp [lowService, wrap32, Nat.factorial]
  norm_num

/-- In real arithmetic the seed of `GaussJacobi(1,1,0)`, `cos (5π/8)`, is below `-0.35`. -/
theorem low_seed_real :
    Real.cos (Real.pi * (1 / 2 * ((1 : Nat) : ℝ) + ((0 + 1 : Nat) : ℝ) - 1 / 4)
      / (1 / 2 * (1 + ((1 : Nat) : ℝ) + ((0 : Nat) : ℝ)) + ((1 : Nat) : ℝ))) < -(35 / 100) := by
  have h : Real.pi * (1 / 2 * ((1 : Nat) : ℝ) + ((0 + 1 : Nat) : ℝ) - 1 / 4)
      / (1 / 2 * (1 + ((1 : Nat) : ℝ) + ((0 : Nat) : ℝ)) + ((1 : Nat) : ℝ))
      = Real.pi / 8 + Real.pi / 2 := by
    push_cast
    ring
  rw [h, Real.cos_add_pi_div_two, Real.sin_pi_div_eight]
  have hs2 : Real.sqrt 2 * Real.sqrt 2 = 2 := Real.mul_self_sqrt (by norm_num)
  have hs2nn : 0 ≤ Real.sqrt 2 := Real.sqrt_nonneg 2
  have hlt : Real.sqrt 2 < 3 / 2 := by
    by_contra hc
    push_neg at hc
    nlinarith
  have hnn : (0 : ℝ) ≤ 2 - Real.sqrt 2 := by linarith
  have hss : Real.sqrt (2 - Real.sqrt 2) * Real.sqrt (2 - Real.sqrt 2) = 2 - Real.sqrt 2 :=
    Real.mul_self_sqrt hnn
  have hs0 : 0 ≤ Real.sqrt (2 - Real.sqrt 2) := Real.sqrt_nonneg _
  have hbig : 7 / 10 < Real.sqrt (2 - Real.sqrt 2) := by
    by_contra hc
    push_neg at hc
    nlinarith
  linarith

/-- With the low-degree service, `GaussJacobi(1,1,0)` ends at the point `-1/3` with weight
`2`: the polynomial is linear, so the first Newton update lands on its root. -/
theorem lowService_rule1 :
    (jacobiRule (lowService : Functions ℝ) Real.cos Real.pi 1 1 0).1.val 0 = -(1 / 3) ∧
    (jacobiRule (lowService : Functions ℝ) Real.cos Real.pi 1 1 0).2.val 0 = 2 := by
  have hroot : jacobiRoot (lowService : Functions ℝ) Real.cos Real.pi 1 1 0 (0 + 1)
      = (-(1 / 3), 0, 3 / 2) := by
    have hs := low_seed_real
    unfold jacobiRoot
    generalize Real.cos (Real.pi * (1 / 2 * ((1 : Nat) : ℝ) + ((0 + 1 : Nat) : ℝ) - 1 / 4)
      / (1 / 2 * (1 + ((1 : Nat) : ℝ) + ((0 : Nat) : ℝ)) + ((1 : Nat) : ℝ))) = s at hs
    have hM : MaxIterations - 1 = 98 + 1 := by decide
    have h0 : s - 0 / 1 = s := by norm_num
    have hv : ∀ x : ℝ, jacobiValue (lowService : Functions ℝ) 1 1 0 x = ((3 * x + 1) / 2, 3 / 2) := by
      intro x
      simp [jacobiValue, lowService]
    have hgt : |(3 * s + 1) / 2| > (Tolerance : ℝ) := by
      have hneg : (3 * s + 1) / 2 < 0 := by linarith
      rw [abs_of_neg hneg]
      unfold Tolerance
      norm_num
      linarith
    have hstep : s - (3 * s + 1) / 2 / (3 / 2) = -(1 / 3) := by
      field_simp
      ring
    have hle : ¬ |(3 * (-(1 / 3) : ℝ) + 1) / 2| > Tolerance := by
      have : (3 * (-(1 / 3) : ℝ) + 1) / 2 = 0 := by norm_num
      rw [this, abs_zero]
      exact not_lt.mpr (le_of_lt Tolerance_pos)
    have hgt2 : |(jacobiValue (lowService : Functions ℝ) 1 1 0 (s - 0 / 1)).1| > Tolerance := by
      rw [h0, hv]
      exact hgt
    rw [hM, newtonPure_continue _ _ _ _ _ hgt2, h0, hv]
    have hle2 : ¬ |(jacobiValue (lowService : Functions ℝ) 1 1 0
        (s - (3 * s + 1) / 2 / (3 / 2))).1| > Tolerance := by
      rw [hstep, hv]
      exact hle
    rw [newtonPure_stop _ _ _ _ _ hle2, hstep, hv]
    norm_num
  have hsh : shl1 (wrap32 (1 + 0)) = 2 := by decide
  obtain ⟨h1, h2⟩ := jacobiRule_val (lowService : Functions ℝ) Real.cos Real.pi 1 1 0 0
    (by decide)
  rw [h1, h2]
  unfold jacobiWeight
  rw [hroot]
  refine ⟨rfl, ?_⟩
  simp only [weightFactor, hsh]
  simp [lowService, wrap32, Nat.factorial]
  norm_num

/-- The one-point rule `(0, 2)` of `GaussJacobi(1,0,0)` integrates every polynomial of degree
`≤ 1` exactly over `[-1,1]`. -/
theorem lowService_exact0 (r0 : Buf ℝ × Buf ℝ)
    (h : GaussJacobi lowService Real.cos Real.pi 100 Buf.fresh Buf.fresh 1 0 0 = some r0)
    (f : Polynomial ℝ) (hf : f.natDegree ≤ 2 * 1 - 1) :
    ∑ j in Finset.range 1, r0.2.val j * f.eval (r0.1.val j) = ∫ x in (-1 : ℝ)..1, f.eval x := by
  rw [GaussJacobi_eq lowService Real.cos Real.pi 100 1 0 0 _ _ (by decide) (by decide)
    (by decide)] at h
  cases h
  obtain ⟨h1, h2⟩ := lowService_rule0
  unfold jacobiRule at h1 h2
  obtain ⟨a, b, rfl⟩ := Polynomial.exists_eq_X_add_C_of_natDegree_le_one hf
  simp only [Finset.sum_range_one, h1, h2, Polynomial.eval_add, Polynomial.eval_mul,
    Polynomial.eval_C, Polynomial.eval_X]
  rw [intervalIntegral.integral_add (Continuous.intervalIntegrable (by continuity) _ _)
    (Continuous.intervalIntegrable (by continuity) _ _), intervalIntegral.integral_const_mul,
    integral_id, intervalIntegral.integral_const]
  norm_num

/-- The one-point rule `(-1/3, 2)` of `GaussJacobi(1,1,0)` integrates every polynomial of
degree `≤ 1` exactly against the weight `1-x` over `[-1,1]`. -/
theorem lowService_exact1 (r1 : Buf ℝ × Buf ℝ)
    (h : GaussJacobi lowService Real.cos Real.pi 100 Buf.fresh Buf.fresh 1 1 0 = some r1)
    (f : Polynomial ℝ) (hf : f.natDegree ≤ 2 * 1 - 1) :
    ∑ i in Finset.range 1, r1.2.val i * f.eval (r1.1.val i)
      = ∫ x in (-1 : ℝ)..1, f.eval x * (1 - x) := by
  rw [GaussJacobi_eq lowService Real.cos Real.pi 100 1 1 0 _ _ (by decide) (by decide)
    (by decide)] at h
  cases h
  obtain ⟨h1, h2⟩ := lowService_rule1
  unfold jacobiRule at h1 h2
  obtain ⟨a, b, rfl⟩ := Polynomial.exists_eq_X_add_C_of_natDegree_le_one hf
  simp only [Finset.sum_range_one, h1, h2, Polynomial.eval_add, Polynomial.eval_mul,
    Polynomial.eval_C, Polynomial.eval_X]
  have e : ∀ x : ℝ, (a * x + b) * (1 - x) = b + ((a - b) * x - a * x ^ 2) := by
    intro x
    ring
  simp only [e]
  rw [intervalIntegral.integral_add (Continuous.intervalIntegrable (by continuity) _ _)
    (Continuous.intervalIntegrable (by continuity) _ _),
    intervalIntegral.integral_sub (Continuous.intervalIntegrable (by continuity) _ _)
    (Continuous.intervalIntegrable (by continuity) _ _),
    intervalIntegral.integral_const_mul, intervalIntegral.integral_const_mul,
    integral_id, integral_pow, intervalIntegral.integral_const]
  norm_num
  ring

theorem TriangleQuadrature_exact_witness :
    1 ≤ 65536 ∧ 1 < 100 ∧ MaxIterations ≤ 100 ∧
    (∀ r0, GaussJacobi lowService Real.cos Real.pi 100 Buf.fresh Buf.fresh 1 0 0 = some r0 →
      ∀ f : Polynomial ℝ, f.natDegree ≤ 2 * 1 - 1 →
        ∑ j in Finset.range 1, r0.2.val j * f.eval (r0.1.val j)
          = ∫ x in (-1 : ℝ)..1, f.eval x) ∧
    (∀ r1, GaussJacobi lowService Real.cos Real.pi 100 Buf.fresh Buf.fresh 1 1 0 = some r1 →
      ∀ f : Polynomial ℝ, f.natDegree ≤ 2 * 1 - 1 →
        ∑ i in Finset.range 1, r1.2.val i * f.eval (r1.1.val i)
          = ∫ x in (-1 : ℝ)..1, f.eval x * (1 - x)) ∧
    ∃ out, TriangleQuadrature lowService Real.cos Real.pi 100 (Buf.init fun _ => (0, 0))
        (Buf.init fun _ => 0) 1 = some out ∧
      ∀ P Q, P + Q ≤ 2 * 1 - 1 →
        ∑ idx in Finset.range (1 * 1),
            out.2.val idx * (out.1.val idx).1 ^ P * (out.1.val idx).2 ^ Q
          = (Nat.factorial P : ℝ) * (Nat.factorial Q : ℝ) / (Nat.factorial (P + Q + 2) : ℝ) :=
  ⟨by decide, by decide, by decide, lowService_exact0, lowService_exact1,
    TriangleQuadrature_exact lowService Real.cos Real.pi 100 1 _ _ (by decide) (by decide)
      (by decide) lowService_exact0 lowService_exact1⟩

/-! ## Claims about GaussLegendre -/

/-- C1, at the input `n = UINT_MAX`: the half count `(n+1)/2` wraps to `0`, `GaussLegendre`
returns without a store, and with arrays that held zeros the rule it leaves has weight sum `0`,
which is not within `1e-10` of the integral `2` of `x^0`. -/
theorem C1_GaussLegendre_UINT_MAX_moment (fuel : Nat) :
    ∃ out, GaussLegendre Real.cos Real.pi (fuel + 1) (Buf.init fun _ => 0) (Buf.init fun _ => 0)
        UINT_MAX = some out ∧
      ¬ |(∑ i in Finset.range UINT_MAX, out.2.val i * out.1.val i ^ 0) - 2| ≤ 1e-10 := by
  refine ⟨_, GaussLegendre_UINT_MAX Real.cos Real.pi fuel _ _, ?_⟩
  simp only [Buf.init, zero_mul, Finset.sum_const_zero]
  norm_num

/-- C2, at the input `n = UINT_MAX`: `GaussLegendre` returns without a store, so arrays that
held ones are left with `points[0] = 1` and `-points[n-1-0] = -1`. -/
theorem C2_GaussLegendre_UINT_MAX_asymmetric (fuel : Nat) :
    ∃ out, GaussLegendre Real.cos Real.pi (fuel + 1) (Buf.init fun _ => 1) (Buf.init fun _ => 1)
        UINT_MAX = some out ∧
      0 < UINT_MAX ∧ out.1.val 0 ≠ -out.1.val (UINT_MAX - 1 - 0) := by
  refine ⟨_, GaussLegendre_UINT_MAX Real.cos Real.pi fuel _ _, by decide, ?_⟩
  simp only [Buf.init]
  norm_num

/-- C8: in real arithmetic `GaussLegendre` with `n = 2` returns `points[0]` within `1e-10` of
`-0.5773502691896257`, `points[1]` within `1e-10` of `0.5773502691896257`, and `weights[0]`,
`weights[1]` within `1e-10` of `1`. -/
theorem C8_GaussLegendre_two (fuel : Nat) (points weights : Buf ℝ)
    (hfuel : MaxIterations ≤ fuel) :
    ∃ out, GaussLegendre Real.cos Real.pi fuel points weights 2 = some out ∧
      |out.1.val 0 - (-0.5773502691896257)| ≤ 1e-10 ∧
      |out.1.val 1 - 0.5773502691896257| ≤ 1e-10 ∧
      |out.2.val 0 - 1| ≤ 1e-10 ∧ |out.2.val 1 - 1| ≤ 1e-10 := by
  have hM : 2 < fuel := by unfold MaxIterations at hfuel; omega
  refine ⟨_, GaussLegendre_eq Real.cos Real.pi fuel 2 points weights (by decide) hM hfuel, ?_⟩
  obtain ⟨h1, h2, -, -⟩ := legendre_after Real.cos Real.pi 2 points weights ((2 + 1) / 2)
    (le_refl _)
  rw [h1, h1, h2, h2]
  have e0 : legendrePointsAfter Real.cos Real.pi 2 ((2 + 1) / 2) points.val 0
      = -(legendreRoot Real.cos Real.pi 2 1).1 := by
    simp [legendrePointsAfter]
  have e1 : legendrePointsAfter Real.cos Real.pi 2 ((2 + 1) / 2) points.val 1
      = (legendreRoot Real.cos Real.pi 2 1).1 := by
    simp [legendrePointsAfter]
  have e2 : legendreWeightsAfter Real.cos Real.pi 2 ((2 + 1) / 2) weights.val 0
      = legendreWeight Real.cos Real.pi 2 1 := by
    simp [legendreWeightsAfter]
  have e3 : legendreWeightsAfter Real.cos Real.pi 2 ((2 + 1) / 2) weights.val 1
      = legendreWeight Real.cos Real.pi 2 1 := by
    simp [legendreWeightsAfter]
  rw [e0, e1, e2, e3]
  obtain ⟨hx, hxx, hd⟩ := legendreRoot_two
  unfold legendreWeight
  rw [hd]
  generalize (legendreRoot Real.cos Real.pi 2 1).1 = x at *
  rw [abs_le] at hxx
  obtain ⟨ha, hb⟩ := hxx
  have hw : |2 / ((1 - x * x) * (3 * x) * (3 * x)) - 1| ≤ 1e-10 := by
    have hden : 1 ≤ (1 - x * x) * (3 * x) * (3 * x) := by nlinarith
    have hdpos : 0 < (1 - x * x) * (3 * x) * (3 * x) := by linarith
    have e : 2 / ((1 - x * x) * (3 * x) * (3 * x)) - 1
        = (2 - (1 - x * x) * (3 * x) * (3 * x)) / ((1 - x * x) * (3 * x) * (3 * x)) := by
      field_simp
    rw [e, abs_div, abs_of_pos hdpos, div_le_iff₀ hdpos]
    have hnum : |2 - (1 - x * x) * (3 * x) * (3 * x)| ≤ 1e-10 := by
      have e2 : 2 - (1 - x * x) * (3 * x) * (3 * x)
          = 9 * (x * x - 1 / 3) * (x * x - 2 / 3) := by ring
      rw [e2, abs_le]
      constructor <;> nlinarith
    have : (1e-10 : ℝ) ≤ 1e-10 * ((1 - x * x) * (3 * x) * (3 * x)) := by
      have : (0 : ℝ) ≤ 1e-10 := by norm_num
      nlinarith
    linarith
  refine ⟨?_, ?_, hw, hw⟩
  · rw [abs_le]
    constructor
    · norm_num
      by_contra hc
      push_neg at hc
      nlinarith
    · norm_num
      by_contra hc
      push_neg at hc
      nlinarith
  · rw [abs_le]
    constructor
    · norm_num
      by_contra hc
      push_neg at hc
      nlinarith
    · norm_num
      by_contra hc
      push_neg at hc
      nlinarith

theorem C8_GaussLegendre_two_witness :
    MaxIterations ≤ 100 ∧
    ∃ out, GaussLegendre Real.cos Real.pi 100 (Buf.init fun _ => 0) (Buf.init fun _ => 0) 2
        = some out ∧
      |out.1.val 0 - (-0.5773502691896257)| ≤ 1e-10 ∧
      |out.1.val 1 - 0.5773502691896257| ≤ 1e-10 ∧
      |out.2.val 0 - 1| ≤ 1e-10 ∧ |out.2.val 1 - 1| ≤ 1e-10 :=
  ⟨by decide, C8_GaussLegendre_two 100 _ _ (by decide)⟩

/-- With `cos` and `π` exact, `GaussLegendre` with `n = 1` returns exactly `points[0] = 0` and
`weights[0] = 2`: the seed `cos (π*3/6)` is `0`, and the Newton loop started there returns
after a single pass (one unit of fuel) with `x = 0`, `Pn = 0` and `dPn = 1`.  The program has
`M_PI` for `π`, which is not `π`. -/
theorem GaussLegendre_one_exact_pi (fuel : Nat) (points weights : Buf ℝ)
    (hfuel : MaxIterations ≤ fuel) :
    ∃ out, GaussLegendre Real.cos Real.pi fuel points weights 1 = some out ∧
      out.1.val 0 = 0 ∧ out.2.val 0 = 2 ∧
      Real.cos (Real.pi * (4 * ((1 : Nat) : ℝ) - 1) / (4 * ((1 : Nat) : ℝ) + 2)) = 0 ∧
      newton (legendreEval fuel 1) 1 0 (0 : ℝ) 0 1 = some (0, 0, 1) := by
  have hM : 1 < fuel := by unfold MaxIterations at hfuel; omega
  refine ⟨_, GaussLegendre_eq Real.cos Real.pi fuel 1 points weights (by decide) hM hfuel, ?_⟩
  obtain ⟨h1, h2, -, -⟩ := legendre_after Real.cos Real.pi 1 points weights ((1 + 1) / 2)
    (le_refl _)
  rw [h1, h2]
  have e0 : legendrePointsAfter Real.cos Real.pi 1 ((1 + 1) / 2) points.val 0
      = (legendreRoot Real.cos Real.pi 1 1).1 := by
    simp [legendrePointsAfter]
  have e1 : legendreWeightsAfter Real.cos Real.pi 1 ((1 + 1) / 2) weights.val 0
      = legendreWeight Real.cos Real.pi 1 1 := by
    simp [legendreWeightsAfter]
  rw [e0, e1]
  unfold legendreWeight
  rw [legendreRoot_one]
  refine ⟨rfl, by norm_num, ?_, ?_⟩
  · simpa using middle_seed_real 0
  · have he : legendreEval fuel 1 (0 : ℝ) = some (0, 1) := by
      rw [legendreEval_eq fuel 1 0 (by decide) hM, legendreValue_one]
      simp
    have hT : ¬ |(0 : ℝ)| > Tolerance := by
      rw [abs_zero]
      exact not_lt.mpr (le_of_lt Tolerance_pos)
    have h0 : (0 : ℝ) - 0 / 1 = 0 := by norm_num
    have hc : ¬ (|((0 : ℝ), (1 : ℝ)).1| > Tolerance ∧ 0 + 1 < MaxIterations) := fun h => hT h.1
    simp only [newton, h0, he, Option.some_bind]
    rw [if_neg hc]

theorem GaussLegendre_one_exact_pi_witness :
    MaxIterations ≤ 100 ∧
    ∃ out, GaussLegendre Real.cos Real.pi 100 (Buf.init fun _ => 5) (Buf.init fun _ => 5) 1
        = some out ∧
      out.1.val 0 = 0 ∧ out.2.val 0 = 2 ∧
      Real.cos (Real.pi * (4 * ((1 : Nat) : ℝ) - 1) / (4 * ((1 : Nat) : ℝ) + 2)) = 0 ∧
      newton (legendreEval 100 1) 1 0 (0 : ℝ) 0 1 = some (0, 0, 1) :=
  ⟨by decide, GaussLegendre_one_exact_pi 100 _ _ (by decide)⟩

/-- C10, at the input `n = UINT_MAX`: the half count `(n+1)/2` wraps to `0` and `GaussLegendre`
returns without a single store, so index `0 < n` of `points` and of `weights` is not written. -/
theorem C10_GaussLegendre_UINT_MAX_stores_nothing {K : Type} [LinearOrderedField K]
    (cos : K → K) (pi : K) (fuel : Nat) (p w : Nat → K) :
    ∃ out, GaussLegendre cos pi (fuel + 1) (Buf.init p) (Buf.init w) UINT_MAX = some out ∧
      0 < UINT_MAX ∧ 0 ∉ out.1.log ∧ 0 ∉ out.2.log := by
  refine ⟨_, GaussLegendre_UINT_MAX cos pi fuel _ _, by decide, ?_, ?_⟩ <;> simp [Buf.init]

/-! ## Claims about TriangleQuadrature -/

/-- At the input `n = 65537`: `n*n = 2^32 + 131073` and the flat index `i*n + j` wraps,
so `131073` of the `n*n` entries are never stored to. Run on a `weights` array that held zeros
and on one that held ones (the two rules of `GaussJacobi` are the same), the moment sum for
`p = q = 0` cannot be `0!*0!/2!` both times, whatever the service and the two rules. -/
theorem TriangleQuadrature_65537_moment {K : Type} [LinearOrderedField K] (F : Functions K)
    (cos : K → K) (pi : K) (p : Nat → K × K) :
    ∃ out0 out1,
      TriangleQuadrature F cos pi 65538 (Buf.init p) (Buf.init fun _ => 0) 65537 = some out0 ∧
      TriangleQuadrature F cos pi 65538 (Buf.init p) (Buf.init fun _ => 1) 65537 = some out1 ∧
      ¬ (∑ idx in Finset.range (65537 * 65537),
            out0.2.val idx * (out0.1.val idx).1 ^ 0 * (out0.1.val idx).2 ^ 0
          = (Nat.factorial 0 : K) * (Nat.factorial 0 : K) / (Nat.factorial (0 + 0 + 2) : K) ∧
        ∑ idx in Finset.range (65537 * 65537),
            out1.2.val idx * (out1.1.val idx).1 ^ 0 * (out1.1.val idx).2 ^ 0
          = (Nat.factorial 0 : K) * (Nat.factorial 0 : K) / (Nat.factorial (0 + 0 + 2) : K)) := by
  obtain ⟨out0, out1, h0, h1, hsum⟩ := triangle_sum_diff F cos pi p 65538 65537 131073
    (by decide) (by decide) (by decide) (by norm_num)
  refine ⟨out0, out1, h0, h1, ?_⟩
  simp only [pow_zero, mul_one]
  rintro ⟨ha, hb⟩
  rw [ha, hb] at hsum
  have : ((131073 : Nat) : K) = 0 := by linarith
  norm_num at this

/-- C4, at the input `n = 65537`: the flat index `4294967296 = 65535*n + 1` is below `n*n`,
but the store for `(i, j) = (65535, 1)` goes to the wrapped index `0`, and entry `4294967296`
of `points` and of `weights` is never stored to. -/
theorem C4_TriangleQuadrature_65537_unwritten {K : Type} [LinearOrderedField K]
    (F : Functions K) (cos : K → K) (pi : K) (p : Nat → K × K) (w : Nat → K) :
    ∃ out,
      TriangleQuadrature F cos pi 65538 (Buf.init p) (Buf.init w) 65537 = some out ∧
      4294967296 < 65537 * 65537 ∧
      flatIndex 65537 (4294967296 / 65537) (4294967296 % 65537) = 0 ∧
      4294967296 ∉ out.1.log ∧ 4294967296 ∉ out.2.log := by
  refine ⟨_, TriangleQuadrature_eq F cos pi 65538 65537 _ _ (by decide) (by decide)
    (by decide), by norm_num, by decide, ?_, ?_⟩
  · intro h
    rcases (triangle_high _ _ 65537 _ _ _).2.1 _ h with h | h
    · simp [Buf.init] at h
    · omega
  · intro h
    rcases (triangle_high _ _ 65537 _ _ _).2.2 _ h with h | h
    · simp [Buf.init] at h
    · omega

/-- C5, at the input `n = 65537`: `n*n = 2^32 + 131073` and the flat index `i*n + j` wraps, so
`131073` of the `n*n` entries of `weights` are never stored to. Both calls of `GaussJacobi`
return, and run on a `weights` array that held zeros and on one that held ones the sum of the
`n*n` entries differs by `131073`: it cannot both times be
(sum of the `GaussJacobi(n,1,0)` weights) * (sum of the `GaussJacobi(n,0,0)` weights) / 8. -/
theorem C5_TriangleQuadrature_65537_weight_sum {K : Type} [LinearOrderedField K]
    (F : Functions K) (cos : K → K) (pi : K) (p : Nat → K × K) :
    ∃ r0 r1 out0 out1,
      GaussJacobi F cos pi 65538 Buf.fresh Buf.fresh 65537 0 0 = some r0 ∧
      GaussJacobi F cos pi 65538 Buf.fresh Buf.fresh 65537 1 0 = some r1 ∧
      TriangleQuadrature F cos pi 65538 (Buf.init p) (Buf.init fun _ => 0) 65537 = some out0 ∧
      TriangleQuadrature F cos pi 65538 (Buf.init p) (Buf.init fun _ => 1) 65537 = some out1 ∧
      ∑ idx in Finset.range (65537 * 65537), out1.2.val idx
        = (∑ idx in Finset.range (65537 * 65537), out0.2.val idx) + 131073 ∧
      ¬ (∑ idx in Finset.range (65537 * 65537), out0.2.val idx
            = (∑ i in Finset.range 65537, r1.2.val i)
              * (∑ j in Finset.range 65537, r0.2.val j) / 8 ∧
        ∑ idx in Finset.range (65537 * 65537), out1.2.val idx
            = (∑ i in Finset.range 65537, r1.2.val i)
              * (∑ j in Finset.range 65537, r0.2.val j) / 8) := by
  obtain ⟨out0, out1, h0, h1, hsum⟩ := triangle_sum_diff F cos pi p 65538 65537 131073
    (by decide) (by decide) (by decide) (by norm_num)
  refine ⟨_, _, out0, out1,
    GaussJacobi_eq F cos pi 65538 65537 0 0 _ _ (by decide) (by decide) (by decide),
    GaussJacobi_eq F cos pi 65538 65537 1 0 _ _ (by decide) (by decide) (by decide),
    h0, h1, ?_, ?_⟩
  · rw [hsum]
    norm_num
  · rintro ⟨ha, hb⟩
    rw [ha, hb] at hsum
    have : ((131073 : Nat) : K) = 0 := by linarith
    norm_num at this

/-- Whenever `TriangleQuadrature(n)` returns, it has made `n*n` stores to `weights` and the sum
of the values stored is
(sum of the `GaussJacobi(n,1,0)` weights) * (sum of the `GaussJacobi(n,0,0)` weights) / 8, hence
`1/2` when both weight sums are `2`; and for `n < UINT_MAX` it does return with enough fuel.
This is about the record of the stores, not about the entries of the array. -/
theorem TriangleQuadrature_stored_weight_sum {K : Type} [LinearOrderedField K] (F : Functions K)
    (cos : K → K) (pi : K) (fuel n : Nat) (p : Nat → K × K) (w : Nat → K) :
    (∀ out, TriangleQuadrature F cos pi fuel (Buf.init p) (Buf.init w) n = some out →
      ∃ r0 r1,
        GaussJacobi F cos pi fuel Buf.fresh Buf.fresh n 0 0 = some r0 ∧
        GaussJacobi F cos pi fuel Buf.fresh Buf.fresh n 1 0 = some r1 ∧
        out.2.stored.length = n * n ∧
        out.2.stored.sum
          = (∑ i in Finset.range n, r1.2.val i) * (∑ j in Finset.range n, r0.2.val j) / 8 ∧
        ((∑ i in Finset.range n, r1.2.val i) = 2 → (∑ j in Finset.range n, r0.2.val j) = 2 →
          out.2.stored.sum = 1 / 2)) ∧
    (n < UINT_MAX → n < fuel → MaxIterations ≤ fuel →
      ∃ out, TriangleQuadrature F cos pi fuel (Buf.init p) (Buf.init w) n = some out) := by
  constructor
  · intro out hout
    obtain ⟨-, h0, h1, hform⟩ := TriangleQuadrature_some F cos pi fuel n _ _ out hout
    obtain ⟨hlen, hsum, -, -⟩ := triangle_stored (jacobiRule F cos pi n 0 0)
      (jacobiRule F cos pi n 1 0) n (Buf.init p) (Buf.init w) (n * n)
    have hs : out.2.stored.sum
        = (∑ i in Finset.range n, (jacobiRule F cos pi n 1 0).2.val i)
          * (∑ j in Finset.range n, (jacobiRule F cos pi n 0 0).2.val j) / 8 := by
      rw [hform, hsum]
      simp only [Buf.init, List.sum_nil, add_zero, triangleWeight]
      rw [sum_range_mul_div_mod (fun i j => (jacobiRule F cos pi n 1 0).2.val i
        * (jacobiRule F cos pi n 0 0).2.val j * (1 / 8)) n n, Finset.sum_mul_sum, Finset.sum_div]
      apply Finset.sum_congr rfl
      intro i _
      rw [Finset.sum_div]
      apply Finset.sum_congr rfl
      intro j _
      ring
    refine ⟨_, _, h0, h1, ?_, hs, ?_⟩
    · rw [hform, hlen]
      simp [Buf.init]
    · intro ha hb
      rw [hs, ha, hb]
      norm_num
  · intro hn hfuel hfuel2
    exact ⟨_, TriangleQuadrature_eq F cos pi fuel n _ _ hn hfuel hfuel2⟩

/-- In real arithmetic, for `n = 2` at index `0`: with the service that returns the Legendre
polynomial and its derivative, `GaussJacobi(2,0,0)` stores the positive root first and
`GaussLegendre(2)` the negative one, and the two differ by more than `1e-8`. -/
theorem GaussJacobi_order_differs :
    ∃ rJ rL,
      GaussJacobi legendreService Real.cos Real.pi 100 Buf.fresh Buf.fresh 2 0 0 = some rJ ∧
      GaussLegendre Real.cos Real.pi 100 Buf.fresh Buf.fresh 2 = some rL ∧
      ¬ |rJ.1.val 0 - rL.1.val 0| ≤ 1e-8 := by
  refine ⟨_, _, GaussJacobi_eq legendreService Real.cos Real.pi 100 2 0 0 _ _ (by decide)
    (by decide) (by decide), GaussLegendre_eq Real.cos Real.pi 100 2 _ _ (by decide)
    (by decide) (by decide), ?_⟩
  obtain ⟨hJ, -, -, -⟩ := jacobi_after legendreService Real.cos Real.pi 2 0 0
    (Buf.fresh : Buf ℝ) Buf.fresh 2
  obtain ⟨hL, -, -, -⟩ := legendre_after Real.cos Real.pi 2 (Buf.fresh : Buf ℝ) Buf.fresh
    ((2 + 1) / 2) (le_refl _)
  rw [hJ, hL]
  have e0 : legendrePointsAfter Real.cos Real.pi 2 ((2 + 1) / 2) (Buf.fresh : Buf ℝ).val 0
      = -(legendreRoot Real.cos Real.pi 2 1).1 := by
    simp [legendrePointsAfter]
  rw [e0, if_pos (by decide),
    jacobiRoot_eq_legendreRoot legendreService Real.cos Real.pi 2 (0 + 1) (fun x => ⟨rfl, rfl⟩)]
  obtain ⟨hx, -, -⟩ := legendreRoot_two
  generalize (legendreRoot Real.cos Real.pi 2 (0 + 1)).1 = x at *
  intro h
  rw [abs_le] at h
  norm_num at h
  linarith [h.2]

/-- For every `n < UINT_MAX`, in real arithmetic, when the service returns for
`a = b = 0` the values that the recurrence of `GaussLegendre` computes, both generators return
and `GaussJacobi(n,0,0)` holds at index `i` exactly the point that `GaussLegendre(n)` holds at
index `n-1-i`; the two weights there are computed from this point `x` and the derivative value
`D` at `x` by different formulas, `weightFactor / (JacobiP(n+1,0,0,x) * D)` and
`2 / ((1 - x*x) * D * D)`. -/
theorem GaussJacobi_reverses_GaussLegendre (F : Functions ℝ) (fuel n : Nat)
    (pJ wJ pL wL : Buf ℝ) (hn : n < UINT_MAX) (hfuel : n < fuel) (hfuel2 : MaxIterations ≤ fuel)
    (hF : ∀ x, F.JacobiP n 0 0 x = (legendreValue n x).1 ∧
      F.JacobiPFirstDerivative n 0 0 x = (legendreValue n x).2) :
    ∃ rJ rL,
      GaussJacobi F Real.cos Real.pi fuel pJ wJ n 0 0 = some rJ ∧
      GaussLegendre Real.cos Real.pi fuel pL wL n = some rL ∧
      ∀ i, i < n →
        rJ.1.val i = rL.1.val (n - 1 - i) ∧
        rJ.2.val i = weightFactor F n 0 0 /
          (F.JacobiP (n + 1) 0 0 (rJ.1.val i) * F.JacobiPFirstDerivative n 0 0 (rJ.1.val i)) ∧
        rL.2.val (n - 1 - i) = 2 /
          ((1 - rJ.1.val i * rJ.1.val i) * F.JacobiPFirstDerivative n 0 0 (rJ.1.val i)
            * F.JacobiPFirstDerivative n 0 0 (rJ.1.val i)) := by
  refine ⟨_, _, GaussJacobi_eq F Real.cos Real.pi fuel n 0 0 _ _ hn hfuel hfuel2,
    GaussLegendre_eq Real.cos Real.pi fuel n _ _ hn hfuel hfuel2, ?_⟩
  intro i hi
  obtain ⟨hJ1, hJ2, -, -⟩ := jacobi_after F Real.cos Real.pi n 0 0 pJ wJ n
  obtain ⟨hL1, hL2, -, -⟩ := legendre_after Real.cos Real.pi n pL wL ((n + 1) / 2) (le_refl _)
  have hroot := jacobiRoot_eq_legendreRoot F Real.cos Real.pi n (i + 1) hF
  have hD : (legendreRoot Real.cos Real.pi n (i + 1)).2.2
      = F.JacobiPFirstDerivative n 0 0 (legendreRoot Real.cos Real.pi n (i + 1)).1 := by
    have h := newtonPure_snd (legendreValue n) (MaxIterations - 1)
      (Real.cos (Real.pi * (4 * ((i + 1 : Nat) : ℝ) - 1) / (4 * (n : ℝ) + 2))) 0 1
    rw [(hF _).2]
    unfold legendreRoot
    rw [h]
  rw [hJ1, hJ2, hL1, hL2, if_pos hi, if_pos hi]
  unfold jacobiWeight
  rw [hroot, hD]
  refine ⟨?_, rfl, ?_⟩
  · unfold legendrePointsAfter
    by_cases hup : n - (n + 1) / 2 ≤ n - 1 - i ∧ n - 1 - i < n
    · rw [if_pos hup, show n - (n - 1 - i) = i + 1 by omega]
    · have c2 : n - 1 - i < (n + 1) / 2 := by omega
      rw [if_neg hup, if_pos c2, show n - 1 - i + 1 = n - i by omega]
      have hm := (legendreRoot_mirror n (n - i) (by omega)).1
      rw [show n + 1 - (n - i) = i + 1 by omega] at hm
      rw [hm]
  · unfold legendreWeightsAfter
    by_cases hup : n - (n + 1) / 2 ≤ n - 1 - i ∧ n - 1 - i < n
    · rw [if_pos hup, show n - (n - 1 - i) = i + 1 by omega]
      unfold legendreWeight
      rw [hD]
    · have c2 : n - 1 - i < (n + 1) / 2 := by omega
      rw [if_neg hup, if_pos c2, show n - 1 - i + 1 = n - i by omega]
      obtain ⟨hm1, hm2⟩ := legendreRoot_mirror n (n - i) (by omega)
      rw [show n + 1 - (n - i) = i + 1 by omega] at hm1 hm2
      rw [← hD, hm1, hm2]
      unfold legendreWeight
      have hσ : ((-1 : ℝ) ^ n) * ((-1) ^ n) = 1 := by
        rw [← pow_add, ← two_mul, pow_mul]
        norm_num
      have e : (1 - -(legendreRoot Real.cos Real.pi n (n - i)).1 *
            -(legendreRoot Real.cos Real.pi n (n - i)).1) *
            (-(-1) ^ n * (legendreRoot Real.cos Real.pi n (n - i)).2.2) *
            (-(-1) ^ n * (legendreRoot Real.cos Real.pi n (n - i)).2.2)
          = (1 - (legendreRoot Real.cos Real.pi n (n - i)).1 *
            (legendreRoot Real.cos Real.pi n (n - i)).1) *
            (legendreRoot Real.cos Real.pi n (n - i)).2.2 *
            (legendreRoot Real.cos Real.pi n (n - i)).2.2 := by
        linear_combination ((1 - (legendreRoot Real.cos Real.pi n (n - i)).1 *
            (legendreRoot Real.cos Real.pi n (n - i)).1) *
            (legendreRoot Real.cos Real.pi n (n - i)).2.2 *
            (legendreRoot Real.cos Real.pi n (n - i)).2.2) * hσ
      rw [e]

theorem GaussJacobi_reverses_GaussLegendre_witness :
    3 < UINT_MAX ∧ 3 < 100 ∧ MaxIterations ≤ 100 ∧
    (∀ x : ℝ, (legendreService : Functions ℝ).JacobiP 3 0 0 x = (legendreValue 3 x).1 ∧
      (legendreService : Functions ℝ).JacobiPFirstDerivative 3 0 0 x = (legendreValue 3 x).2) ∧
    ∃ rJ rL,
      GaussJacobi legendreService Real.cos Real.pi 100 Buf.fresh Buf.fresh 3 0 0 = some rJ ∧
      GaussLegendre Real.cos Real.pi 100 Buf.fresh Buf.fresh 3 = some rL ∧
      ∀ i, i < 3 →
        rJ.1.val i = rL.1.val (3 - 1 - i) ∧
        rJ.2.val i = weightFactor legendreService 3 0 0 /
          ((legendreService : Functions ℝ).JacobiP (3 + 1) 0 0 (rJ.1.val i)
            * (legendreService : Functions ℝ).JacobiPFirstDerivative 3 0 0 (rJ.1.val i)) ∧
        rL.2.val (3 - 1 - i) = 2 /
          ((1 - rJ.1.val i * rJ.1.val i)
            * (legendreService : Functions ℝ).JacobiPFirstDerivative 3 0 0 (rJ.1.val i)
            * (legendreService : Functions ℝ).JacobiPFirstDerivative 3 0 0 (rJ.1.val i)) :=
  ⟨by decide, by decide, by decide, fun _ => ⟨rfl, rfl⟩,
    GaussJacobi_reverses_GaussLegendre legendreService 100 3 Buf.fresh Buf.fresh Buf.fresh
      Buf.fresh (by decide) (by decide) (by decide) (fun _ => ⟨rfl, rfl⟩)⟩

/-! ## The general theorems at concrete inputs -/

theorem GaussLegendre_symmetric_witness :
    5 < UINT_MAX ∧ 5 < 100 ∧ MaxIterations ≤ 100 ∧
    ∃ out, GaussLegendre Real.cos Real.pi 100 (Buf.init fun _ => 7) (Buf.init fun _ => 7) 5
        = some out ∧
      ∀ i, i < 5 → out.1.val i = -out.1.val (5 - 1 - i) ∧ out.2.val i = out.2.val (5 - 1 - i) :=
  ⟨by decide, by decide, by decide,
    GaussLegendre_symmetric 100 5 _ _ (by decide) (by decide) (by decide)⟩

theorem GaussLegendre_fills_witness :
    4 < UINT_MAX ∧ 4 < 100 ∧ MaxIterations ≤ 100 ∧
    ∃ out, GaussLegendre (fun _ : ℚ => 3 / 5) 3 100 (Buf.init fun _ => 7) (Buf.init fun _ => 7) 4
        = some out ∧
      (∀ k, k ∈ out.1.log ↔ k < 4) ∧ (∀ k, k ∈ out.2.log ↔ k < 4) ∧
      (∀ k, 4 ≤ k → out.1.val k = 7 ∧ out.2.val k = 7) ∧
      (∀ k, k < 4 →
        out.1.val k = legendrePointsAfter (fun _ : ℚ => 3 / 5) 3 4 ((4 + 1) / 2) (fun _ => 0) k ∧
        out.2.val k
          = legendreWeightsAfter (fun _ : ℚ => 3 / 5) 3 4 ((4 + 1) / 2) (fun _ => 0) k) :=
  ⟨by decide, by decide, by decide,
    GaussLegendre_fills (fun _ : ℚ => 3 / 5) 3 100 4 (fun _ => 7) (fun _ => 7) (by decide)
      (by decide) (by decide)⟩

theorem TriangleQuadrature_layout_witness :
    3 ≤ 65536 ∧ 3 < 100 ∧ MaxIterations ≤ 100 ∧
    ∃ r0 r1 out,
      GaussJacobi zeroService (fun _ => 0) 0 100 Buf.fresh Buf.fresh 3 0 0 = some r0 ∧
      GaussJacobi zeroService (fun _ => 0) 0 100 Buf.fresh Buf.fresh 3 1 0 = some r1 ∧
      TriangleQuadrature zeroService (fun _ => 0) 0 100 (Buf.init fun _ => (7, 7))
        (Buf.init fun _ => 7) 3 = some out ∧
      (∀ idx, idx < 3 * 3 →
        out.1.val idx = (1 / 2 * (1 + r1.1.val (idx / 3)),
          1 / 4 * (1 + r0.1.val (idx % 3)) * (1 - r1.1.val (idx / 3))) ∧
        out.2.val idx = r1.2.val (idx / 3) * r0.2.val (idx % 3) * (1 / 8) ∧
        List.count idx out.1.log = 1 ∧ List.count idx out.2.log = 1) ∧
      (∀ idx, 3 * 3 ≤ idx →
        out.1.val idx = (7, 7) ∧ out.2.val idx = 7 ∧
        List.count idx out.1.log = 0 ∧ List.count idx out.2.log = 0) :=
  ⟨by decide, by decide, by decide,
    TriangleQuadrature_layout zeroService (fun _ => 0) 0 100 3 (fun _ => (7, 7)) (fun _ => 7)
      (by decide) (by decide) (by decide)⟩

theorem TriangleQuadrature_entry_sum_witness :
    3 ≤ 65536 ∧ 3 < 100 ∧ MaxIterations ≤ 100 ∧
    ∃ r0 r1 out,
      GaussJacobi zeroService (fun _ => 0) 0 100 Buf.fresh Buf.fresh 3 0 0 = some r0 ∧
      GaussJacobi zeroService (fun _ => 0) 0 100 Buf.fresh Buf.fresh 3 1 0 = some r1 ∧
      TriangleQuadrature zeroService (fun _ => 0) 0 100 (Buf.init fun _ => (7, 7))
        (Buf.init fun _ => 7) 3 = some out ∧
      ∑ idx in Finset.range (3 * 3), out.2.val idx
        = (∑ i in Finset.range 3, r1.2.val i) * (∑ j in Finset.range 3, r0.2.val j) / 8 ∧
      ((∑ i in Finset.range 3, r1.2.val i) = 2 → (∑ j in Finset.range 3, r0.2.val j) = 2 →
        ∑ idx in Finset.range (3 * 3), out.2.val idx = 1 / 2) :=
  ⟨by decide, by decide, by decide,
    TriangleQuadrature_entry_sum zeroService (fun _ => 0) 0 100 3 (fun _ => (7, 7))
      (fun _ => 7) (by decide) (by decide) (by decide)⟩

/-! ## The passes of the Newton loop -/

/-- What the record of a Newton loop that returns says: the loop's final values are those of the
last pass on record; there are at least one and, counted from `it`, at most `MaxIterations`
passes; every pass is an evaluation at its `x`; and pass `k+1` is the last one exactly when
`|Pn| ≤ Tolerance` holds after it or the counter has reached `MaxIterations`. -/
theorem newtonTrace_spec {K : Type} [LinearOrderedField K] (eval : K → Option (K × K)) :
    ∀ (fuel it : Nat) (x Pn dPn : K) (L : List (K × K × K)),
      newtonTrace eval fuel it x Pn dPn = some L →
      newton eval fuel it x Pn dPn = L.getLast? ∧ 1 ≤ L.length ∧
      (it < MaxIterations → it + L.length ≤ MaxIterations) ∧
      ∀ k t, L[k]? = some t →
        eval t.1 = some (t.2.1, t.2.2) ∧
        (k + 1 = L.length ↔ (|t.2.1| ≤ Tolerance ∨ MaxIterations ≤ it + k + 1)) := by
  intro fuel
  induction fuel with
  | zero =>
    intro it x Pn dPn L h
    simp [newtonTrace] at h
  | succ f ih =>
    intro it x Pn dPn L h
    simp only [newtonTrace] at h
    cases hev : eval (x - Pn / dPn) with
    | none => rw [hev] at h; simp at h
    | some r =>
      rw [hev, Option.some_bind] at h
      by_cases hc : |r.1| > Tolerance ∧ it + 1 < MaxIterations
      · rw [if_pos hc] at h
        cases hL : newtonTrace eval f (it + 1) (x - Pn / dPn) r.1 r.2 with
        | none => rw [hL] at h; simp at h
        | some L1 =>
          rw [hL] at h
          have hLe : L = (x - Pn / dPn, r.1, r.2) :: L1 := (Option.some.inj h).symm
          obtain ⟨h1, h2, h3, h4⟩ := ih (it + 1) _ _ _ L1 hL
          obtain ⟨b, L2, hL2⟩ : ∃ b L2, L1 = b :: L2 := by
            cases L1 with
            | nil => simp at h2
            | cons b L2 => exact ⟨b, L2, rfl⟩
          subst hLe
          refine ⟨?_, by simp, ?_, ?_⟩
          · simp only [newton, hev, Option.some_bind, if_pos hc]
            rw [h1, hL2, List.getLast?_cons_cons]
          · intro _
            have := h3 hc.2
            simp only [List.length_cons] at *
            omega
          · intro k t hk
            cases k with
            | zero =>
              simp only [List.getElem?_cons_zero] at hk
              have ht := (Option.some.inj hk).symm
              subst ht
              refine ⟨by simp [hev], ?_⟩
              simp only [List.length_cons]
              constructor
              · intro hlen
                omega
              · rintro (hle | hle)
                · exact absurd hc.1 (not_lt.mpr hle)
                · have := hc.2
                  omega
            | succ k =>
              simp only [List.getElem?_cons_succ] at hk
              obtain ⟨h5, h6⟩ := h4 k t hk
              refine ⟨h5, ?_⟩
              simp only [List.length_cons]
              rw [show it + (k + 1) + 1 = it + 1 + k + 1 by omega, ← h6]
              omega
      · rw [if_neg hc] at h
        have hLe : L = [(x - Pn / dPn, r.1, r.2)] := (Option.some.inj h).symm
        subst hLe
        refine ⟨?_, by simp, ?_, ?_⟩
        · simp only [newton, hev, Option.some_bind, if_neg hc]
          rfl
        · intro hit
          simp only [List.length_singleton]
          omega
        · intro k t hk
          cases k with
          | zero =>
            simp only [List.getElem?_cons_zero] at hk
            have ht := (Option.some.inj hk).symm
            subst ht
            refine ⟨by simp [hev], ?_⟩
            simp only [List.length_singleton]
            constructor
            · intro _
              by_cases hT : |r.1| ≤ Tolerance
              · exact Or.inl hT
              · refine Or.inr ?_
                have h7 : ¬ it + 1 < MaxIterations := fun h8 => hc ⟨not_le.mp hT, h8⟩
                omega
            · intro _
              trivial
          | succ k => simp at hk

/-- A Newton loop whose evaluation returns has, given `MaxIterations` units of fuel, a record of
passes. -/
theorem newtonTrace_returns {K : Type} [LinearOrderedField K] (eval : K → Option (K × K))
    (he : ∀ y, ∃ r, eval y = some r) :
    ∀ (r it fuel : Nat) (x Pn dPn : K), it + r + 1 = MaxIterations → r < fuel →
      ∃ L, newtonTrace eval fuel it x Pn dPn = some L := by
  intro r
  induction r with
  | zero =>
    intro it fuel x Pn dPn hit hfuel
    obtain ⟨f, rfl⟩ : ∃ f, fuel = f + 1 := ⟨fuel - 1, by omega⟩
    obtain ⟨v, hv⟩ := he (x - Pn / dPn)
    have : ¬ it + 1 < MaxIterations := by omega
    simp [newtonTrace, hv, this]
  | succ r ih =>
    intro it fuel x Pn dPn hit hfuel
    obtain ⟨f, rfl⟩ : ∃ f, fuel = f + 1 := ⟨fuel - 1, by omega⟩
    obtain ⟨v, hv⟩ := he (x - Pn / dPn)
    simp only [newtonTrace, hv, Option.some_bind]
    by_cases hc : |v.1| > Tolerance ∧ it + 1 < MaxIterations
    · rw [if_pos hc]
      obtain ⟨L1, hL1⟩ := ih (it + 1) f (x - Pn / dPn) v.1 v.2 (by omega) (by omega)
      exact ⟨_, by rw [hL1]; rfl⟩
    · rw [if_neg hc]
      exact ⟨_, rfl⟩

/-- A first pass after which the exit test fails is the only pass on record. -/
theorem newtonTrace_stop {K : Type} [LinearOrderedField K] (eval : K → Option (K × K))
    (fuel it : Nat) (x Pn dPn : K) (r : K × K) (hev : eval (x - Pn / dPn) = some r)
    (hc : ¬ (|r.1| > Tolerance ∧ it + 1 < MaxIterations)) :
    newtonTrace eval (fuel + 1) it x Pn dPn = some [(x - Pn / dPn, r.1, r.2)] := by
  simp only [newtonTrace, hev, Option.some_bind]
  rw [if_neg hc]

/-- C11, at the input `n = UINT_MAX` of `GaussJacobi`: every pass of the outer loop body
returns, its Newton loop being bounded by `MaxIterations`, but the test `i <= n` of the outer
loop holds for every value of the 32-bit counter `i`, so `GaussJacobi` does not return, whatever
the fuel; nor does `TriangleQuadrature`, which calls it first. -/
theorem C11_GaussJacobi_UINT_MAX_never_returns {K : Type} [LinearOrderedField K]
    (F : Functions K) (cos : K → K) (pi : K) (a b : Nat) (points weights : Buf K)
    (points2 : Buf (K × K)) :
    (∀ i pw, ∃ r, jacobiBody F cos pi MaxIterations UINT_MAX a b i pw = some r) ∧
    (∀ fuel, GaussJacobi F cos pi fuel points weights UINT_MAX a b = none) ∧
    (∀ fuel, TriangleQuadrature F cos pi fuel points2 weights UINT_MAX = none) := by
  refine ⟨fun i pw => ?_, fun fuel => ?_, fun fuel => ?_⟩
  · unfold jacobiBody
    rw [newton_eq (jacobiEval F UINT_MAX a b) (jacobiValue F UINT_MAX a b) (fun x => rfl)
      (MaxIterations - 1) 0 MaxIterations _ 0 1 (by decide) (by decide)]
    exact ⟨_, rfl⟩
  · unfold GaussJacobi
    exact forLe_none UINT_MAX _ (le_refl _) fuel 1 _ (by decide)
  · unfold TriangleQuadrature GaussJacobi
    rw [forLe_none UINT_MAX _ (le_refl _) fuel 1 _ (by decide)]
    rfl

/-- C12: `GaussLegendre` with `n = 0` returns the two arrays as it was given them, contents and
record of stores alike: the half count `(0+1)/2` is `0` and the outer loop is not entered. -/
theorem C12_GaussLegendre_zero {K : Type} [LinearOrderedField K] (cos : K → K) (pi : K)
    (fuel : Nat) (points weights : Buf K) :
    GaussLegendre cos pi (fuel + 1) points weights 0 = some (points, weights) := by
  have h : wrap32 (0 + 1) / 2 = 0 := by decide
  unfold GaussLegendre
  rw [h]
  simp [forLe]

/-- In exact arithmetic (an ordered field, where every value is a number and is comparable with
`Tolerance`), the Newton loop of `GaussLegendre` (for `n < UINT_MAX`, where it is reached)
and the Newton loop of `GaussJacobi`, started at any seed `x`, return with a record of passes;
there are at least one and at most `MaxIterations = 100` passes, every pass is one evaluation of
the polynomial at the current `x`, and pass `k+1` is the last one if and only if
`|Pn| ≤ Tolerance` holds after it or `k+1` has reached `MaxIterations`. -/
theorem newton_exit_test_exact {K : Type} [LinearOrderedField K] (F : Functions K)
    (fuel n a b : Nat) (x : K) (hfuel2 : MaxIterations ≤ fuel) :
    (n < UINT_MAX → n < fuel →
      ∃ L, newtonTrace (legendreEval fuel n) fuel 0 x 0 1 = some L ∧
        newton (legendreEval fuel n) fuel 0 x 0 1 = L.getLast? ∧
        1 ≤ L.length ∧ L.length ≤ MaxIterations ∧
        ∀ k t, L[k]? = some t →
          legendreEval fuel n t.1 = some (t.2.1, t.2.2) ∧
          (k + 1 = L.length ↔ (|t.2.1| ≤ Tolerance ∨ MaxIterations ≤ k + 1))) ∧
    (∃ L, newtonTrace (jacobiEval F n a b) fuel 0 x 0 1 = some L ∧
        newton (jacobiEval F n a b) fuel 0 x 0 1 = L.getLast? ∧
        1 ≤ L.length ∧ L.length ≤ MaxIterations ∧
        ∀ k t, L[k]? = some t →
          jacobiEval F n a b t.1 = some (t.2.1, t.2.2) ∧
          (k + 1 = L.length ↔ (|t.2.1| ≤ Tolerance ∨ MaxIterations ≤ k + 1))) := by
  have hM : MaxIterations - 1 < fuel := by unfold MaxIterations at *; omega
  constructor
  · intro hn hfuel
    obtain ⟨L, hL⟩ := newtonTrace_returns (legendreEval fuel n)
      (fun y => ⟨_, legendreEval_eq fuel n y hn hfuel⟩) (MaxIterations - 1) 0 fuel x 0 1
      (by decide) hM
    obtain ⟨h1, h2, h3, h4⟩ := newtonTrace_spec (legendreEval fuel n) fuel 0 x 0 1 L hL
    have h3' := h3 (by decide)
    rw [zero_add] at h3'
    refine ⟨L, hL, h1, h2, h3', fun k t hk => ?_⟩
    have h5 := h4 k t hk
    rw [zero_add] at h5
    exact h5
  · obtain ⟨L, hL⟩ := newtonTrace_returns (jacobiEval F n a b) (fun y => ⟨_, rfl⟩)
      (MaxIterations - 1) 0 fuel x 0 1 (by decide) hM
    obtain ⟨h1, h2, h3, h4⟩ := newtonTrace_spec (jacobiEval F n a b) fuel 0 x 0 1 L hL
    have h3' := h3 (by decide)
    rw [zero_add] at h3'
    refine ⟨L, hL, h1, h2, h3', fun k t hk => ?_⟩
    have h5 := h4 k t hk
    rw [zero_add] at h5
    exact h5

theorem newton_exit_test_exact_witness :
    MaxIterations ≤ 100 ∧
    (2 < UINT_MAX → 2 < 100 →
      ∃ L, newtonTrace (legendreEval 100 2) 100 0 (1 / 2 : ℚ) 0 1 = some L ∧
        newton (legendreEval 100 2) 100 0 (1 / 2 : ℚ) 0 1 = L.getLast? ∧
        1 ≤ L.length ∧ L.length ≤ MaxIterations ∧
        ∀ k t, L[k]? = some t →
          legendreEval 100 2 t.1 = some (t.2.1, t.2.2) ∧
          (k + 1 = L.length ↔ (|t.2.1| ≤ Tolerance ∨ MaxIterations ≤ k + 1))) ∧
    (∃ L, newtonTrace (jacobiEval toleranceService 2 1 0) 100 0 (1 / 2 : ℚ) 0 1 = some L ∧
        newton (jacobiEval toleranceService 2 1 0) 100 0 (1 / 2 : ℚ) 0 1 = L.getLast? ∧
        1 ≤ L.length ∧ L.length ≤ MaxIterations ∧
        ∀ k t, L[k]? = some t →
          jacobiEval toleranceService 2 1 0 t.1 = some (t.2.1, t.2.2) ∧
          (k + 1 = L.length ↔ (|t.2.1| ≤ Tolerance ∨ MaxIterations ≤ k + 1))) :=
  ⟨by decide, newton_exit_test_exact toleranceService 100 2 1 0 (1 / 2) (by decide)⟩

/-! ## The recurrence of GaussLegendre computes the Legendre polynomials -/

/-- Ratio of the coefficients `C(n,k) * C(n+k,k)` in `n`. -/
theorem legendreCoeff_succ_left {K : Type} [LinearOrderedField K] (n k : Nat) :
    ((n : K) + 1 - (k : K))
        * (((n + 1).choose k * (n + 1 + k).choose k : Nat) : K)
      = ((n : K) + (k : K) + 1) * ((n.choose k * (n + k).choose k : Nat) : K) := by
  by_cases hk : k ≤ n + 1
  · have h1 : ((n.choose k : Nat) : K) * ((n : K) + 1)
        = (((n + 1).choose k : Nat) : K) * ((n : K) + 1 - (k : K)) := by
      have h := Nat.choose_mul_succ_eq n k
      have h2 : (((n.choose k * (n + 1) : Nat)) : K)
          = (((n + 1).choose k * (n + 1 - k) : Nat) : K) := by rw [h]
      rw [Nat.cast_mul, Nat.cast_mul, Nat.cast_sub hk] at h2
      push_cast at h2
      exact h2
    have h3 : (((n + k).choose k : Nat) : K) * ((n : K) + (k : K) + 1)
        = (((n + 1 + k).choose k : Nat) : K) * ((n : K) + 1) := by
      have h := Nat.choose_mul_succ_eq (n + k) k
      have h2 : ((((n + k).choose k * (n + k + 1) : Nat)) : K)
          = (((n + k + 1).choose k * (n + k + 1 - k) : Nat) : K) := by rw [h]
      rw [show n + k + 1 - k = n + 1 by omega, show n + k + 1 = n + 1 + k by omega] at h2
      rw [show n + 1 + k = n + k + 1 by omega] at h2 ⊢
      push_cast at h2 ⊢
      exact h2
    push_cast
    linear_combination (-(((n + 1 + k).choose k : Nat) : K)) * h1
      - ((n.choose k : Nat) : K) * h3
  · have hk2 : n + 1 < k := by omega
    rw [Nat.choose_eq_zero_of_lt hk2, Nat.choose_eq_zero_of_lt (show n < k by omega)]
    simp

/-- Ratio of the coefficients `C(n,k) * C(n+k,k)` in `k`. -/
theorem legendreCoeff_succ_right {K : Type} [LinearOrderedField K] (n k : Nat) :
    ((k : K) + 1) ^ 2 * ((n.choose (k + 1) * (n + (k + 1)).choose (k + 1) : Nat) : K)
      = ((n : K) - (k : K)) * ((n : K) + (k : K) + 1)
          * ((n.choose k * (n + k).choose k : Nat) : K) := by
  by_cases hk : k ≤ n
  · have h1 : ((n.choose (k + 1) : Nat) : K) * ((k : K) + 1)
        = ((n.choose k : Nat) : K) * ((n : K) - (k : K)) := by
      have h := Nat.choose_succ_right_eq n k
      have h2 : (((n.choose (k + 1) * (k + 1) : Nat)) : K)
          = ((n.choose k * (n - k) : Nat) : K) := by rw [h]
      rw [Nat.cast_mul, Nat.cast_mul, Nat.cast_sub hk] at h2
      push_cast at h2
      exact h2
    have h3 : ((n : K) + (k : K) + 1) * (((n + k).choose k : Nat) : K)
        = (((n + (k + 1)).choose (k + 1) : Nat) : K) * ((k : K) + 1) := by
      have h := Nat.succ_mul_choose_eq (n + k) k
      have h2 : ((((n + k).succ * (n + k).choose k : Nat)) : K)
          = (((n + k).succ.choose k.succ * k.succ : Nat) : K) := by rw [h]
      rw [show (n + k).succ = n + (k + 1) by omega, show k.succ = k + 1 by omega] at h2
      push_cast at h2 ⊢
      linear_combination h2
    push_cast
    linear_combination ((((n + (k + 1)).choose (k + 1) : Nat) : K) * ((k : K) + 1)) * h1
      - (((n.choose k : Nat) : K) * ((n : K) - (k : K))) * h3
  · have hk2 : n < k := by omega
    rw [Nat.choose_eq_zero_of_lt hk2, Nat.choose_eq_zero_of_lt (show n < k + 1 by omega)]
    simp

/-- The three-term relation between the coefficients of three consecutive Legendre
polynomials. -/
theorem legendreCoeff_three_term {K : Type} [LinearOrderedField K] (n k : Nat) :
    ((n : K) + 2) * (((n + 2).choose (k + 1) * (n + 2 + (k + 1)).choose (k + 1) : Nat) : K)
      = (2 * (n : K) + 3)
          * (2 * (((n + 1).choose k * (n + 1 + k).choose k : Nat) : K)
            + (((n + 1).choose (k + 1) * (n + 1 + (k + 1)).choose (k + 1) : Nat) : K))
        - ((n : K) + 1) * ((n.choose (k + 1) * (n + (k + 1)).choose (k + 1) : Nat) : K) := by
  have E1 := legendreCoeff_succ_right (K := K) (n + 1) k
  have E2 := legendreCoeff_succ_right (K := K) (n + 2) k
  have E3 := legendreCoeff_succ_left (K := K) (n + 1) k
  have E4 := legendreCoeff_succ_right (K := K) n k
  have E5 := legendreCoeff_succ_left (K := K) n k
  have hk : ((k : K) + 1) ^ 2 ≠ 0 := by positivity
  apply mul_left_cancel₀ hk
  push_cast at E1 E2 E3 E4 E5 ⊢
  linear_combination ((n : K) + 2) * E2 + ((n : K) + 2) * ((n : K) + (k : K) + 3) * E3
    - (2 * (n : K) + 3) * E1 + ((n : K) + 1) * E4
    - ((n : K) + 1) * ((n : K) - (k : K)) * E5

/-- The sum that defines `legendreReference n` may run over any range beyond `n`. -/
theorem legendreReference_extend {K : Type} [LinearOrderedField K] (n N : Nat) (h : n + 1 ≤ N)
    (x : K) :
    ∑ k in Finset.range N, ((n.choose k * (n + k).choose k : Nat) : K) * ((x - 1) / 2) ^ k
      = legendreReference n x := by
  unfold legendreReference
  symm
  apply Finset.sum_subset (Finset.range_subset.2 h)
  intro k _ hk
  have hlt : n < k := by
    rw [Finset.mem_range] at hk
    omega
  rw [Nat.choose_eq_zero_of_lt hlt]
  simp

/-- The reference polynomials satisfy the recurrence
`(n+2) P_{n+2} = (2n+3) x P_{n+1} - (n+1) P_n`. -/
theorem legendreReference_recurrence {K : Type} [LinearOrderedField K] (n : Nat) (x : K) :
    ((n : K) + 2) * legendreReference (n + 2) x
      = (2 * (n : K) + 3) * x * legendreReference (n + 1) x
        - ((n : K) + 1) * legendreReference n x := by
  have hx : x = 2 * ((x - 1) / 2) + 1 := by ring
  have e2 := legendreReference_extend (n + 2) (n + 3) (le_refl _) x
  have e1 := legendreReference_extend (n + 1) (n + 3) (by omega) x
  have e0 := legendreReference_extend n (n + 3) (by omega) x
  have e1' := legendreReference_extend (n + 1) (n + 2) (le_refl _) x
  rw [Finset.sum_range_succ'] at e2 e1 e0
  simp only [Nat.choose_zero_right, mul_one, Nat.cast_one, pow_zero] at e2 e1 e0
  generalize (x - 1) / 2 = t at *
  have hsum : ((n : K) + 2) *
        (∑ k in Finset.range (n + 2),
          (((n + 2).choose (k + 1) * (n + 2 + (k + 1)).choose (k + 1) : Nat) : K) * t ^ (k + 1))
      = (2 * (n : K) + 3) * (2 * t *
          (∑ k in Finset.range (n + 2),
            (((n + 1).choose k * (n + 1 + k).choose k : Nat) : K) * t ^ k)
          + ∑ k in Finset.range (n + 2),
            (((n + 1).choose (k + 1) * (n + 1 + (k + 1)).choose (k + 1) : Nat) : K) * t ^ (k + 1))
        - ((n : K) + 1) *
          (∑ k in Finset.range (n + 2),
            ((n.choose (k + 1) * (n + (k + 1)).choose (k + 1) : Nat) : K) * t ^ (k + 1)) := by
    rw [Finset.mul_sum, Finset.mul_sum, Finset.mul_sum, ← Finset.sum_add_distrib,
      Finset.mul_sum, ← Finset.sum_sub_distrib]
    apply Finset.sum_congr rfl
    intro k _
    have h3 := legendreCoeff_three_term (K := K) n k
    linear_combination t ^ (k + 1) * h3
  linear_combination hsum - ((n : K) + 2) * e2 - ((n : K) + 1) * e0
    + (2 * (n : K) + 3) * 2 * t * e1' + (2 * (n : K) + 3) * e1
    - (2 * (n : K) + 3) * legendreReference (n + 1) x * hx

theorem legendreReference_zero {K : Type} [LinearOrderedField K] (x : K) :
    legendreReference 0 x = 1 := by
  simp [legendreReference]

theorem legendreReference_one {K : Type} [LinearOrderedField K] (x : K) :
    legendreReference 1 x = x := by
  simp [legendreReference, Finset.sum_range_succ]
  ring

/-- After `n+1` passes the recurrence loop holds the reference polynomials of degrees `n` and
`n+1` in `(Pn_1, Pn)`. -/
theorem legendreP_eq_reference {K : Type} [LinearOrderedField K] (x : K) (n : Nat) :
    legendreP x (n + 1) = (legendreReference n x, legendreReference (n + 1) x) := by
  induction n with
  | zero =>
    rw [legendreReference_zero, legendreReference_one]
    have h : (2 : K) - 1 = 1 := by norm_num
    simp [legendreP, legendreStep, h]
  | succ n ih =>
    have hrec := legendreReference_recurrence n x
    apply Prod.ext
    · rw [legendreP_succ_fst, ih]
    · rw [legendreP_succ_snd, ih]
      simp only
      push_cast
      rw [div_eq_iff (by positivity)]
      linear_combination -hrec

/-- The value `Pn` of the recurrence is the reference polynomial of degree `n`, for every
`n`. -/
theorem legendreP_snd_eq_reference {K : Type} [LinearOrderedField K] (x : K) (n : Nat) :
    (legendreP x n).2 = legendreReference n x := by
  cases n with
  | zero => rw [legendreReference_zero]; rfl
  | succ n => rw [legendreP_eq_reference]

/-! ## The derivative value of GaussLegendre is the derivative of the polynomial -/

/-- Away from `x*x = 1`, the value `dPn = (n*Pn_1 - n*x*Pn) / (1 - x*x)` is the derivative at
`x` of the polynomial `Pn` that the recurrence computes, for two consecutive degrees. -/
theorem legendreP_hasDerivAt_pair (x : ℝ) (hx : x * x ≠ 1) (n : Nat) :
    HasDerivAt (fun y : ℝ => (legendreP y n).2) (legendreValue n x).2 x ∧
    HasDerivAt (fun y : ℝ => (legendreP y (n + 1)).2) (legendreValue (n + 1) x).2 x := by
  have hs : (1 : ℝ) - x * x ≠ 0 := fun h => hx (by linear_combination -h)
  induction n with
  | zero =>
    constructor
    · have h0 : (fun y : ℝ => (legendreP y 0).2) = fun _ => (1 : ℝ) := rfl
      have hv : (legendreValue 0 x).2 = 0 := by simp [legendreValue]
      rw [h0, hv]
      exact hasDerivAt_const x 1
    · have h1 : (fun y : ℝ => (legendreP y (0 + 1)).2) = fun y => y := by
        funext y
        have h : (2 : ℝ) - 1 = 1 := by norm_num
        simp [legendreP, legendreStep, h]
      have hv : (legendreValue (0 + 1) x).2 = 1 := by
        rw [legendreValue_one]
        exact div_self hs
      rw [h1, hv]
      exact hasDerivAt_id x
  | succ n ih =>
    obtain ⟨h0, h1⟩ := ih
    refine ⟨h1, ?_⟩
    have hP : (fun y : ℝ => (legendreP y (n + 1 + 1)).2)
        = fun y => ((2 * ((n + 1 + 1 : Nat) : ℝ) - 1) * y * (legendreP y (n + 1)).2
            - (((n + 1 + 1 : Nat) : ℝ) - 1) * (legendreP y n).2) / ((n + 1 + 1 : Nat) : ℝ) := by
      funext y
      rw [legendreP_succ_snd, legendreP_succ_fst]
    rw [hP]
    have hd := ((((hasDerivAt_id x).const_mul (2 * ((n + 1 + 1 : Nat) : ℝ) - 1)).mul h1).sub
      (h0.const_mul (((n + 1 + 1 : Nat) : ℝ) - 1))).div_const ((n + 1 + 1 : Nat) : ℝ)
    convert hd using 1
    have hrel := legendreP_succ_snd x n
    have hne1 : ((n : ℝ) + 1) ≠ 0 := by positivity
    have hne2 : ((n : ℝ) + 1 + 1) ≠ 0 := by positivity
    unfold legendreValue
    simp only [legendreP_succ_fst, id]
    rw [legendreP_succ_snd x (n + 1), legendreP_succ_fst]
    push_cast at hrel ⊢
    rw [eq_div_iff hne1] at hrel
    generalize (legendreP x (n + 1)).2 = b at hrel ⊢
    generalize (legendreP x n).2 = a at hrel ⊢
    generalize (legendreP x n).1 = q at hrel ⊢
    field_simp
    linear_combination (((n : ℝ) + 1) * ((n : ℝ) + 1 + 1) * (1 - x ^ 2)) * hrel

/-- Away from `x*x = 1`, the derivative value that `GaussLegendre` computes at `x` is the
derivative at `x` of the reference Legendre polynomial of degree `n`. -/
theorem legendreReference_hasDerivAt (n : Nat) (x : ℝ) (hx : x * x ≠ 1) :
    HasDerivAt (legendreReference n) (legendreValue n x).2 x := by
  have h := (legendreP_hasDerivAt_pair x hx n).1
  have hf : (fun y : ℝ => (legendreP y n).2) = legendreReference n := by
    funext y
    exact legendreP_snd_eq_reference y n
  rw [hf] at h
  exact h

/-! ## GaussLegendre: a call that returns has computed the closed form -/

/-- When the recurrence loop returns, `n` is below `UINT_MAX` and `(Pn_1, Pn)` is
`legendreP x n`. -/
theorem legendreLoop_some {K : Type} [LinearOrderedField K] (fuel n : Nat) (x : K) (s : K × K)
    (h : forLe n (fun j s => some (legendreStep x j s)) fuel 1 ((0 : K), (1 : K)) = some s) :
    n < UINT_MAX ∧ s = legendreP x n := by
  have hn : n < UINT_MAX := by
    by_contra hc
    rw [forLe_none n _ (by omega) fuel 1 _ (by decide)] at h
    simp at h
  refine ⟨hn, ?_⟩
  have h2 := forLe_some n _ (legendreStep x) 1 hn
    (fun i s r _ _ hb => (Option.some.inj hb).symm) fuel 1 _ s (le_refl 1) (by omega) h
  rw [h2, show n + 1 - 1 = n by omega, iterUp_legendreStep]

/-- When the inner part of the Newton loop body returns, `n` is below `UINT_MAX` and the pair
`(Pn, dPn)` is `legendreValue n x`. -/
theorem legendreEval_some {K : Type} [LinearOrderedField K] (fuel n : Nat) (x : K) (r : K × K)
    (h : legendreEval fuel n x = some r) : n < UINT_MAX ∧ r = legendreValue n x := by
  unfold legendreEval at h
  cases hl : forLe n (fun j s => some (legendreStep x j s)) fuel 1 ((0 : K), (1 : K)) with
  | none => rw [hl] at h; simp at h
  | some s =>
    obtain ⟨hn, hs⟩ := legendreLoop_some fuel n x s hl
    rw [hl, Option.some_bind, hs] at h
    exact ⟨hn, (Option.some.inj h).symm⟩

/-- When `GaussLegendre` returns for an `n < UINT_MAX`, the arrays are those of the closed
form. -/
theorem GaussLegendre_some {K : Type} [LinearOrderedField K] (cos : K → K) (pi : K)
    (fuel n : Nat) (points weights : Buf K) (r : Buf K × Buf K) (hn : n < UINT_MAX)
    (h : GaussLegendre cos pi fuel points weights n = some r) :
    r = iterUp (legendreStores cos pi n) 1 ((n + 1) / 2) (points, weights) := by
  unfold GaussLegendre at h
  have hlt : n < 4294967296 := by unfold UINT_MAX at hn; omega
  have hw : wrap32 (n + 1) = n + 1 := wrap32_of_lt (by unfold UINT_MAX at hn; omega)
  rw [hw] at h
  have h2 := forLe_some ((n + 1) / 2) _ (legendreStores cos pi n) 1
    (by unfold UINT_MAX at *; omega) ?_ fuel 1 _ r (le_refl 1) (by omega) h
  · rw [h2, show (n + 1) / 2 + 1 - 1 = (n + 1) / 2 by omega]
  · intro i s r1 hi1 hi hb
    unfold legendreBody at hb
    cases hN : newton (legendreEval fuel n) fuel 0
        (cos (pi * (4 * (i : K) - 1) / (4 * (n : K) + 2))) 0 1 with
    | none => rw [hN] at hb; simp at hb
    | some v =>
      have hv := newton_some (legendreEval fuel n) (legendreValue n)
        (fun x r hx => (legendreEval_some fuel n x r hx).2) fuel 0 _ 0 1 v (by decide) hN
      rw [hN, Option.some_bind, usub_of_le hi1 (by omega), usub_of_le (by omega) hlt] at hb
      rw [← Option.some.inj hb, hv]
      rfl

/-! ## Claims about the formulas of GaussJacobi and GaussLegendre -/

/-- The `int` shift `1 << s` is `2^s` for `s ≤ 30`. -/
theorem shl1_small (s : Nat) (hs : s ≤ 30) : shl1 s = 2 ^ s := by
  unfold shl1
  interval_cases s <;> rfl

/-- For `a + b ≤ 30` and `n + a + b < UINT_MAX` nothing wraps in the normalisation constant of
`GaussJacobi`, and it is
`-(2n+a+b+2) * (n+a)! * (n+b)! * 2^(a+b) / ((n+a+b+1) * (n+a+b)! * (n+1)!)` with the factorials
of the service. -/
theorem weightFactor_in_range {K : Type} [LinearOrderedField K] (F : Functions K)
    (n a b : Nat) (hab : a + b ≤ 30) (hn : n + a + b < UINT_MAX) :
    weightFactor F n a b
      = -(2 * (n : K) + (a : K) + (b : K) + 2) * (F.factorial (n + a) : K)
          * (F.factorial (n + b) : K) * 2 ^ (a + b)
        / (((n : K) + (a : K) + (b : K) + 1) * (F.factorial (n + a + b) : K)
          * (F.factorial (n + 1) : K)) := by
  unfold UINT_MAX at hn
  unfold weightFactor
  rw [wrap32_of_lt (show n + a < 4294967296 by omega),
    wrap32_of_lt (show n + b < 4294967296 by omega),
    wrap32_of_lt (show a + b < 4294967296 by omega),
    wrap32_of_lt (show n + a + b < 4294967296 by omega),
    wrap32_of_lt (show n + 1 < 4294967296 by omega), shl1_small _ hab]
  push_cast
  rfl

theorem weightFactor_in_range_witness :
    1 + 0 ≤ 30 ∧ 2 + 1 + 0 < UINT_MAX ∧
    weightFactor (lowService : Functions ℚ) 2 1 0
      = -(2 * ((2 : Nat) : ℚ) + ((1 : Nat) : ℚ) + ((0 : Nat) : ℚ) + 2)
          * ((lowService : Functions ℚ).factorial (2 + 1) : ℚ)
          * ((lowService : Functions ℚ).factorial (2 + 0) : ℚ) * 2 ^ (1 + 0)
        / ((((2 : Nat) : ℚ) + ((1 : Nat) : ℚ) + ((0 : Nat) : ℚ) + 1)
          * ((lowService : Functions ℚ).factorial (2 + 1 + 0) : ℚ)
          * ((lowService : Functions ℚ).factorial (2 + 1) : ℚ)) :=
  ⟨by decide, by decide, weightFactor_in_range lowService 2 1 0 (by decide) (by decide)⟩

/-- C13, at the input `n = 1`, `a = 31`, `b = 0`, with the exact factorial: the `int` shift
`1 << 31` is `-2^31`, so the normalisation constant computed by `GaussJacobi` is positive,
`35 * 2^31 / 66`, and it is the negative of the value
`-(2n+a+b+2) * (n+a)! * (n+b)! * 2^(a+b) / ((n+a+b+1) * (n+a+b)! * (n+1)!)`. -/
theorem C13_weightFactor_shift_overflow :
    weightFactor (legendreService : Functions ℚ) 1 31 0 = 35 * 2 ^ 31 / 66 ∧
    -(2 * 1 + 31 + 0 + 2) * (Nat.factorial (1 + 31) : ℚ) * (Nat.factorial (1 + 0) : ℚ)
        * 2 ^ (31 + 0)
      / ((1 + 31 + 0 + 1) * (Nat.factorial (1 + 31 + 0) : ℚ) * (Nat.factorial (1 + 1) : ℚ))
      = -(35 * 2 ^ 31 / 66) ∧
    shl1 (wrap32 (31 + 0)) = -2147483648 := by
  have hs : shl1 (wrap32 (31 + 0)) = -2147483648 := by rfl
  have h1 : wrap32 (1 + 31) = 32 := by rfl
  have h2 : wrap32 (1 + 0) = 1 := by rfl
  have h3 : wrap32 (32 + 0) = 32 := by rfl
  have h4 : wrap32 (1 + 1) = 2 := by rfl
  refine ⟨?_, ?_, hs⟩
  · unfold weightFactor
    rw [hs, h1, h2, h3, h4]
    simp only [legendreService]
    norm_num [Nat.factorial]
  · norm_num [Nat.factorial]

/-! ## Claims about the stores and the recurrence of GaussLegendre -/

/-- The record of the stores of the outer loop of `GaussLegendre` after `i = 1, ..., t`: for
every such `i`, `-x` has been stored to `points[i-1]`, `x` to `points[n-i]` and the weight to
`weights[i-1]` and `weights[n-i]`. -/
theorem legendre_record {K : Type} [LinearOrderedField K] (cos : K → K) (pi : K) (n : Nat)
    (points weights : Buf K) (t i : Nat) (hi1 : 1 ≤ i) (hi : i ≤ t) :
    (i - 1, -(legendreRoot cos pi n i).1) ∈
      List.zip (iterUp (legendreStores cos pi n) 1 t (points, weights)).1.log
        (iterUp (legendreStores cos pi n) 1 t (points, weights)).1.stored ∧
    (n - i, (legendreRoot cos pi n i).1) ∈
      List.zip (iterUp (legendreStores cos pi n) 1 t (points, weights)).1.log
        (iterUp (legendreStores cos pi n) 1 t (points, weights)).1.stored ∧
    (i - 1, legendreWeight cos pi n i) ∈
      List.zip (iterUp (legendreStores cos pi n) 1 t (points, weights)).2.log
        (iterUp (legendreStores cos pi n) 1 t (points, weights)).2.stored ∧
    (n - i, legendreWeight cos pi n i) ∈
      List.zip (iterUp (legendreStores cos pi n) 1 t (points, weights)).2.log
        (iterUp (legendreStores cos pi n) 1 t (points, weights)).2.stored := by
  induction t with
  | zero => omega
  | succ t ih =>
    simp only [iterUp, legendreStores, Buf.write, List.zip_cons_cons, List.mem_cons]
    by_cases hit : i = 1 + t
    · subst hit
      exact ⟨Or.inr (Or.inl rfl), Or.inl rfl, Or.inr (Or.inl rfl), Or.inl rfl⟩
    · obtain ⟨h1, h2, h3, h4⟩ := ih (by omega)
      exact ⟨Or.inr (Or.inr h1), Or.inr (Or.inr h2), Or.inr (Or.inr h3), Or.inr (Or.inr h4)⟩

/-- C15, as stated, fails for `n = 2`, `i = 1`: the refined root `x` of the seed
`cos(pi*3/10)` is not what `GaussLegendre` leaves at index `i-1 = 0`, no store of `x` to index
`0` is made, and `-x` is not what it leaves at index `n-i = 1`. -/
theorem C15_GaussLegendre_two_counterexample :
    ∃ out, GaussLegendre Real.cos Real.pi 100 Buf.fresh Buf.fresh 2 = some out ∧
      out.1.val (1 - 1) ≠ (legendreRoot Real.cos Real.pi 2 1).1 ∧
      (1 - 1, (legendreRoot Real.cos Real.pi 2 1).1) ∉ List.zip out.1.log out.1.stored ∧
      out.1.val (2 - 1) ≠ -(legendreRoot Real.cos Real.pi 2 1).1 := by
  refine ⟨_, GaussLegendre_eq Real.cos Real.pi 100 2 _ _ (by decide) (by decide) (by decide),
    ?_⟩
  obtain ⟨hx, -, -⟩ := legendreRoot_two
  have hh : (2 + 1) / 2 = 1 := by decide
  rw [hh]
  simp only [iterUp, legendreStores, Buf.write, Buf.fresh, List.zip_cons_cons, List.zip_nil_right,
    List.mem_cons, List.not_mem_nil, or_false, Prod.mk.injEq]
  generalize (legendreRoot Real.cos Real.pi 2 (1 + 0)).1 = x at *
  refine ⟨?_, ?_, ?_⟩
  · simp
    intro h
    linarith
  · rintro (⟨h, -⟩ | ⟨-, h⟩)
    · omega
    · linarith
  · simp
    intro h
    linarith

/-- C15, amended: for every `n < UINT_MAX` and every `i` in `1..(n+1)/2`, with `x` the refined
root of the seed `cos(pi*(4i-1)/(4n+2))` and `w` its weight, `GaussLegendre` returns having
stored `-x` to `points[i-1]`, `x` to `points[n-i]` and `w` to `weights[i-1]` and `weights[n-i]`;
on return `points[n-i] = x`, `weights[i-1] = weights[n-i] = w` and, unless `i-1` is the middle
index `n-i`, `points[i-1] = -x`. -/
theorem C15_GaussLegendre_stores {K : Type} [LinearOrderedField K] (cos : K → K) (pi : K)
    (fuel n : Nat) (points weights : Buf K) (hn : n < UINT_MAX) (hfuel : n < fuel)
    (hfuel2 : MaxIterations ≤ fuel) :
    ∃ out, GaussLegendre cos pi fuel points weights n = some out ∧
      ∀ i, 1 ≤ i → i ≤ (n + 1) / 2 →
        (i - 1, -(legendreRoot cos pi n i).1) ∈ List.zip out.1.log out.1.stored ∧
        (n - i, (legendreRoot cos pi n i).1) ∈ List.zip out.1.log out.1.stored ∧
        (i - 1, legendreWeight cos pi n i) ∈ List.zip out.2.log out.2.stored ∧
        (n - i, legendreWeight cos pi n i) ∈ List.zip out.2.log out.2.stored ∧
        out.1.val (n - i) = (legendreRoot cos pi n i).1 ∧
        (i - 1 ≠ n - i → out.1.val (i - 1) = -(legendreRoot cos pi n i).1) ∧
        out.2.val (i - 1) = legendreWeight cos pi n i ∧
        out.2.val (n - i) = legendreWeight cos pi n i := by
  refine ⟨_, GaussLegendre_eq cos pi fuel n points weights hn hfuel hfuel2, ?_⟩
  intro i hi1 hi
  obtain ⟨r1, r2, r3, r4⟩ := legendre_record cos pi n points weights ((n + 1) / 2) i hi1 hi
  obtain ⟨h1, h2, -, -⟩ := legendre_after cos pi n points weights ((n + 1) / 2) (le_refl _)
  have cup : n - (n + 1) / 2 ≤ n - i ∧ n - i < n := by omega
  have eup : n - (n - i) = i := by omega
  refine ⟨r1, r2, r3, r4, ?_, ?_, ?_, ?_⟩
  · rw [h1]
    unfold legendrePointsAfter
    rw [if_pos cup, eup]
  · intro hne
    have c1 : ¬ (n - (n + 1) / 2 ≤ i - 1 ∧ i - 1 < n) := by omega
    have c2 : i - 1 < (n + 1) / 2 := by omega
    rw [h1]
    unfold legendrePointsAfter
    rw [if_neg c1, if_pos c2, show i - 1 + 1 = i by omega]
  · rw [h2]
    unfold legendreWeightsAfter
    by_cases c1 : n - (n + 1) / 2 ≤ i - 1 ∧ i - 1 < n
    · rw [if_pos c1, show n - (i - 1) = i by omega]
    · have c2 : i - 1 < (n + 1) / 2 := by omega
      rw [if_neg c1, if_pos c2, show i - 1 + 1 = i by omega]
  · rw [h2]
    unfold legendreWeightsAfter
    rw [if_pos cup, eup]

theorem C15_GaussLegendre_stores_witness :
    5 < UINT_MAX ∧ 5 < 100 ∧ MaxIterations ≤ 100 ∧
    ∃ out, GaussLegendre Real.cos Real.pi 100 (Buf.init fun _ => 7) (Buf.init fun _ => 7) 5
        = some out ∧
      ∀ i, 1 ≤ i → i ≤ (5 + 1) / 2 →
        (i - 1, -(legendreRoot Real.cos Real.pi 5 i).1) ∈ List.zip out.1.log out.1.stored ∧
        (5 - i, (legendreRoot Real.cos Real.pi 5 i).1) ∈ List.zip out.1.log out.1.stored ∧
        (i - 1, legendreWeight Real.cos Real.pi 5 i) ∈ List.zip out.2.log out.2.stored ∧
        (5 - i, legendreWeight Real.cos Real.pi 5 i) ∈ List.zip out.2.log out.2.stored ∧
        out.1.val (5 - i) = (legendreRoot Real.cos Real.pi 5 i).1 ∧
        (i - 1 ≠ 5 - i → out.1.val (i - 1) = -(legendreRoot Real.cos Real.pi 5 i).1) ∧
        out.2.val (i - 1) = legendreWeight Real.cos Real.pi 5 i ∧
        out.2.val (5 - i) = legendreWeight Real.cos Real.pi 5 i :=
  ⟨by decide, by decide, by decide,
    C15_GaussLegendre_stores Real.cos Real.pi 100 5 _ _ (by decide) (by decide) (by decide)⟩

/-- C16, as stated, fails for `n = 1` at `x = 0`: the recurrence leaves `Pn_1 = 1`, `Pn = 0`,
`GaussLegendre` computes `dPn = 1`, and `n*(x*Pn - Pn_1)/(1 - x^2)` is `-1`. -/
theorem C16_derivative_sign_counterexample :
    forLe 1 (fun j s => some (legendreStep (0 : ℚ) j s)) 5 1 ((0 : ℚ), (1 : ℚ)) = some (1, 0) ∧
    legendreEval 5 1 (0 : ℚ) = some (0, 1) ∧
    (1 : ℚ) ≠ 1 * (0 * 0 - 1) / (1 - 0 ^ 2) := by
  have hl : forLe 1 (fun j s => some (legendreStep (0 : ℚ) j s)) 5 1 ((0 : ℚ), (1 : ℚ))
      = some (1, 0) := by
    rw [forLe_eq 1 _ (legendreStep (0 : ℚ)) 1 (by decide) (fun _ _ _ _ => rfl) 1 1 5 _
      (le_refl 1) (by decide) (by decide)]
    simp [iterUp, legendreStep]
  refine ⟨hl, ?_, by norm_num⟩
  unfold legendreEval
  rw [hl]
  simp

/-- C16, amended: whenever the inner part of the Newton loop body of `GaussLegendre` returns,
the recurrence loop has left a pair `(Pn_1, Pn)` and `dPn = n*(Pn_1 - x*Pn)/(1 - x^2)`; for
`x^2 ≠ 1` this is the derivative at `x` of the Legendre polynomial of degree `n`.  It returns
for every `n < UINT_MAX`; for `n = UINT_MAX` it is never run. -/
theorem C16_legendre_derivative (fuel n : Nat) (x : ℝ) :
    (∀ r, legendreEval fuel n x = some r →
      ∃ Pn_1 Pn,
        forLe n (fun j s => some (legendreStep x j s)) fuel 1 ((0 : ℝ), (1 : ℝ))
          = some (Pn_1, Pn) ∧
        r = (Pn, (n : ℝ) * (Pn_1 - x * Pn) / (1 - x ^ 2)) ∧
        (x ^ 2 ≠ 1 → HasDerivAt (legendreReference n) r.2 x)) ∧
    (n < UINT_MAX → n < fuel → ∃ r, legendreEval fuel n x = some r) := by
  constructor
  · intro r hr
    obtain ⟨-, hv⟩ := legendreEval_some fuel n x r hr
    unfold legendreEval at hr
    cases hl : forLe n (fun j s => some (legendreStep x j s)) fuel 1 ((0 : ℝ), (1 : ℝ)) with
    | none => rw [hl] at hr; simp at hr
    | some s =>
      rw [hl, Option.some_bind] at hr
      refine ⟨s.1, s.2, rfl, ?_, ?_⟩
      · rw [← Option.some.inj hr]
        apply Prod.ext
        · rfl
        · simp only
          ring
      · intro hx
        rw [hv]
        exact legendreReference_hasDerivAt n x (by rw [← pow_two]; exact hx)
  · intro hn hfuel
    exact ⟨_, legendreEval_eq fuel n x hn hfuel⟩

/-- C18: whenever the recurrence loop of `GaussLegendre` returns for an `n ≥ 1`, it has left in
`Pn` the Legendre polynomial of degree `n` at `x`, by its reference definition
`sum_{k ≤ n} C(n,k) * C(n+k,k) * ((x-1)/2)^k`, and in `Pn_1` that of degree `n-1`; the
reference polynomials of degrees `1` and `2` are `x` and `(3x^2-1)/2`.  The loop returns for
every `n < UINT_MAX`; for `n = UINT_MAX` it is never run. -/
theorem C18_recurrence_is_legendre {K : Type} [LinearOrderedField K] (fuel n : Nat) (x : K) :
    (1 ≤ n → ∀ s,
      forLe n (fun j s => some (legendreStep x j s)) fuel 1 ((0 : K), (1 : K)) = some s →
      s = (legendreReference (n - 1) x, legendreReference n x)) ∧
    (n < UINT_MAX → n < fuel →
      ∃ s, forLe n (fun j s => some (legendreStep x j s)) fuel 1 ((0 : K), (1 : K)) = some s) ∧
    legendreReference 1 x = x ∧ legendreReference 2 x = (3 * x ^ 2 - 1) / 2 := by
  refine ⟨?_, ?_, legendreReference_one x, ?_⟩
  · intro hn s hs
    obtain ⟨-, h⟩ := legendreLoop_some fuel n x s hs
    obtain ⟨m, rfl⟩ : ∃ m, n = m + 1 := ⟨n - 1, by omega⟩
    rw [h, legendreP_eq_reference, Nat.add_sub_cancel]
  · intro hn hfuel
    exact ⟨_, forLe_eq n _ (legendreStep x) 1 hn (fun _ _ _ _ => rfl) n 1 fuel _ (le_refl 1)
      (by omega) hfuel⟩
  · simp [legendreReference, Finset.sum_range_succ, Nat.choose]
    ring

/-! ## GaussLegendre: the weight formula and the odd moments -/

/-- The weight computed for the root `i` is `2 / ((1 - p^2) * D^2)` at the refined root
`p = x` and at its mirror image `p = -x`, for the derivative `D` at `p` of the Legendre
polynomial of degree `n`. -/
theorem legendreWeight_formula (cos : ℝ → ℝ) (pi : ℝ) (n i : Nat) (p D : ℝ)
    (hp : p = (legendreRoot cos pi n i).1 ∨ p = -(legendreRoot cos pi n i).1)
    (hD : HasDerivAt (legendreReference n) D p) :
    legendreWeight cos pi n i = 2 / ((1 - p ^ 2) * D ^ 2) := by
  have hd : (legendreRoot cos pi n i).2.2 = (legendreValue n (legendreRoot cos pi n i).1).2 := by
    have h := newtonPure_snd (legendreValue n) (MaxIterations - 1)
      (cos (pi * (4 * (i : ℝ) - 1) / (4 * (n : ℝ) + 2))) 0 1
    unfold legendreRoot
    rw [h]
  unfold legendreWeight
  rw [hd]
  generalize (legendreRoot cos pi n i).1 = x at *
  have hpp : p ^ 2 = x * x := by
    rcases hp with h | h <;> rw [h] <;> ring
  by_cases hx : x * x = 1
  · rw [hpp, hx]
    simp
  · have hDD : D ^ 2 = (legendreValue n x).2 * (legendreValue n x).2 := by
      rcases hp with h | h
      · rw [h] at hD
        rw [hD.unique (legendreReference_hasDerivAt n x hx)]
        ring
      · rw [h] at hD
        have hx2 : -x * -x ≠ 1 := by
          intro hc
          exact hx (by linear_combination hc)
        rw [hD.unique (legendreReference_hasDerivAt n (-x) hx2), legendreValue_neg]
        simp only
        have hσ : ((-1 : ℝ) ^ n) * ((-1) ^ n) = 1 := by
          rw [← pow_add, ← two_mul, pow_mul]
          norm_num
        linear_combination ((legendreValue n x).2 * (legendreValue n x).2) * hσ
    rw [hpp, hDD, mul_assoc]

/-- For every `n < UINT_MAX`, in real arithmetic, `GaussLegendre` returns and every weight is
`2 / ((1 - p^2) * D^2)` for the point `p` at the same index and the derivative `D` at `p` of the
Legendre polynomial of degree `n`. -/
theorem GaussLegendre_weight_formula (cos : ℝ → ℝ) (pi : ℝ) (fuel n : Nat)
    (points weights : Buf ℝ) (hn : n < UINT_MAX) (hfuel : n < fuel)
    (hfuel2 : MaxIterations ≤ fuel) :
    ∃ out, GaussLegendre cos pi fuel points weights n = some out ∧
      ∀ k, k < n → ∀ D, HasDerivAt (legendreReference n) D (out.1.val k) →
        out.2.val k = 2 / ((1 - out.1.val k ^ 2) * D ^ 2) := by
  refine ⟨_, GaussLegendre_eq cos pi fuel n points weights hn hfuel hfuel2, ?_⟩
  intro k hk D hD
  obtain ⟨h1, h2, -, -⟩ := legendre_after cos pi n points weights ((n + 1) / 2) (le_refl _)
  rw [h1] at hD ⊢
  rw [h2]
  unfold legendrePointsAfter at hD ⊢
  unfold legendreWeightsAfter
  by_cases c1 : n - (n + 1) / 2 ≤ k ∧ k < n
  · rw [if_pos c1] at hD ⊢
    rw [if_pos c1]
    exact legendreWeight_formula cos pi n (n - k) _ D (Or.inl rfl) hD
  · have c2 : k < (n + 1) / 2 := by omega
    rw [if_neg c1, if_pos c2] at hD ⊢
    rw [if_neg c1, if_pos c2]
    exact legendreWeight_formula cos pi n (k + 1) _ D (Or.inr rfl) hD

theorem GaussLegendre_weight_formula_witness :
    5 < UINT_MAX ∧ 5 < 100 ∧ MaxIterations ≤ 100 ∧
    ∃ out, GaussLegendre Real.cos Real.pi 100 (Buf.init fun _ => 7) (Buf.init fun _ => 7) 5
        = some out ∧
      ∀ k, k < 5 → ∀ D, HasDerivAt (legendreReference 5) D (out.1.val k) →
        out.2.val k = 2 / ((1 - out.1.val k ^ 2) * D ^ 2) :=
  ⟨by decide, by decide, by decide,
    GaussLegendre_weight_formula Real.cos Real.pi 100 5 _ _ (by decide) (by decide)
      (by decide)⟩

/-- For every `n < UINT_MAX`, in real arithmetic, `GaussLegendre` returns a rule whose odd
moments `sum_{i<n} weights[i] * points[i]^k` vanish. -/
theorem GaussLegendre_odd_moment (fuel n k : Nat) (points weights : Buf ℝ) (hn : n < UINT_MAX)
    (hfuel : n < fuel) (hfuel2 : MaxIterations ≤ fuel) (hk : k % 2 = 1) :
    ∃ out, GaussLegendre Real.cos Real.pi fuel points weights n = some out ∧
      ∑ i in Finset.range n, out.2.val i * out.1.val i ^ k = 0 := by
  obtain ⟨out, hout, hsym⟩ := GaussLegendre_symmetric fuel n points weights hn hfuel hfuel2
  refine ⟨out, hout, ?_⟩
  have hodd : Odd k := Nat.odd_iff.mpr hk
  have hrefl := Finset.sum_range_reflect (fun i => out.2.val i * out.1.val i ^ k) n
  have hneg : ∑ j in Finset.range n, out.2.val (n - 1 - j) * out.1.val (n - 1 - j) ^ k
      = -∑ i in Finset.range n, out.2.val i * out.1.val i ^ k := by
    rw [← Finset.sum_neg_distrib]
    apply Finset.sum_congr rfl
    intro i hi
    obtain ⟨hp, hw⟩ := hsym i (Finset.mem_range.mp hi)
    rw [hw, hp, hodd.neg_pow]
    ring
  rw [hneg] at hrefl
  linarith

theorem GaussLegendre_odd_moment_witness :
    5 < UINT_MAX ∧ 5 < 100 ∧ MaxIterations ≤ 100 ∧ 3 % 2 = 1 ∧
    ∃ out, GaussLegendre Real.cos Real.pi 100 (Buf.init fun _ => 7) (Buf.init fun _ => 7) 5
        = some out ∧
      ∑ i in Finset.range 5, out.2.val i * out.1.val i ^ 3 = 0 :=
  ⟨by decide, by decide, by decide, by decide,
    GaussLegendre_odd_moment 100 5 3 _ _ (by decide) (by decide) (by decide) (by decide)⟩

/-- C17, at the input `n = UINT_MAX`: `GaussLegendre` returns without a store, so arrays that
held `points[0] = 0` and `weights[0] = -1` are left so, and `-1` is not
`2 / ((1 - 0^2) * D^2)` for any value `D` of the derivative. -/
theorem C17_GaussLegendre_UINT_MAX_weight (fuel : Nat) :
    ∃ out, GaussLegendre Real.cos Real.pi (fuel + 1) (Buf.init fun _ => 0)
        (Buf.init fun _ => -1) UINT_MAX = some out ∧
      0 < UINT_MAX ∧ ∀ D : ℝ, out.2.val 0 ≠ 2 / ((1 - out.1.val 0 ^ 2) * D ^ 2) := by
  refine ⟨_, GaussLegendre_UINT_MAX Real.cos Real.pi fuel _ _, by decide, ?_⟩
  intro D h
  simp only [Buf.init] at h
  have hpos : (0 : ℝ) ≤ 2 / ((1 - 0 ^ 2) * D ^ 2) := by positivity
  linarith

/-- C19, at the input `n = UINT_MAX`: `GaussLegendre` returns without a store, so arrays that
held ones are left so, and the first moment `sum_{i<n} weights[i] * points[i]^1` is `n`, not
`0`. -/
theorem C19_GaussLegendre_UINT_MAX_odd_moment (fuel : Nat) :
    ∃ out, GaussLegendre Real.cos Real.pi (fuel + 1) (Buf.init fun _ => 1)
        (Buf.init fun _ => 1) UINT_MAX = some out ∧
      1 % 2 = 1 ∧ ∑ i in Finset.range UINT_MAX, out.2.val i * out.1.val i ^ 1 ≠ 0 := by
  refine ⟨_, GaussLegendre_UINT_MAX Real.cos Real.pi fuel _ _, by decide, ?_⟩
  simp only [Buf.init, one_pow, mul_one, Finset.sum_const, Finset.card_range, nsmul_eq_mul]
  unfold UINT_MAX
  norm_num

/-! ## GaussJacobi with `a = b = 0` holds the points of GaussLegendre in reversed order -/

/-- In real arithmetic, when the service returns for `a = b = 0` the values that the recurrence
of `GaussLegendre` computes, the root of `GaussJacobi` for index `k+1` is the final content of
`points[n-1-k]` in `GaussLegendre`. -/
theorem jacobiRoot_reversed (F : Functions ℝ) (n k : Nat) (p : Nat → ℝ) (hk : k < n)
    (hF : ∀ x, F.JacobiP n 0 0 x = (legendreValue n x).1 ∧
      F.JacobiPFirstDerivative n 0 0 x = (legendreValue n x).2) :
    (jacobiRoot F Real.cos Real.pi n 0 0 (k + 1)).1
      = legendrePointsAfter Real.cos Real.pi n ((n + 1) / 2) p (n - 1 - k) := by
  rw [jacobiRoot_eq_legendreRoot F Real.cos Real.pi n (k + 1) hF]
  unfold legendrePointsAfter
  by_cases hup : n - (n + 1) / 2 ≤ n - 1 - k ∧ n - 1 - k < n
  · rw [if_pos hup, show n - (n - 1 - k) = k + 1 by omega]
  · have c2 : n - 1 - k < (n + 1) / 2 := by omega
    rw [if_neg hup, if_pos c2, show n - 1 - k + 1 = n - k by omega]
    have hm := (legendreRoot_mirror n (n - k) (by omega)).1
    rw [show n + 1 - (n - k) = k + 1 by omega] at hm
    rw [hm]

/-- C20, amended: in exact real arithmetic (the operations, `cos` and `π` exact), when the
service returns for `a = b = 0` the value and the derivative value that the recurrence of
`GaussLegendre` computes, whenever `GaussJacobi(n,0,0)`
and `GaussLegendre(n)` return, with whatever fuel and arrays, `GaussJacobi` holds at every index
`k < n` the point that `GaussLegendre` holds at index `n-1-k`; both return for every
`n < UINT_MAX` (`GaussJacobi` does not return for `n = UINT_MAX`). -/
theorem C20_GaussJacobi_points_reversed (F : Functions ℝ) (fuelJ fuelL n : Nat)
    (pJ wJ pL wL : Buf ℝ)
    (hF : ∀ x, F.JacobiP n 0 0 x = (legendreValue n x).1 ∧
      F.JacobiPFirstDerivative n 0 0 x = (legendreValue n x).2) :
    (∀ rJ rL, GaussJacobi F Real.cos Real.pi fuelJ pJ wJ n 0 0 = some rJ →
      GaussLegendre Real.cos Real.pi fuelL pL wL n = some rL →
      ∀ k, k < n → rJ.1.val k = rL.1.val (n - 1 - k)) ∧
    (n < UINT_MAX → n < fuelJ → MaxIterations ≤ fuelJ → n < fuelL → MaxIterations ≤ fuelL →
      ∃ rJ rL, GaussJacobi F Real.cos Real.pi fuelJ pJ wJ n 0 0 = some rJ ∧
        GaussLegendre Real.cos Real.pi fuelL pL wL n = some rL) := by
  constructor
  · intro rJ rL hJ hL k hk
    obtain ⟨hn, hrJ⟩ := GaussJacobi_some F Real.cos Real.pi fuelJ n 0 0 pJ wJ rJ hJ
    have hrL := GaussLegendre_some Real.cos Real.pi fuelL n pL wL rL hn hL
    obtain ⟨hJ1, -, -, -⟩ := jacobi_after F Real.cos Real.pi n 0 0 pJ wJ n
    obtain ⟨hL1, -, -, -⟩ := legendre_after Real.cos Real.pi n pL wL ((n + 1) / 2) (le_refl _)
    rw [hrJ, hrL, hJ1, hL1, if_pos hk]
    exact jacobiRoot_reversed F n k pL.val hk hF
  · intro hn h1 h2 h3 h4
    exact ⟨_, _, GaussJacobi_eq F Real.cos Real.pi fuelJ n 0 0 pJ wJ hn h1 h2,
      GaussLegendre_eq Real.cos Real.pi fuelL n pL wL hn h3 h4⟩

theorem C20_GaussJacobi_points_reversed_witness :
    (∀ x : ℝ, (legendreService : Functions ℝ).JacobiP 4 0 0 x = (legendreValue 4 x).1 ∧
      (legendreService : Functions ℝ).JacobiPFirstDerivative 4 0 0 x = (legendreValue 4 x).2) ∧
    ∃ rJ rL,
      GaussJacobi legendreService Real.cos Real.pi 100 Buf.fresh Buf.fresh 4 0 0 = some rJ ∧
      GaussLegendre Real.cos Real.pi 200 Buf.fresh Buf.fresh 4 = some rL ∧
      ∀ k, k < 4 → rJ.1.val k = rL.1.val (4 - 1 - k) :=
  ⟨fun _ => ⟨rfl, rfl⟩,
    Exists.elim
      ((C20_GaussJacobi_points_reversed legendreService 100 200 4 Buf.fresh Buf.fresh Buf.fresh
        Buf.fresh (fun _ => ⟨rfl, rfl⟩)).2 (by decide) (by decide) (by decide) (by decide)
        (by decide))
      fun rJ h => Exists.elim h fun rL hh =>
        ⟨rJ, rL, hh.1, hh.2,
          (C20_GaussJacobi_points_reversed legendreService 100 200 4 Buf.fresh Buf.fresh
            Buf.fresh Buf.fresh (fun _ => ⟨rfl, rfl⟩)).1 rJ rL hh.1 hh.2⟩⟩

theorem C16_legendre_derivative_witness :
    ∃ r, legendreEval 10 3 (1 / 2 : ℝ) = some r ∧
      ∃ Pn_1 Pn,
        forLe 3 (fun j s => some (legendreStep (1 / 2 : ℝ) j s)) 10 1 ((0 : ℝ), (1 : ℝ))
          = some (Pn_1, Pn) ∧
        r = (Pn, ((3 : Nat) : ℝ) * (Pn_1 - 1 / 2 * Pn) / (1 - (1 / 2 : ℝ) ^ 2)) ∧
        HasDerivAt (legendreReference 3) r.2 (1 / 2 : ℝ) :=
  Exists.elim ((C16_legendre_derivative 10 3 (1 / 2)).2 (by decide) (by decide)) fun r hr =>
    Exists.elim ((C16_legendre_derivative 10 3 (1 / 2)).1 r hr) fun Pn_1 h1 =>
      Exists.elim h1 fun Pn h2 => ⟨r, hr, Pn_1, Pn, h2.1, h2.2.1, h2.2.2 (by norm_num)⟩

theorem C18_recurrence_is_legendre_witness :
    ∃ s, forLe 3 (fun j s => some (legendreStep (1 / 2 : ℚ) j s)) 10 1 ((0 : ℚ), (1 : ℚ))
        = some s ∧
      s = (legendreReference (3 - 1) (1 / 2 : ℚ), legendreReference 3 (1 / 2 : ℚ)) :=
  Exists.elim ((C18_recurrence_is_legendre 10 3 (1 / 2 : ℚ)).2.1 (by decide) (by decide))
    fun s hs => ⟨s, hs, (C18_recurrence_is_legendre 10 3 (1 / 2 : ℚ)).1 (by decide) s hs⟩

/-! ## GaussLegendre: the one-point rule with the seed of the program -/

theorem Tolerance_lt {K : Type} [LinearOrderedField K] : (Tolerance : K) < 1 / 10 ^ 14 := by
  unfold Tolerance
  norm_num

/-- For `n = 1` and a seed `s` with `|s| ≤ Tolerance`, the Newton loop ends after its first
pass with `x = s`, `Pn = s` and `dPn = 1`. -/
theorem legendreRoot_one_small {K : Type} [LinearOrderedField K] (cos : K → K) (pi s : K)
    (hseed : cos (pi * (4 * ((1 : Nat) : K) - 1) / (4 * ((1 : Nat) : K) + 2)) = s)
    (hs : |s| ≤ Tolerance) :
    legendreRoot cos pi 1 1 = (s, s, 1) ∧ (1 : K) - s * s ≠ 0 := by
  have hT := Tolerance_lt (K := K)
  have hs1 : |s| < 1 := by
    have : (1 : K) / 10 ^ 14 ≤ 1 := by
      rw [div_le_one (by positivity)]
      norm_num
    linarith
  have hss : s * s < 1 := by
    have h := abs_nonneg s
    have h2 : |s| * |s| < 1 := by nlinarith
    rwa [← abs_mul, abs_mul_self] at h2
  have hne : (1 : K) - s * s ≠ 0 := by
    intro h
    linarith
  refine ⟨?_, hne⟩
  have h0 : s - 0 / 1 = s := by simp
  unfold legendreRoot
  rw [hseed, newtonPure_stop]
  · rw [h0, legendreValue_one, div_self hne]
  · rw [h0, legendreValue_one]
    exact not_lt.mpr hs

/-- For `n = 1` and a seed `s` with `|s| ≤ Tolerance`, `GaussLegendre` returns `points[0] = s`
and `weights[0] = 2 / (1 - s*s)`, which is within `1e-15` of `2`; its Newton loop makes one
pass. -/
theorem GaussLegendre_one_small_seed {K : Type} [LinearOrderedField K] (cos : K → K)
    (pi s : K) (fuel : Nat) (points weights : Buf K) (hfuel : MaxIterations ≤ fuel)
    (hseed : cos (pi * (4 * ((1 : Nat) : K) - 1) / (4 * ((1 : Nat) : K) + 2)) = s)
    (hs : |s| ≤ Tolerance) :
    ∃ out, GaussLegendre cos pi fuel points weights 1 = some out ∧
      out.1.val 0 = s ∧ out.2.val 0 = 2 / (1 - s * s) ∧ |out.2.val 0 - 2| ≤ 1 / 10 ^ 15 ∧
      newtonTrace (legendreEval fuel 1) fuel 0 s 0 1 = some [(s, s, 1)] := by
  have hM : 1 < fuel := by unfold MaxIterations at hfuel; omega
  obtain ⟨hroot, hne⟩ := legendreRoot_one_small cos pi s hseed hs
  refine ⟨_, GaussLegendre_eq cos pi fuel 1 points weights (by decide) hM hfuel, ?_⟩
  obtain ⟨h1, h2, -, -⟩ := legendre_after cos pi 1 points weights ((1 + 1) / 2) (le_refl _)
  rw [h1, h2]
  have e0 : legendrePointsAfter cos pi 1 ((1 + 1) / 2) points.val 0
      = (legendreRoot cos pi 1 1).1 := by
    simp [legendrePointsAfter]
  have e1 : legendreWeightsAfter cos pi 1 ((1 + 1) / 2) weights.val 0
      = legendreWeight cos pi 1 1 := by
    simp [legendreWeightsAfter]
  have hw : legendreWeight cos pi 1 1 = 2 / (1 - s * s) := by
    unfold legendreWeight
    rw [hroot]
    simp
  rw [e0, e1, hroot, hw]
  refine ⟨rfl, rfl, ?_, ?_⟩
  · have hT := Tolerance_lt (K := K)
    have hss : s * s ≤ 1 / 10 ^ 28 := by
      have h := abs_nonneg s
      have h2 : |s| * |s| ≤ 1 / 10 ^ 14 * (1 / 10 ^ 14) := by
        exact mul_le_mul (by linarith) (by linarith) h (by positivity)
      rw [← abs_mul, abs_mul_self] at h2
      calc s * s ≤ 1 / 10 ^ 14 * (1 / 10 ^ 14) := h2
        _ = 1 / 10 ^ 28 := by norm_num
    have hss0 : 0 ≤ s * s := mul_self_nonneg s
    have hpos : (0 : K) < 1 - s * s := by
      have : (1 : K) / 10 ^ 28 < 1 := by
        rw [div_lt_one (by positivity)]
        norm_num
      linarith
    have e : 2 / (1 - s * s) - 2 = 2 * (s * s) / (1 - s * s) := by
      field_simp
      ring
    rw [e, abs_of_nonneg (div_nonneg (by positivity) (le_of_lt hpos)), div_le_iff₀ hpos]
    have h3 : (1 : K) / 10 ^ 15 * (1 - s * s) ≥ 1 / 10 ^ 15 * (1 - 1 / 10 ^ 28) := by
      apply mul_le_mul_of_nonneg_left _ (by positivity)
      linarith
    have h4 : (2 : K) * (1 / 10 ^ 28) ≤ 1 / 10 ^ 15 * (1 - 1 / 10 ^ 28) := by norm_num
    linarith
  · obtain ⟨f, rfl⟩ : ∃ f, fuel = f + 1 := ⟨fuel - 1, by omega⟩
    have h0 : s - 0 / 1 = s := by simp
    have hev : legendreEval (f + 1) 1 (s - 0 / 1) = some (s, 1) := by
      rw [h0, legendreEval_eq (f + 1) 1 s (by decide) hM, legendreValue_one, div_self hne]
    have hc : ¬ (|((s, (1 : K))).1| > Tolerance ∧ 0 + 1 < MaxIterations) :=
      fun h => absurd h.1 (not_lt.mpr hs)
    have h := newtonTrace_stop (legendreEval (f + 1) 1) f 0 s 0 1 _ hev hc
    rw [h0] at h
    exact h

/-- The seed of the one-point rule with the program's constant: `cos (M_PI*3/6)`, for the
exact cosine, is positive and at most `Tolerance`, since `M_PI` is below `π` by less than
`1.3e-16`. -/
theorem seed_one_M_PI :
    0 < Real.cos (M_PI * (4 * ((1 : Nat) : ℝ) - 1) / (4 * ((1 : Nat) : ℝ) + 2)) ∧
    |Real.cos (M_PI * (4 * ((1 : Nat) : ℝ) - 1) / (4 * ((1 : Nat) : ℝ) + 2))| ≤ Tolerance := by
  have hlo := Real.pi_gt_d20
  have hhi := Real.pi_lt_d20
  have harg : (M_PI : ℝ) * (4 * ((1 : Nat) : ℝ) - 1) / (4 * ((1 : Nat) : ℝ) + 2) = M_PI / 2 := by
    push_cast
    ring
  have hM1 : (M_PI : ℝ) < 3.14159265358979323846 := by
    unfold M_PI
    norm_num
  have hM2 : (3.14159265358979323847 : ℝ) - M_PI ≤ 2 * Tolerance := by
    unfold M_PI Tolerance
    norm_num
  have hM0 : (0 : ℝ) < M_PI := by
    unfold M_PI
    positivity
  rw [harg]
  have hpos : 0 < Real.cos ((M_PI : ℝ) / 2) :=
    Real.cos_pos_of_mem_Ioo ⟨by linarith, by linarith⟩
  refine ⟨hpos, ?_⟩
  rw [abs_of_pos hpos, ← Real.sin_pi_div_two_sub]
  have h1 : Real.sin (Real.pi / 2 - M_PI / 2) ≤ Real.pi / 2 - M_PI / 2 :=
    Real.sin_le (by linarith)
  linarith

/-- C9, as stated, fails on the seed: with the program's `M_PI` (the double nearest to `π`)
the seed `cos (M_PI*3/6)` is not `0`, for the exact cosine and for the double that `cos`
returns there alike; `GaussLegendre` with `n = 1` returns this seed in `points[0]`, which is
`6.123233995736766e-17` in double arithmetic, not `0`. -/
theorem C9_seed_not_zero_counterexample :
    (∃ out, GaussLegendre Real.cos M_PI 100 Buf.fresh Buf.fresh 1 = some out ∧
      Real.cos (M_PI * (4 * ((1 : Nat) : ℝ) - 1) / (4 * ((1 : Nat) : ℝ) + 2)) ≠ 0 ∧
      out.1.val 0 = Real.cos (M_PI * (4 * ((1 : Nat) : ℝ) - 1) / (4 * ((1 : Nat) : ℝ) + 2)) ∧
      out.1.val 0 ≠ 0) ∧
    (∃ out, GaussLegendre (fun _ => cosHalfPi) M_PI 100 Buf.fresh Buf.fresh 1 = some out ∧
      out.1.val 0 = 4967757600021511 / 2 ^ 106 ∧ out.1.val 0 ≠ 0) := by
  constructor
  · obtain ⟨hpos, hs⟩ := seed_one_M_PI
    obtain ⟨out, hout, h1, -, -, -⟩ := GaussLegendre_one_small_seed Real.cos M_PI _ 100
      Buf.fresh Buf.fresh (by decide) rfl hs
    exact ⟨out, hout, ne_of_gt hpos, h1, by rw [h1]; exact ne_of_gt hpos⟩
  · have hs : |cosHalfPi| ≤ Tolerance := by
      unfold cosHalfPi Tolerance
      rw [abs_of_pos (by positivity)]
      norm_num
    obtain ⟨out, hout, h1, -, -, -⟩ := GaussLegendre_one_small_seed (fun _ => cosHalfPi) M_PI
      cosHalfPi 100 Buf.fresh Buf.fresh (by decide) rfl hs
    refine ⟨out, hout, ?_, ?_⟩
    · rw [h1]
      rfl
    · rw [h1]
      unfold cosHalfPi
      positivity

theorem GaussLegendre_one_small_seed_witness :
    MaxIterations ≤ 100 ∧
    Real.cos (M_PI * (4 * ((1 : Nat) : ℝ) - 1) / (4 * ((1 : Nat) : ℝ) + 2))
      = Real.cos (M_PI * (4 * ((1 : Nat) : ℝ) - 1) / (4 * ((1 : Nat) : ℝ) + 2)) ∧
    |Real.cos (M_PI * (4 * ((1 : Nat) : ℝ) - 1) / (4 * ((1 : Nat) : ℝ) + 2))| ≤ Tolerance ∧
    ∃ out, GaussLegendre Real.cos M_PI 100 (Buf.init fun _ => 5) (Buf.init fun _ => 5) 1
        = some out ∧
      out.1.val 0 = Real.cos (M_PI * (4 * ((1 : Nat) : ℝ) - 1) / (4 * ((1 : Nat) : ℝ) + 2)) ∧
      out.2.val 0 = 2 / (1 - Real.cos (M_PI * (4 * ((1 : Nat) : ℝ) - 1) / (4 * ((1 : Nat) : ℝ) + 2))
        * Real.cos (M_PI * (4 * ((1 : Nat) : ℝ) - 1) / (4 * ((1 : Nat) : ℝ) + 2))) ∧
      |out.2.val 0 - 2| ≤ 1 / 10 ^ 15 ∧
      newtonTrace (legendreEval 100 1) 100 0
          (Real.cos (M_PI * (4 * ((1 : Nat) : ℝ) - 1) / (4 * ((1 : Nat) : ℝ) + 2))) 0 1
        = some [(Real.cos (M_PI * (4 * ((1 : Nat) : ℝ) - 1) / (4 * ((1 : Nat) : ℝ) + 2)),
            Real.cos (M_PI * (4 * ((1 : Nat) : ℝ) - 1) / (4 * ((1 : Nat) : ℝ) + 2)), 1)] :=
  ⟨by decide, rfl, seed_one_M_PI.2,
    GaussLegendre_one_small_seed Real.cos M_PI _ 100 _ _ (by decide) rfl seed_one_M_PI.2⟩

/-! ## The Newton loop over an arbitrary arithmetic -/

/-- In the arithmetic of an ordered field the Newton loop is the one of `newtonTrace`. -/
theorem newtonA_field {K : Type} [LinearOrderedField K] (cos : K → K) (pi : K)
    (eval : K → Option (K × K)) :
    ∀ (fuel it : Nat) (x Pn dPn : K),
      newtonA (fieldArith cos pi) eval fuel it x Pn dPn = newtonTrace eval fuel it x Pn dPn := by
  intro fuel
  induction fuel with
  | zero => intro it x Pn dPn; rfl
  | succ f ih =>
    intro it x Pn dPn
    simp only [newtonA, newtonTrace, fieldArith, decide_eq_true_eq]
    cases hev : eval (x - Pn / dPn) with
    | none => rfl
    | some r =>
      simp only [Option.some_bind]
      by_cases hc : |r.1| > Tolerance ∧ it + 1 < MaxIterations
      · rw [if_pos hc, if_pos hc]
        have h := ih (it + 1) (x - Pn / dPn) r.1 r.2
        simp only [fieldArith] at h
        rw [h]
      · rw [if_neg hc, if_neg hc]

/-- The final values of `newton` are those of the last pass on the record of `newtonTrace`, and
one returns exactly when the other does. -/
theorem newton_eq_last {K : Type} [LinearOrderedField K] (eval : K → Option (K × K)) :
    ∀ (fuel it : Nat) (x Pn dPn : K),
      newton eval fuel it x Pn dPn
        = (newtonTrace eval fuel it x Pn dPn).bind fun L => L.getLast? := by
  intro fuel
  induction fuel with
  | zero => intro it x Pn dPn; rfl
  | succ f ih =>
    intro it x Pn dPn
    simp only [newton, newtonTrace]
    cases hev : eval (x - Pn / dPn) with
    | none => rfl
    | some r =>
      simp only [Option.some_bind]
      by_cases hc : |r.1| > Tolerance ∧ it + 1 < MaxIterations
      · rw [if_pos hc, if_pos hc, ih]
        cases hL : newtonTrace eval f (it + 1) (x - Pn / dPn) r.1 r.2 with
        | none => rfl
        | some L1 =>
          have hlen := (newtonTrace_spec eval f (it + 1) _ _ _ L1 hL).2.1
          cases L1 with
          | nil => simp at hlen
          | cons a L2 => simp [List.getLast?_cons_cons]
      · rw [if_neg hc, if_neg hc]
        rfl

theorem legendreStepA_field {K : Type} [LinearOrderedField K] (cos : K → K) (pi : K) (x : K)
    (j : Nat) (s : K × K) : legendreStepA (fieldArith cos pi) x j s = legendreStep x j s := by
  simp [legendreStepA, legendreStep, fieldArith]

theorem legendreEvalA_field {K : Type} [LinearOrderedField K] (cos : K → K) (pi : K)
    (fuel n : Nat) (x : K) : legendreEvalA (fieldArith cos pi) fuel n x = legendreEval fuel n x := by
  unfold legendreEvalA legendreEval
  have h : (fun j s => some (legendreStepA (fieldArith cos pi) x j s))
      = fun j s => some (legendreStep x j s) := by
    funext j s
    rw [legendreStepA_field]
  rw [h]
  simp [fieldArith]

/-- In the arithmetic of an ordered field the generic `GaussLegendre` is `GaussLegendre`. -/
theorem GaussLegendreA_field {K : Type} [LinearOrderedField K] (cos : K → K) (pi : K)
    (fuel : Nat) (points weights : Buf K) (n : Nat) :
    GaussLegendreA (fieldArith cos pi) fuel points weights n
      = GaussLegendre cos pi fuel points weights n := by
  unfold GaussLegendreA GaussLegendre
  have h : legendreBodyA (fieldArith cos pi) fuel n = legendreBody cos pi fuel n := by
    funext i pw
    unfold legendreBodyA legendreBody
    have he : legendreEvalA (fieldArith cos pi) fuel n = legendreEval fuel n := by
      funext x
      exact legendreEvalA_field cos pi fuel n x
    rw [he, newtonA_field, newton_eq_last, Option.bind_assoc]
    simp [fieldArith, legendreSeedA]
  rw [h]

theorem weightFactorA_field {K : Type} [LinearOrderedField K] (cos : K → K) (pi : K)
    (F : Functions K) (n a b : Nat) :
    weightFactorA (fieldArith cos pi) F n a b = weightFactor F n a b := by
  simp [weightFactorA, weightFactor, fieldArith]

/-- In the arithmetic of an ordered field the generic `GaussJacobi` is `GaussJacobi`. -/
theorem GaussJacobiA_field {K : Type} [LinearOrderedField K] (cos : K → K) (pi : K)
    (F : Functions K) (fuel : Nat) (points weights : Buf K) (n a b : Nat) :
    GaussJacobiA (fieldArith cos pi) F fuel points weights n a b
      = GaussJacobi F cos pi fuel points weights n a b := by
  unfold GaussJacobiA GaussJacobi
  have h : jacobiBodyA (fieldArith cos pi) F fuel n a b = jacobiBody F cos pi fuel n a b := by
    funext i pw
    unfold jacobiBodyA jacobiBody
    rw [newtonA_field, newton_eq_last, Option.bind_assoc, weightFactorA_field]
    simp [fieldArith, jacobiSeedA]
  rw [h]

/-- In an ordered field the loop test `fabs(Pn) > Tolerance` fails exactly when
`|Pn| ≤ Tolerance`. -/
theorem fieldArith_test {K : Type} [LinearOrderedField K] (cos : K → K) (pi : K) (p : K) :
    (fieldArith cos pi).gt ((fieldArith cos pi).fabs p) (fieldArith cos pi).Tolerance = false
      ↔ |p| ≤ Tolerance := by
  simp [fieldArith]

/-! ## The recurrence in an arbitrary arithmetic -/

theorem iterUp_legendreStepA {V : Type} (A : Arith V) (x : V) (n : Nat) :
    iterUp (legendreStepA A x) 1 n (A.ofNat 0, A.ofNat 1) = legendrePA A x n := by
  induction n with
  | zero => rfl
  | succ n ih =>
    unfold iterUp legendrePA
    rw [ih, Nat.add_comm 1 n]

/-- The recurrence loop ends for every `n < UINT_MAX`, in any arithmetic, and returns the values
of `recurrenceService`. -/
theorem legendreEvalA_eq {V : Type} (A : Arith V) (fuel n a b : Nat) (x : V)
    (hn : n < UINT_MAX) (hfuel : n < fuel) :
    legendreEvalA A fuel n x = jacobiEval (recurrenceService A) n a b x := by
  unfold legendreEvalA
  rw [forLe_eq n _ (legendreStepA A x) 1 hn (fun _ _ _ _ => rfl) n 1 fuel _ (le_refl 1)
    (by omega) hfuel, iterUp_legendreStepA]
  rfl

/-! ## The exit test of the Newton loop, in any arithmetic -/

/-- In IEEE arithmetic the loop test `fabs(Pn) > Tolerance` fails when `Pn` is not a number. -/
theorem ieee_test_nan (table : List (Dbl × Dbl)) :
    (ieee table).gt ((ieee table).fabs Dbl.nan) (ieee table).Tolerance = false := by
  simp [ieee, Dbl.fabs, Dbl.gt]

/-- The Newton loop of `GaussLegendre` for `n = 2` in IEEE arithmetic, started at `x = 1.0`:
the first pass gives `Pn = 1.0` and `dPn = 0/0`, not a number; the second pass is made at
`x = 1.0 - 1.0/dPn`, not a number, and gives `Pn` not a number; the loop exits there, after two
of the `MaxIterations` passes, with a `Pn` of which neither `|Pn| ≤ Tolerance` nor
`|Pn| > Tolerance` holds. -/
theorem newtonA_exit_at_nan :
    newtonA (ieee cosTable) (legendreEvalA (ieee cosTable) 100 2) 100 0 (Dbl.ofNat 1)
        (Dbl.ofNat 0) (Dbl.ofNat 1)
      = some [(Dbl.ofNat 1, Dbl.ofNat 1, Dbl.nan), (Dbl.nan, Dbl.nan, Dbl.nan)] := by
  decide!

/-- The operations of `Dbl` on values whose IEEE results are known: `0.1 + 0.2` is
`0.30000000000000004`, `0.1 * 0.1` and `0.1 - 0.3` are rounded, `1/3` is rounded down; a tie
goes to the even neighbour (`1 + 2^-53 = 1`, `1 + 3 * 2^-53 = 1 + 2^-51`, `2^53 + 1` converts to
`2^53`, `2^53 + 3` to `2^53 + 4`); `M_PI` is `0x400921FB54442D18`, `M_PI*3./6.` is `M_PI/2`
without error, `Tolerance` is `10 * 2^-52`; `0/0` and `inf - inf` are not numbers, `1/0` is an
infinity, and a comparison with not-a-number, or of `Tolerance` with itself, is false. -/
theorem Dbl_known_values :
    Dbl.add (Dbl.fin false 7205759403792794 (-56)) (Dbl.fin false 7205759403792794 (-55))
      = Dbl.fin false 5404319552844596 (-54) ∧
    Dbl.mul (Dbl.fin false 7205759403792794 (-56)) (Dbl.fin false 7205759403792794 (-56))
      = Dbl.fin false 5764607523034236 (-59) ∧
    Dbl.sub (Dbl.fin false 7205759403792794 (-56)) (Dbl.fin false 5404319552844595 (-54))
      = Dbl.fin true 7205759403792793 (-55) ∧
    Dbl.div (Dbl.ofNat 1) (Dbl.ofNat 3) = Dbl.fin false 6004799503160661 (-54) ∧
    Dbl.add (Dbl.ofNat 1) (Dbl.round false 1 (-53) false) = Dbl.ofNat 1 ∧
    Dbl.add (Dbl.ofNat 1) (Dbl.round false 3 (-53) false)
      = Dbl.fin false 4503599627370498 (-52) ∧
    Dbl.ofNat (2 ^ 53 + 1) = Dbl.fin false 4503599627370496 1 ∧
    Dbl.ofNat (2 ^ 53 + 3) = Dbl.fin false 4503599627370498 1 ∧
    Dbl.ofInt (-7) = Dbl.fin true 7881299347898368 (-50) ∧
    (ieee cosTable).M_PI = Dbl.fin false 7074237752028440 (-51) ∧
    Dbl.div (Dbl.mul (ieee cosTable).M_PI (Dbl.ofNat 3)) (Dbl.ofNat 6)
      = Dbl.fin false 7074237752028440 (-52) ∧
    (ieee cosTable).Tolerance = Dbl.fin false 5629499534213120 (-101) ∧
    Dbl.div (Dbl.ofNat 0) (Dbl.ofNat 0) = Dbl.nan ∧
    Dbl.div (Dbl.ofNat 1) (Dbl.ofNat 0) = Dbl.inf false ∧
    Dbl.sub (Dbl.inf false) (Dbl.inf false) = Dbl.nan ∧
    Dbl.gt Dbl.nan (Dbl.ofNat 0) = false ∧
    Dbl.gt (Dbl.ofNat 0) Dbl.nan = false ∧
    Dbl.gt (ieee cosTable).Tolerance (ieee cosTable).Tolerance = false ∧
    Dbl.gt (Dbl.fin false 5629499534213121 (-101)) (ieee cosTable).Tolerance = true := by
  decide!

/-! ## The generators in IEEE arithmetic -/

/-- C9, amended: in IEEE double arithmetic `GaussLegendre` with `n = 1` returns in `points[0]`
the seed `s = cos(M_PI*3./6.) = 4967757600021511 * 2^-106`, about `6.1e-17` and not `0`, and in
`weights[0]` exactly `2.0`: the first evaluation gives `P_1(s) = s` and `dPn = 1.0`, the test
`fabs(Pn) > Tolerance` is false, so the Newton loop makes exactly one pass and ends with
`x = s`; `1 - s*s` rounds to `1.0` and the weight formula yields `2.0`. -/
theorem C9_GaussLegendre_one_ieee :
    legendreSeedA (ieee cosTable) 1 1 = Dbl.fin false 4967757600021511 (-106) ∧
    legendreSeedA (ieee cosTable) 1 1 ≠ Dbl.ofNat 0 ∧
    newtonA (ieee cosTable) (legendreEvalA (ieee cosTable) 100 1) 100 0
        (legendreSeedA (ieee cosTable) 1 1) (Dbl.ofNat 0) (Dbl.ofNat 1)
      = some [(Dbl.fin false 4967757600021511 (-106), Dbl.fin false 4967757600021511 (-106),
          Dbl.ofNat 1)] ∧
    (ieee cosTable).gt ((ieee cosTable).fabs (Dbl.fin false 4967757600021511 (-106)))
      (ieee cosTable).Tolerance = false ∧
    (ieee cosTable).sub (Dbl.ofNat 1)
        ((ieee cosTable).mul (Dbl.fin false 4967757600021511 (-106))
          (Dbl.fin false 4967757600021511 (-106))) = Dbl.ofNat 1 ∧
    ((GaussLegendreA (ieee cosTable) 100 (Buf.init fun _ => Dbl.ofNat 5)
        (Buf.init fun _ => Dbl.ofNat 5) 1).map
          fun r => (r.1.val 0, r.2.val 0, r.1.log, r.2.log))
      = some (Dbl.fin false 4967757600021511 (-106), Dbl.ofNat 2, [0, 0], [0, 0]) := by
  decide!

/-- C20, as stated, fails in IEEE arithmetic: for `n = 12`, with the service returning for
`a = b = 0` the value and the derivative value that the recurrence of `GaussLegendre` computes,
`GaussJacobi(12,0,0)` holds at index `6` the point `-4512009055252708 * 2^-55` while
`GaussLegendre(12)` holds at index `12-1-6 = 5` the point `-4512009055252709 * 2^-55`: the two
differ in the last binary digit. -/
theorem C20_rounding_counterexample :
    (∀ x, legendreEvalA (ieee cosTable) 100 12 x
      = jacobiEval (recurrenceService (ieee cosTable)) 12 0 0 x) ∧
    ∃ rJ rL,
      GaussJacobiA (ieee cosTable) (recurrenceService (ieee cosTable)) 100
        (Buf.init fun _ => Dbl.fin false 0 0) (Buf.init fun _ => Dbl.fin false 0 0) 12 0 0
          = some rJ ∧
      GaussLegendreA (ieee cosTable) 100 (Buf.init fun _ => Dbl.fin false 0 0)
        (Buf.init fun _ => Dbl.fin false 0 0) 12 = some rL ∧
      rJ.1.val 6 = Dbl.fin true 4512009055252708 (-55) ∧
      rL.1.val (12 - 1 - 6) = Dbl.fin true 4512009055252709 (-55) ∧
      rJ.1.val 6 ≠ rL.1.val (12 - 1 - 6) := by
  have hJ : ((GaussJacobiA (ieee cosTable) (recurrenceService (ieee cosTable)) 100
      (Buf.init fun _ => Dbl.fin false 0 0) (Buf.init fun _ => Dbl.fin false 0 0) 12 0 0).map
        fun r => r.1.val 6) = some (Dbl.fin true 4512009055252708 (-55)) := by
    decide!
  have hL : ((GaussLegendreA (ieee cosTable) 100 (Buf.init fun _ => Dbl.fin false 0 0)
      (Buf.init fun _ => Dbl.fin false 0 0) 12).map fun r => r.1.val (12 - 1 - 6))
        = some (Dbl.fin true 4512009055252709 (-55)) := by
    decide!
  obtain ⟨rJ, hJ1, hJ2⟩ := Option.map_eq_some'.1 hJ
  obtain ⟨rL, hL1, hL2⟩ := Option.map_eq_some'.1 hL
  refine ⟨fun x => legendreEvalA_eq (ieee cosTable) 100 12 0 0 x (by decide) (by decide),
    rJ, rL, hJ1, hL1, hJ2, hL2, ?_⟩
  rw [hJ2, hL2]
  decide

end seissol.quadrature
